import Mathlib

/-!
# A bounded-region point quadtree (`quadtree.c`)

A shallow embedding of the quadtree of `quadtree.c`: regions, nodes,
subdivision, insertion, exact-point query, the axis count and the
stackless axis scans, and of the two helpers `nextpow2` and `sort_issorted`
of the test program `test_quadtree_scan_y_sorted.c`, followed by theorems
about them.

Conventions of the embedding.

* `unsigned int` values are natural numbers below `U32 = 2 ^ 32`; every
  arithmetic operation the code performs on coordinates is reduced modulo
  `U32` exactly where the C expression wraps.  A difference `a - b` is
  written `(U32 + a - b) % U32`, with the modulus first, so that a term with
  variables in it does not unfold the numeral.
* A node is either a leaf (its `points` field addresses an array of four
  point slots) or an internal node (its `points` field holds `NULL` or one
  of the scan markers, and its four child links are set).  The parent link
  of a node is the enclosing constructor; the scans, which follow parent
  links, run on a zipper (`Frame`, `Loc`).
* Functions that mutate the tree return the new tree next to their C
  return value.  A run that dereferences `NULL`, reads an uninitialised
  variable or trips an `assert` ends in a `Fault`; recursion that the code
  does not bound is given fuel and ends in `Fault.fuel` when it runs out.
* The counters `*p`, `j`, `ret` and the buffer capacity `arr_size` are
  natural numbers: `*p` grows by at most one per stored point on the scan
  line, so the machine counters neither wrap nor change sign on a tree with
  fewer than `2 ^ 31` such points.
* Allocation succeeds: the code leaves the process through `exit` when
  `malloc` or `calloc` returns `NULL`, and no such run is followed here.
-/

namespace Quadtree

/-- The modulus of `unsigned int` arithmetic, `2 ^ 32`.  It is irreducible so
that elaboration never unfolds the numeral; `U32_eq` gives its value. -/
@[irreducible] def U32 : Nat := 4294967296

/-- Ways in which a run of the C code leaves defined behaviour, or in which
the embedding stops following it. -/
inductive Fault where
  /-- a member is read through a `NULL` pointer -/
  | null_deref
  /-- a pointer that addresses no allocated object is dereferenced -/
  | wild_deref
  /-- an uninitialised local variable is read -/
  | uninit
  /-- `assert(0)` (or an `assert` whose condition is false) is reached -/
  | assert_fail
  /-- the fuel of the embedding ran out before the C function returned -/
  | fuel
deriving DecidableEq, Repr

/-- Modelled from the spec: the declaration of `QUADTREE_POINT` lives in
`quadtree.h`, which is not among the sources; the code uses the two
`unsigned int` members `x` and `y`. -/
structure QUADTREE_POINT where
  x : Nat
  y : Nat
deriving DecidableEq, Repr

/-- Modelled from the spec: the region member of a node (declared in
`quadtree.h`): north-west corner, south-east corner, and the derived
`width` and `height`, all `unsigned int`. -/
structure QUADTREE_REGION where
  nw : QUADTREE_POINT
  se : QUADTREE_POINT
  width : Nat
  height : Nat
deriving DecidableEq, Repr

/-- Modelled from the spec: the node type of `quadtree.h`.  `leaf` is a node
whose `points` member addresses its four slots (the child links are the
`NULL` that `calloc` left); `internal` is a node whose `points` member holds
the integer `points` (`NULL`, that is `0`, at rest, a marker during a scan)
and whose `nw`, `ne`, `sw`, `se` links address the four children. -/
inductive QUADTREE_NODE where
  | leaf (region : QUADTREE_REGION) (p0 p1 p2 p3 : QUADTREE_POINT)
  | internal (region : QUADTREE_REGION) (points : Nat) (nw ne sw se : QUADTREE_NODE)
deriving DecidableEq, Repr

/-- Modelled from the spec: the tree handle of `quadtree.h`, which owns the
root node. -/
structure QUADTREE where
  root : QUADTREE_NODE
deriving DecidableEq, Repr

/-- The slot value `memset(..., 0xFFFFFFFF, ...)` leaves: every bit of both
coordinates set. -/
def EMPTY : QUADTREE_POINT := ⟨U32 - 1, U32 - 1⟩

/-- The `region` member of a node. -/
def QUADTREE_NODE.region : QUADTREE_NODE → QUADTREE_REGION
  | .leaf r _ _ _ _ => r
  | .internal r _ _ _ _ _ => r

/-- `_quadtree_node_init`: a fresh leaf with the given corners, four empty
slots, `width = maxx - minx + 1` and `height = maxy - miny + 1` in
`unsigned int` arithmetic; `assert(0)` when they differ.  (The parent link
it records is the position of the node in the tree.) -/
def _quadtree_node_init (minx miny maxx maxy : Nat) : Except Fault QUADTREE_NODE :=
  let width := (U32 + maxx - minx + 1) % U32
  let height := (U32 + maxy - miny + 1) % U32
  if width ≠ height then .error .assert_fail
  else .ok (.leaf ⟨⟨minx, miny⟩, ⟨maxx, maxy⟩, width, height⟩ EMPTY EMPTY EMPTY EMPTY)

/-- `quadtree_init`: the tree whose root is a fresh leaf on
`[0, xmax] x [0, ymax]`. -/
def quadtree_init (xmax ymax : Nat) : Except Fault QUADTREE :=
  match _quadtree_node_init 0 0 xmax ymax with
  | .error e => .error e
  | .ok n => .ok ⟨n⟩

/-- The inclusive range test of `_quadtree_node_contains`, on a region. -/
def QUADTREE_REGION.contains (r : QUADTREE_REGION) (x y : Nat) : Bool :=
  (decide (x ≥ r.nw.x) && decide (x ≤ r.se.x)) && (decide (y ≥ r.nw.y) && decide (y ≤ r.se.y))

/-- `_quadtree_node_contains`. -/
def _quadtree_node_contains (n : QUADTREE_NODE) (x y : Nat) : Bool :=
  n.region.contains x y

/-- `_quadtree_node_isleaf`: `n->points != NULL`. -/
def _quadtree_node_isleaf : QUADTREE_NODE → Bool
  | .leaf _ _ _ _ _ => true
  | .internal _ m _ _ _ _ => decide (m ≠ 0)

/-- `_quadtree_insert_into_internal`: store `(x, y)` in the first slot that
still holds the empty value and return 1, or return 0 when there is none.
On a node whose `points` member is not a slot array the `memcmp` reads
through `NULL` or through a marker. -/
def _quadtree_insert_into_internal (n : QUADTREE_NODE) (x y : Nat) :
    Except Fault (QUADTREE_NODE × Bool) :=
  match n with
  | .leaf r p0 p1 p2 p3 =>
    if p0 = EMPTY then .ok (.leaf r ⟨x, y⟩ p1 p2 p3, true)
    else if p1 = EMPTY then .ok (.leaf r p0 ⟨x, y⟩ p2 p3, true)
    else if p2 = EMPTY then .ok (.leaf r p0 p1 ⟨x, y⟩ p3, true)
    else if p3 = EMPTY then .ok (.leaf r p0 p1 p2 ⟨x, y⟩, true)
    else .ok (.leaf r p0 p1 p2 p3, false)
  | .internal _ m _ _ _ _ => if m = 0 then .error .null_deref else .error .wild_deref

/-- The first half of `_quadtree_node_subdivide` (the lines up to the four
calls of `_quadtree_node_init`): `hx` and `hy` are half the width and the
height of the region, the corners of the children are computed from them,
every sum and difference in `unsigned int` arithmetic, and the children
`nw`, `ne`, `sw`, `se` are initialised in this order. -/
def subdivide_children (r : QUADTREE_REGION) :
    Except Fault (QUADTREE_NODE × QUADTREE_NODE × QUADTREE_NODE × QUADTREE_NODE) :=
  let x := r.nw.x
  let y := r.nw.y
  let hx := (U32 + (1 + r.se.x) % U32 - x) % U32 / 2
  let hy := (U32 + (1 + r.se.y) % U32 - y) % U32 / 2
  match _quadtree_node_init x y ((U32 + (x + hx) - 1) % U32) ((U32 + (y + hy) - 1) % U32) with
  | .error e => .error e
  | .ok nw =>
    match _quadtree_node_init ((x + hx) % U32) y ((U32 + (x + hx + hx) - 1) % U32)
        ((U32 + (y + hy) - 1) % U32) with
    | .error e => .error e
    | .ok ne =>
      match _quadtree_node_init x ((y + hy) % U32) ((U32 + (x + hx) - 1) % U32)
          ((U32 + (y + hy + hy) - 1) % U32) with
      | .error e => .error e
      | .ok sw =>
        match _quadtree_node_init ((x + hx) % U32) ((y + hy) % U32)
            ((U32 + (x + hx + hx) - 1) % U32) ((U32 + (y + hy + hy) - 1) % U32) with
        | .error e => .error e
        | .ok se => .ok (nw, ne, sw, se)

/-- The second loop of `_quadtree_node_subdivide`: put the saved points back
through `_quadtree_insert(n, x, y, 0)` (passed as `ins`), stopping with
return value 1 at the first one that is not placed. -/
def subdivide_reinsert
    (ins : QUADTREE_NODE → Nat → Nat → Bool → Except Fault (QUADTREE_NODE × Bool)) :
    QUADTREE_NODE → List QUADTREE_POINT → Except Fault (QUADTREE_NODE × Bool)
  | n, [] => .ok (n, false)
  | n, pt :: pts =>
    match ins n pt.x pt.y false with
    | .error e => .error e
    | .ok (n1, false) => .ok (n1, true)
    | .ok (n1, true) => subdivide_reinsert ins n1 pts

/-- `_quadtree_node_subdivide`, with the recursive `_quadtree_insert` passed
as `ins`: create the four children, make `n` internal (`points = NULL`) and
reinsert the four saved points.  The Boolean is the C return value (true
for 1, the error return).  The function reads `n->points[i]`, so on a node
without a slot array it reads through `NULL` or a marker. -/
def _quadtree_node_subdivide
    (ins : QUADTREE_NODE → Nat → Nat → Bool → Except Fault (QUADTREE_NODE × Bool))
    (n : QUADTREE_NODE) : Except Fault (QUADTREE_NODE × Bool) :=
  match n with
  | .internal _ m _ _ _ _ => if m = 0 then .error .null_deref else .error .wild_deref
  | .leaf r p0 p1 p2 p3 =>
    match subdivide_children r with
    | .error e => .error e
    | .ok (nw, ne, sw, se) =>
      subdivide_reinsert ins (.internal r 0 nw ne sw se) [p0, p1, p2, p3]

/-- The tail of `_quadtree_insert`: offer the point to `n->nw`, `n->ne`,
`n->sw`, `n->se` in this order through `ins` and return 1 at the first
child that takes it, 0 ("insertion failed") when none does.  A child that
refuses may still have been changed by the attempt.  On a leaf the child
links are `NULL`. -/
def insert_children (ins : QUADTREE_NODE → Except Fault (QUADTREE_NODE × Bool))
    (n : QUADTREE_NODE) : Except Fault (QUADTREE_NODE × Bool) :=
  match n with
  | .leaf _ _ _ _ _ => .error .null_deref
  | .internal r m nw ne sw se =>
    match ins nw with
    | .error e => .error e
    | .ok (nw1, true) => .ok (.internal r m nw1 ne sw se, true)
    | .ok (nw1, false) =>
      match ins ne with
      | .error e => .error e
      | .ok (ne1, true) => .ok (.internal r m nw1 ne1 sw se, true)
      | .ok (ne1, false) =>
        match ins sw with
        | .error e => .error e
        | .ok (sw1, true) => .ok (.internal r m nw1 ne1 sw1 se, true)
        | .ok (sw1, false) =>
          match ins se with
          | .error e => .error e
          | .ok (se1, true) => .ok (.internal r m nw1 ne1 sw1 se1, true)
          | .ok (se1, false) => .ok (.internal r m nw1 ne1 sw1 se1, false)

/-- `_quadtree_insert`.  The first argument is fuel for the recursion. -/
def _quadtree_insert : Nat → QUADTREE_NODE → Nat → Nat → Bool →
    Except Fault (QUADTREE_NODE × Bool)
  | 0, _, _, _, _ => .error .fuel
  | fuel + 1, n, x, y, subdivide =>
    if !_quadtree_node_contains n x y then .ok (n, false)
    else if _quadtree_node_isleaf n then
      match _quadtree_insert_into_internal n x y with
      | .error e => .error e
      | .ok (n1, true) => .ok (n1, true)
      | .ok (n1, false) =>
        if subdivide then
          match _quadtree_node_subdivide (_quadtree_insert fuel) n1 with
          | .error e => .error e
          | .ok (n2, true) => .ok (n2, false)
          | .ok (n2, false) => insert_children (fun c => _quadtree_insert fuel c x y subdivide) n2
        else insert_children (fun c => _quadtree_insert fuel c x y subdivide) n1
    else insert_children (fun c => _quadtree_insert fuel c x y subdivide) n

/-- `quadtree_insert`: `_quadtree_insert(tree->root, x, y, 1)`. -/
def quadtree_insert (fuel : Nat) (tree : QUADTREE) (x y : Nat) : Except Fault (QUADTREE × Bool) :=
  match _quadtree_insert fuel tree.root x y true with
  | .error e => .error e
  | .ok (n, b) => .ok (⟨n⟩, b)

/-- `_quadtree_query`.  At a leaf the four slots are compared with `(x, y)`.
At an internal node the local `c` is assigned by four independent tests, in
the order `ne`, `nw`, `se`, `sw`, so the last test that holds decides; when
none holds `c` is read uninitialised. -/
def _quadtree_query : QUADTREE_NODE → Nat → Nat → Except Fault Bool
  | .leaf _ p0 p1 p2 p3, x, y =>
    .ok ([p0, p1, p2, p3].any (fun pt => decide (pt.x = x) && decide (pt.y = y)))
  | .internal _ m nw ne sw se, x, y =>
    if m ≠ 0 then .error .wild_deref
    else if _quadtree_node_contains sw x y then _quadtree_query sw x y
    else if _quadtree_node_contains se x y then _quadtree_query se x y
    else if _quadtree_node_contains nw x y then _quadtree_query nw x y
    else if _quadtree_node_contains ne x y then _quadtree_query ne x y
    else .error .uninit

/-- `quadtree_query`. -/
def quadtree_query (tree : QUADTREE) (x y : Nat) : Except Fault Bool :=
  _quadtree_query tree.root x y

/-- `_quadtree_count_x`: outside the x-range of the node 0; at an internal
node the sum of the recursive calls the code makes, on `nw`, `sw`, `se` and
`se` again; at a leaf the number of slots whose `x` is the query. -/
def _quadtree_count_x : QUADTREE_NODE → Nat → Except Fault Nat
  | .leaf r p0 p1 p2 p3, x =>
    if x < r.nw.x then .ok 0
    else if x > r.se.x then .ok 0
    else .ok (([p0, p1, p2, p3].filter (fun pt => decide (pt.x = x))).length)
  | .internal r m nw _ sw se, x =>
    if x < r.nw.x then .ok 0
    else if x > r.se.x then .ok 0
    else if m ≠ 0 then .error .wild_deref
    else
      match _quadtree_count_x nw x, _quadtree_count_x sw x, _quadtree_count_x se x with
      | .ok a, .ok b, .ok c => .ok (a + b + c + c)
      | .error e, _, _ => .error e
      | _, .error e, _ => .error e
      | _, _, .error e => .error e

/-- `quadtree_count_x`. -/
def quadtree_count_x (tree : QUADTREE) (x : Nat) : Except Fault Nat :=
  _quadtree_count_x tree.root x

/-- The four child links of an internal node. -/
inductive Dir where
  | nw | ne | sw | se
deriving DecidableEq, Repr

/-- An internal node seen from the child `dir`: its region, its `points`
member and its three other children (in the order `nw`, `ne`, `sw`, `se`).
This is what the `parent` link of that child addresses. -/
structure Frame where
  region : QUADTREE_REGION
  points : Nat
  dir : Dir
  s1 : QUADTREE_NODE
  s2 : QUADTREE_NODE
  s3 : QUADTREE_NODE
deriving DecidableEq, Repr

/-- The internal node of a frame, with `c` as the child the frame is seen
from. -/
def Frame.plug (f : Frame) (c : QUADTREE_NODE) : QUADTREE_NODE :=
  match f.dir with
  | .nw => .internal f.region f.points c f.s1 f.s2 f.s3
  | .ne => .internal f.region f.points f.s1 c f.s2 f.s3
  | .sw => .internal f.region f.points f.s1 f.s2 c f.s3
  | .se => .internal f.region f.points f.s1 f.s2 f.s3 c

/-- A non-null node pointer `n` during a scan: the node it addresses and
the chain of its ancestors, nearest first (`n->parent == NULL` exactly when
the chain is empty). -/
structure Loc where
  up : List Frame
  node : QUADTREE_NODE
deriving DecidableEq, Repr

/-- The statements `n->points = m; n = n->d;` at an internal node. -/
def enter (up : List Frame) (r : QUADTREE_REGION) (m : Nat) (nw ne sw se : QUADTREE_NODE) :
    Dir → Loc
  | .nw => ⟨⟨r, m, .nw, ne, sw, se⟩ :: up, nw⟩
  | .ne => ⟨⟨r, m, .ne, nw, sw, se⟩ :: up, ne⟩
  | .sw => ⟨⟨r, m, .sw, nw, ne, se⟩ :: up, sw⟩
  | .se => ⟨⟨r, m, .se, nw, ne, sw⟩ :: up, se⟩

/-- The statement `n = n->parent;`: the parent, or `NULL` at the root. -/
def leave : Loc → Option Loc
  | ⟨[], _⟩ => none
  | ⟨f :: up, n⟩ => some ⟨up, f.plug n⟩

/-- The caller's side of a scan: the memory cells `out[0]`, `out[1]`, ...
(cell `i` is `out i`, whatever the capacity the caller announced), the
counter `*p` and the local `ret`. -/
structure ScanBuf where
  out : Nat → Nat
  p : Nat
  ret : Bool

/-- `_quadtree_sort_swap` on the cells `a` and `b` of the buffer. -/
def _quadtree_sort_swap (out : Nat → Nat) (a b : Nat) : Nat → Nat :=
  fun k => if k = a then out b else if k = b then out a else out k

/-- The `for` loop of `_quadtree_sort_result_array`, with `n` iterations
left and the cursor at cell `tmp`. -/
def sort_pass (out : Nat → Nat) (tmp : Nat) : Nat → (Nat → Nat)
  | 0 => out
  | n + 1 =>
    sort_pass (if out tmp < out (tmp + 1) then _quadtree_sort_swap out tmp (tmp + 1) else out)
      (tmp + 1) n

/-- The `while (finish > start)` loop of `_quadtree_sort_result_array`, with
`finish = start + len`. -/
def sort_loop (out : Nat → Nat) (start : Nat) : Nat → (Nat → Nat)
  | 0 => out
  | len + 1 => sort_loop (sort_pass out start (len + 1)) start len

/-- `_quadtree_sort_result_array(out + start, out + finish)`; `finish` is an
integer because the scans pass `out + *p - 1`, one cell before `start` when
the segment is empty. -/
def _quadtree_sort_result_array (out : Nat → Nat) (start : Nat) (finish : Int) : Nat → Nat :=
  sort_loop out start (finish - (start : Int)).toNat

/-- The two scans. `_quadtree_scan_x` and `_quadtree_scan_y` run the same
loop and differ in the coordinate they compare and the one they report, in
the order of the children and in one `assert`. -/
inductive Axis where
  | x | y
deriving DecidableEq, Repr

/-- The coordinate of a point that a scan compares with the query. -/
def Axis.key : Axis → QUADTREE_POINT → Nat
  | .x, pt => pt.x
  | .y, pt => pt.y

/-- The coordinate of a matching point that a scan writes to the buffer. -/
def Axis.val : Axis → QUADTREE_POINT → Nat
  | .x, pt => pt.y
  | .y, pt => pt.x

/-- The lower end of a region on the scanned axis. -/
def Axis.lo : Axis → QUADTREE_REGION → Nat
  | .x, r => r.nw.x
  | .y, r => r.nw.y

/-- The upper end of a region on the scanned axis. -/
def Axis.hi : Axis → QUADTREE_REGION → Nat
  | .x, r => r.se.x
  | .y, r => r.se.y

/-- The child a scan enters when it finds the marker `0` (first), then
`0xFCFCFCFC`, `0xFDFDFDFD`, `0xFEFEFEFE`: `sw`, `nw`, `se`, `ne` in
`_quadtree_scan_x` and `se`, `ne`, `sw`, `nw` in `_quadtree_scan_y`. -/
def Axis.order : Axis → Dir × Dir × Dir × Dir
  | .x => (.sw, .nw, .se, .ne)
  | .y => (.se, .ne, .sw, .nw)

/-- One iteration of the `for` loop over the slots of a leaf. -/
def scan_point (a : Axis) (q arr_size : Nat) (b : ScanBuf) (pt : QUADTREE_POINT) : ScanBuf :=
  if a.key pt ≠ q then b
  else if b.p < arr_size then
    ⟨fun k => if k = b.p then a.val pt else b.out k, b.p + 1, b.ret⟩
  else if !b.ret then ⟨b.out, b.p + 1, true⟩
  else b

/-- The leaf branch of the scan loop: `j = *p`, the `for` loop over the four
slots, and the sort of `out[j .. *p - 1]` unless `ret` is set. -/
def scan_leaf (a : Axis) (q arr_size : Nat) (pts : List QUADTREE_POINT) (b : ScanBuf) : ScanBuf :=
  let j := b.p
  let b1 := pts.foldl (scan_point a q arr_size) b
  if !b1.ret then ⟨_quadtree_sort_result_array b1.out j ((b1.p : Int) - 1), b1.p, b1.ret⟩
  else b1

/-- The variables of the scan loop: the node pointer `n` (`none` for
`NULL`) and the caller's buffer, counter and `ret`. -/
structure ScanState where
  n : Option Loc
  buf : ScanBuf

/-- What a scan hands back: the tree as the scan left it, and the buffer,
`*p` and the return value `ret`. -/
structure ScanResult where
  root : QUADTREE_NODE
  buf : ScanBuf

/-- The outcome of one iteration of `while (1)`. -/
inductive ScanStep where
  | next (s : ScanState)
  | done (r : ScanResult)
  | fault (e : Fault)

/-- One iteration of the `while (1)` loop of `_quadtree_scan_x` (axis `x`)
and `_quadtree_scan_y` (axis `y`), for the query coordinate `q`.  A leaf's
`points` member is the address of its slot array, which equals none of the
marker constants. -/
def scan_step (a : Axis) (q arr_size : Nat) (s : ScanState) : ScanStep :=
  match s.n with
  | none => .fault .null_deref
  | some ⟨up, .internal r m nw ne sw se⟩ =>
    if up.isEmpty && decide (m = 0xFFFFFFFF) then
      .done ⟨.internal r 0 nw ne sw se, s.buf⟩
    else if q < a.lo r ∨ q > a.hi r then
      match a, up with
      | .x, [] => .fault .assert_fail
      | _, _ => .next ⟨leave ⟨up, .internal r m nw ne sw se⟩, s.buf⟩
    else if m = 0xFFFFFFFF then .next ⟨leave ⟨up, .internal r 0 nw ne sw se⟩, s.buf⟩
    else if m = 0xFEFEFEFE then .next ⟨some (enter up r 0xFFFFFFFF nw ne sw se a.order.2.2.2), s.buf⟩
    else if m = 0xFDFDFDFD then .next ⟨some (enter up r 0xFEFEFEFE nw ne sw se a.order.2.2.1), s.buf⟩
    else if m = 0xFCFCFCFC then .next ⟨some (enter up r 0xFDFDFDFD nw ne sw se a.order.2.1), s.buf⟩
    else if m = 0 then .next ⟨some (enter up r 0xFCFCFCFC nw ne sw se a.order.1), s.buf⟩
    else .fault .wild_deref
  | some ⟨up, .leaf r p0 p1 p2 p3⟩ =>
    if q < a.lo r ∨ q > a.hi r then
      match a, up with
      | .x, [] => .fault .assert_fail
      | _, _ => .next ⟨leave ⟨up, .leaf r p0 p1 p2 p3⟩, s.buf⟩
    else .next ⟨leave ⟨up, .leaf r p0 p1 p2 p3⟩, scan_leaf a q arr_size [p0, p1, p2, p3] s.buf⟩

/-- The `while (1)` loop, run for at most `fuel` iterations. -/
def scan_loop (a : Axis) (q arr_size : Nat) : Nat → ScanState → Except Fault ScanResult
  | 0, _ => .error .fuel
  | fuel + 1, s =>
    match scan_step a q arr_size s with
    | .next s1 => scan_loop a q arr_size fuel s1
    | .done r => .ok r
    | .fault e => .error e

/-- `_quadtree_scan_x` on the root `n` (whose parent link is `NULL`): the
range test before the loop, then the loop. -/
def _quadtree_scan_x (fuel : Nat) (n : QUADTREE_NODE) (x : Nat) (out : Nat → Nat) (p : Nat)
    (arr_size : Nat) : Except Fault ScanResult :=
  if x < n.region.nw.x ∨ x > n.region.se.x then .ok ⟨n, ⟨out, p, false⟩⟩
  else scan_loop .x x arr_size fuel ⟨some ⟨[], n⟩, ⟨out, p, false⟩⟩

/-- `_quadtree_scan_y` on the root `n`: the loop, with no test before it. -/
def _quadtree_scan_y (fuel : Nat) (n : QUADTREE_NODE) (y : Nat) (out : Nat → Nat) (p : Nat)
    (arr_size : Nat) : Except Fault ScanResult :=
  scan_loop .y y arr_size fuel ⟨some ⟨[], n⟩, ⟨out, p, false⟩⟩

/-- `quadtree_scan_x`. -/
def quadtree_scan_x (fuel : Nat) (tree : QUADTREE) (x : Nat) (out : Nat → Nat) (p : Nat)
    (arr_size : Nat) : Except Fault ScanResult :=
  _quadtree_scan_x fuel tree.root x out p arr_size

/-- `quadtree_scan_y`. -/
def quadtree_scan_y (fuel : Nat) (tree : QUADTREE) (y : Nat) (out : Nat → Nat) (p : Nat)
    (arr_size : Nat) : Except Fault ScanResult :=
  _quadtree_scan_y fuel tree.root y out p arr_size

/-! ### The test program `test_quadtree_scan_y_sorted.c` -/

/-- The loop of `nextpow2`, with `ret` doubled in `unsigned int` arithmetic
while it is below `of`; the first argument after `of` is fuel for the
iterations. -/
def nextpow2_loop (of : Nat) : Nat → Nat → Except Fault Nat
  | 0, _ => .error .fuel
  | fuel + 1, ret => if ret < of then nextpow2_loop of fuel ((2 * ret) % U32) else .ok ret

/-- `nextpow2`: the first power of two that is not below `of` (the `int`
argument as the comparison `ret < of` converts it, to `unsigned int`). -/
def nextpow2 (fuel : Nat) (of : Nat) : Except Fault Nat :=
  nextpow2_loop of fuel 1

/-- The loop of `sort_issorted` with `n` iterations left, at index `i` and
with the local `cur`: `cur` is set to `arr[i]` when it is 0, the function
returns 0 when `arr[i] > cur`, and `cur` becomes `arr[i]`. -/
def sort_issorted_loop (arr : Nat → Nat) : Nat → Nat → Nat → Bool
  | 0, _, _ => true
  | n + 1, i, cur =>
    if arr i > (if cur = 0 then arr i else cur) then false
    else sort_issorted_loop arr n (i + 1) (arr i)

/-- `sort_issorted`: the check the test applies to a scanned buffer.  It
looks at the first `items - items % 4` entries. -/
def sort_issorted (arr : Nat → Nat) (items : Nat) : Bool :=
  sort_issorted_loop arr (items - items % 4) 0 0

/-! ### Notions used to state the properties -/

/-- The points a tree stores: the slots of its leaves that do not hold the
empty value, leaves taken in the order `nw`, `ne`, `sw`, `se`. -/
def stored : QUADTREE_NODE → List QUADTREE_POINT
  | .leaf _ p0 p1 p2 p3 => [p0, p1, p2, p3].filter (fun pt => decide (pt ≠ EMPTY))
  | .internal _ _ nw ne sw se => stored nw ++ stored ne ++ stored sw ++ stored se

/-- The root has been subdivided. -/
def subdivided : QUADTREE_NODE → Bool
  | .leaf _ _ _ _ _ => false
  | .internal _ _ _ _ _ _ => true

/-- `Run xmax log t`: `t` is the tree after `quadtree_init(xmax, xmax)` and
the calls of `quadtree_insert` that returned, recorded in `log` with the
latest call first, each entry holding the arguments `x`, `y` and the return
value of one call. -/
inductive Run (xmax : Nat) : List (Nat × Nat × Bool) → QUADTREE → Prop where
  | init {t : QUADTREE} (hmax : xmax < U32) (h : quadtree_init xmax xmax = .ok t) : Run xmax [] t
  | insert {log : List (Nat × Nat × Bool)} {t t1 : QUADTREE} {fuel x y : Nat} {b : Bool}
      (hrun : Run xmax log t) (hx : x < U32) (hy : y < U32)
      (h : quadtree_insert fuel t x y = .ok (t1, b)) : Run xmax ((x, y, b) :: log) t1

/-- `Built xmax t`: `t` is the tree after `quadtree_init(xmax, xmax)` and
calls of `quadtree_insert` that all returned 1. -/
def Built (xmax : Nat) (t : QUADTREE) : Prop :=
  ∃ log, Run xmax log t ∧ ∀ e ∈ log, e.2.2 = true

/-- The start of an executable run: `quadtree_init(xmax, xmax)` and the
empty log. -/
def build_init (xmax : Nat) : Except Fault (QUADTREE × List (Nat × Nat × Bool)) :=
  match quadtree_init xmax xmax with
  | .error e => .error e
  | .ok t => .ok (t, [])

/-- One more call `quadtree_insert(tree, x, y)` in an executable run. -/
def build_step (fuel : Nat) (pt : Nat × Nat)
    (acc : Except Fault (QUADTREE × List (Nat × Nat × Bool))) :
    Except Fault (QUADTREE × List (Nat × Nat × Bool)) :=
  match acc with
  | .error e => .error e
  | .ok (t, log) =>
    match quadtree_insert fuel t pt.1 pt.2 with
    | .error e => .error e
    | .ok (t1, b) => .ok (t1, (pt.1, pt.2, b) :: log)

/-- An executable run: `quadtree_init(xmax, xmax)`, then `quadtree_insert`
for the points of the list from its last element to its first, each call
with the same fuel; the final tree and the log of the calls. -/
def build (fuel xmax : Nat) (ps : List (Nat × Nat)) :
    Except Fault (QUADTREE × List (Nat × Nat × Bool)) :=
  ps.foldr (build_step fuel) (build_init xmax)

/-- The state of the scan loop after `k` iterations, when the loop is still
running then. -/
def scan_run (a : Axis) (q arr_size : Nat) : Nat → ScanState → Option ScanState
  | 0, s => some s
  | k + 1, s =>
    match scan_step a q arr_size s with
    | .next s1 => scan_run a q arr_size k s1
    | .done _ => none
    | .fault _ => none

/-- Every internal node of the tree has `points == NULL`: no scan marker
is left in it. -/
def at_rest : QUADTREE_NODE → Prop
  | .leaf _ _ _ _ _ => True
  | .internal _ m nw ne sw se => m = 0 ∧ at_rest nw ∧ at_rest ne ∧ at_rest sw ∧ at_rest se

/-- What the scan loop does to the caller's buffer between entering a node
and leaving it for its parent, written as a recursion over the tree: nothing
when the query is outside the node's range, the leaf branch at a leaf, and
the four children in the order of the scan at an internal node.  That the
loop computes this is the theorem `scan_walk`. -/
def scan_tree (a : Axis) (q arr_size : Nat) : QUADTREE_NODE → ScanBuf → ScanBuf
  | .leaf r p0 p1 p2 p3, b =>
    if q < a.lo r ∨ q > a.hi r then b else scan_leaf a q arr_size [p0, p1, p2, p3] b
  | .internal r _ nw ne sw se, b =>
    if q < a.lo r ∨ q > a.hi r then b
    else
      match a with
      | .x => scan_tree .x q arr_size ne (scan_tree .x q arr_size se
          (scan_tree .x q arr_size nw (scan_tree .x q arr_size sw b)))
      | .y => scan_tree .y q arr_size nw (scan_tree .y q arr_size sw
          (scan_tree .y q arr_size ne (scan_tree .y q arr_size se b)))

/-- What the scans maintain about the caller's buffer of capacity `c`: the
cells from index `c` on hold what they held at the start, and while `ret`
is 0 the counter `*p` has not passed `c`. -/
def BufSafe (c : Nat) (out0 : Nat → Nat) (b : ScanBuf) : Prop :=
  (∀ i, c ≤ i → b.out i = out0 i) ∧ (b.ret = false → b.p ≤ c)

/-- A region that does not wrap: its corners are ordered and in range, and
it is square. -/
def Normal (r : QUADTREE_REGION) : Prop :=
  r.nw.x ≤ r.se.x ∧ r.nw.y ≤ r.se.y ∧ r.se.x < U32 ∧ r.se.y < U32 ∧
    r.se.x - r.nw.x = r.se.y - r.nw.y

/-- A region that contains no point (the corners are out of order). -/
def Void (r : QUADTREE_REGION) : Prop :=
  ∀ x y, r.contains x y = false

/-- The two regions on which the half-width computed by
`_quadtree_node_subdivide` is 0 and the children wrap around to the whole
coordinate space: the single cell at the origin and the whole space. -/
def Wraps (r : QUADTREE_REGION) : Prop :=
  r.nw.x = 0 ∧ r.nw.y = 0 ∧ (r.se.x = 0 ∨ r.se.x = U32 - 1)

/-- Half the true width of a region. -/
def half (r : QUADTREE_REGION) : Nat :=
  (r.se.x - r.nw.x + 1) / 2

/-- The regions `R1` (`nw`), `R2` (`ne`), `R3` (`sw`), `R4` (`se`) of the
children of a node with region `r`: the four quadrants of half width when
`r` is wider than one cell, and regions without points when it is a single
cell. -/
def Kids (r R1 R2 R3 R4 : QUADTREE_REGION) : Prop :=
  (r.nw.x < r.se.x →
    R1.nw = r.nw ∧ R1.se = ⟨r.nw.x + half r - 1, r.nw.y + half r - 1⟩ ∧
    R2.nw = ⟨r.nw.x + half r, r.nw.y⟩ ∧
    R2.se = ⟨r.nw.x + 2 * half r - 1, r.nw.y + half r - 1⟩ ∧
    R3.nw = ⟨r.nw.x, r.nw.y + half r⟩ ∧
    R3.se = ⟨r.nw.x + half r - 1, r.nw.y + 2 * half r - 1⟩ ∧
    R4.nw = ⟨r.nw.x + half r, r.nw.y + half r⟩ ∧
    R4.se = ⟨r.nw.x + 2 * half r - 1, r.nw.y + 2 * half r - 1⟩) ∧
  (r.se.x ≤ r.nw.x → Void R1 ∧ Void R2 ∧ Void R3 ∧ Void R4)

/-- The invariant of the trees that `quadtree_init` and `quadtree_insert`
produce, relative to the set `S` of the points offered to `quadtree_insert`
so far.  A leaf has a region that does not wrap or holds no point, and each
of its slots is empty or holds a point of `S` inside the region.  An
internal node is at rest (`points == NULL`), has a region that does not
wrap and on which subdivision does not wrap, has children on the regions
`Kids` describes, and, when it is a single cell, that cell is in `S`. -/
def Inv (S : Nat → Nat → Prop) : QUADTREE_NODE → Prop
  | .leaf r p0 p1 p2 p3 =>
    (Normal r ∨ Void r) ∧
      ∀ pt ∈ [p0, p1, p2, p3], pt ≠ EMPTY → r.contains pt.x pt.y = true ∧ S pt.x pt.y
  | .internal r m nw ne sw se =>
    m = 0 ∧ Normal r ∧ ¬ Wraps r ∧ (r.se.x = r.nw.x → S r.nw.x r.nw.y) ∧
      Kids r nw.region ne.region sw.region se.region ∧
      Inv S nw ∧ Inv S ne ∧ Inv S sw ∧ Inv S se

/-- The points offered to `quadtree_insert` in the calls of a log. -/
def offered (log : List (Nat × Nat × Bool)) (x y : Nat) : Prop :=
  (x, y) ∈ log.map (fun e => (e.1, e.2.1))

/-- The whole coordinate space as a region, with the `width` and `height`
that `_quadtree_node_init` computes for it (both wrap to 0). -/
def whole : QUADTREE_REGION := ⟨⟨0, 0⟩, ⟨U32 - 1, U32 - 1⟩, 0, 0⟩

/-- What one call of `_quadtree_insert` with fuel `f` keeps, for the points
of a set `T`: the invariant, the region of the node and its being
subdivided; and it returns 1 only for a point inside the node's region. -/
def InsertKeeps (T : Nat → Nat → Prop) (f : Nat) : Prop :=
  ∀ (n : QUADTREE_NODE) (x y : Nat) (sd : Bool) (n1 : QUADTREE_NODE) (b : Bool),
    Inv T n → T x y → _quadtree_insert f n x y sd = .ok (n1, b) →
    Inv T n1 ∧ n1.region = n.region ∧ (subdivided n = true → subdivided n1 = true) ∧
      (b = true → n.region.contains x y = true)

/-- The first `n` cells of a buffer, as a list. -/
def cells (out : Nat → Nat) (n : Nat) : List Nat :=
  (List.range n).map out

/-- The values a scan reports below a node, in the order in which it meets
them: nothing outside the node's range, the matching slots of a leaf, and
the four children in the order of the scan. -/
def scan_vals (a : Axis) (q : Nat) : QUADTREE_NODE → List Nat
  | .leaf r p0 p1 p2 p3 =>
    if q < a.lo r ∨ q > a.hi r then []
    else ([p0, p1, p2, p3].filter (fun pt => decide (a.key pt = q))).map a.val
  | .internal r _ nw ne sw se =>
    if q < a.lo r ∨ q > a.hi r then []
    else
      match a with
      | .x => scan_vals .x q sw ++ scan_vals .x q nw ++ scan_vals .x q se ++ scan_vals .x q ne
      | .y => scan_vals .y q se ++ scan_vals .y q ne ++ scan_vals .y q sw ++ scan_vals .y q nw

/-- How a part of a scan that meets the values `vals` changes the buffer
`b` of capacity `c` into `b1`.  Once `ret` is set (and `*p` is past `c`)
nothing changes.  Before that, when the values fit, `ret` stays 0, `*p`
grows by their number and the cells below `*p` hold the old ones and
`vals`, in some order; when they do not fit, `ret` is set and `*p` ends as
`c + 1`. -/
def ScanSpec (c : Nat) (vals : List Nat) (b b1 : ScanBuf) : Prop :=
  (b.ret = true → c < b.p → b1 = b) ∧
  (b.ret = false → b.p ≤ c →
    (b.p + vals.length ≤ c →
      b1.ret = false ∧ b1.p = b.p + vals.length ∧
        (cells b1.out b1.p).Perm (cells b.out b.p ++ vals)) ∧
    (c < b.p + vals.length → b1.ret = true ∧ b1.p = c + 1))

/-- What finding a just-inserted point needs of `_quadtree_insert` with
fuel `f`: when the call returns 1, `_quadtree_query` on the resulting node
returns 1 for the point. -/
def QueryFinds (T : Nat → Nat → Prop) (f : Nat) : Prop :=
  ∀ (n : QUADTREE_NODE) (x y : Nat) (sd : Bool) (n1 : QUADTREE_NODE),
    Inv T n → T x y → _quadtree_insert f n x y sd = .ok (n1, true) →
    _quadtree_query n1 x y = .ok true

/-- The scan along an axis: `quadtree_scan_x` for `x`, `quadtree_scan_y` for
`y`. -/
def scan_axis : Axis → Nat → QUADTREE → Nat → (Nat → Nat) → Nat → Nat → Except Fault ScanResult
  | .x => quadtree_scan_x
  | .y => quadtree_scan_y

/-- The counter and the flag of a scan with capacity `c` go together: while
`ret` is 0 the counter has not passed `c`, and once `ret` is 1 the counter
is `c + 1`. -/
def Saturated (c : Nat) (b : ScanBuf) : Prop :=
  (b.ret = false → b.p ≤ c) ∧ (b.ret = true → b.p = c + 1)

/-- The first `n` cells of a buffer are in non-increasing order. -/
def SortedTo (out : Nat → Nat) (n : Nat) : Prop :=
  ∀ i j, i ≤ j → j < n → out j ≤ out i

/-- What a scan along `y` maintains about the order of the values in a
buffer of capacity `c`.  While `ret` is 0, the cells below `*p` are in
non-increasing order and hold values of at least `B`.  Once `ret` is 1, the
counter is past `c` and the first `c - 2` cells are in non-increasing
order. -/
def Descending (c B : Nat) (b : ScanBuf) : Prop :=
  (b.ret = false → b.p ≤ c ∧ SortedTo b.out b.p ∧ ∀ i, i < b.p → B ≤ b.out i) ∧
  (b.ret = true → c < b.p ∧ SortedTo b.out (c - 2))

/-- The height of a tree: the number of internal nodes on the longest path
from the root to a leaf. -/
def height : QUADTREE_NODE → Nat
  | .leaf _ _ _ _ _ => 0
  | .internal _ _ nw ne sw se =>
    1 + max (max (height nw) (height ne)) (max (height sw) (height se))

/-- `Levelled n j`: the region of `n` has width `2 ^ j`, the region of a
leaf does not wrap and ends below the all-bits-set coordinate, no internal
node is on a single cell, and the children of an internal node are one
level below it. -/
def Levelled : QUADTREE_NODE → Nat → Prop
  | .leaf r _ _ _ _, j => Normal r ∧ r.se.x + 1 < U32 ∧ r.se.x - r.nw.x + 1 = 2 ^ j
  | .internal r _ nw ne sw se, j =>
    j ≠ 0 ∧ r.se.x - r.nw.x + 1 = 2 ^ j ∧ Levelled nw (j - 1) ∧ Levelled ne (j - 1) ∧
      Levelled sw (j - 1) ∧ Levelled se (j - 1)

/-- The points passed to `quadtree_insert` in the calls of a log, latest
first. -/
def log_points (log : List (Nat × Nat × Bool)) : List QUADTREE_POINT :=
  log.map (fun e => ⟨e.1, e.2.1⟩)

/-- Every slot in use of every leaf holds a point inside the region of that
leaf. -/
def points_inside : QUADTREE_NODE → Prop
  | .leaf r p0 p1 p2 p3 => ∀ pt ∈ [p0, p1, p2, p3], pt ≠ EMPTY → r.contains pt.x pt.y = true
  | .internal _ _ nw ne sw se =>
    points_inside nw ∧ points_inside ne ∧ points_inside sw ∧ points_inside se

/-- The node is internal and its four children are leaves. -/
def leaf_children : QUADTREE_NODE → Bool
  | .leaf _ _ _ _ _ => false
  | .internal _ _ nw ne sw se =>
    !subdivided nw && !subdivided ne && !subdivided sw && !subdivided se

/-- The corners of the region are out of order on an axis, so that
`_quadtree_node_contains` holds for no point. -/
def QUADTREE_REGION.empty (r : QUADTREE_REGION) : Bool :=
  decide (r.se.x < r.nw.x) || decide (r.se.y < r.nw.y)

/-- Somewhere in the tree there is an internal node on the single cell
`(x, y)` whose four children are leaves on regions without points. -/
def unit_split (x y : Nat) : QUADTREE_NODE → Bool
  | .leaf _ _ _ _ _ => false
  | .internal r _ nw ne sw se =>
    (decide (r.nw = ⟨x, y⟩) && decide (r.se = ⟨x, y⟩) &&
      [nw, ne, sw, se].all (fun c => !subdivided c && c.region.empty)) ||
    unit_split x y nw || unit_split x y ne || unit_split x y sw || unit_split x y se

/-- No internal node is on a single cell: the region of every internal node
is wider than one cell. -/
def wide_internals : QUADTREE_NODE → Prop
  | .leaf _ _ _ _ _ => True
  | .internal r _ nw ne sw se =>
    r.nw.x < r.se.x ∧ wide_internals nw ∧ wide_internals ne ∧ wide_internals sw ∧
      wide_internals se

/-- The region of the root that `quadtree_init(xmax, xmax)` creates. -/
def root_region (xmax : Nat) : QUADTREE_REGION :=
  ⟨⟨0, 0⟩, ⟨xmax, xmax⟩, (U32 + xmax - 0 + 1) % U32, (U32 + xmax - 0 + 1) % U32⟩

/-- Two runs of a piece of a scan with capacity `c`, one taking the buffer
`b` to `b1` and one taking `b2` to `b3`: both end with the same counter and
flag, the cells from the old counter up to the new one that lie below `c`
hold the same in both, and every other cell holds what it held before the
piece. -/
def Alike (c : Nat) (b b1 b2 b3 : ScanBuf) : Prop :=
  b1.p = b3.p ∧ b1.ret = b3.ret ∧ b.p ≤ b1.p ∧ (b.ret = true → b1.ret = true) ∧
  (b1.ret = false → b.p < b1.p → b1.p ≤ c) ∧
  (∀ i, b.p ≤ i → i < b1.p → i < c → b1.out i = b3.out i) ∧
  (∀ i, (i < b.p ∨ b1.p ≤ i ∨ c ≤ i) → b1.out i = b.out i ∧ b3.out i = b2.out i)

/-! ## Theorems -/

/-- The value of the modulus. -/
theorem U32_eq : U32 = 4294967296 := by
  unfold U32
  rfl

/-- A run of `build` is a `Run`, and its log lists the points of the run. -/
theorem run_of_build (fuel xmax : Nat) (hmax : xmax < U32) :
    ∀ (ps : List (Nat × Nat)) (t : QUADTREE) (log : List (Nat × Nat × Bool)),
      (∀ pt ∈ ps, pt.1 < U32 ∧ pt.2 < U32) → build fuel xmax ps = .ok (t, log) →
      Run xmax log t ∧ log.map (fun e => (e.1, e.2.1)) = ps := by
  intro ps
  induction ps with
  | nil =>
    intro t log _ h
    simp only [build, List.foldr_nil, build_init] at h
    split at h
    · cases h
    · rename_i t0 h0
      cases h
      exact ⟨Run.init hmax h0, rfl⟩
  | cons pt ps ih =>
    intro t log hb h
    obtain ⟨x, y⟩ := pt
    simp only [build, List.foldr_cons] at h
    cases hps : List.foldr (build_step fuel) (build_init xmax) ps with
    | error e => rw [hps] at h; cases h
    | ok r =>
      obtain ⟨t0, log0⟩ := r
      rw [hps] at h
      simp only [build_step] at h
      split at h
      · cases h
      · rename_i t1 b h2
        cases h
        have hpt := hb (x, y) (List.mem_cons_self _ _)
        obtain ⟨hr, hm⟩ := ih t0 log0 (fun q hq => hb q (List.mem_cons_of_mem _ hq)) hps
        exact ⟨Run.insert hr hpt.1 hpt.2 h2, by rw [List.map_cons, hm]⟩

/-! ### Regions -/

/-- On one axis, a point of the parent range lies in exactly one of the two
half ranges, and a point outside it in neither. -/
theorem half_split (x h p : Nat) (hh : 1 ≤ h) :
    ((decide (p ≥ x) && decide (p ≤ x + h - 1)) = true ∧
      (decide (p ≥ x + h) && decide (p ≤ x + h + h - 1)) = false ∧
      (decide (p ≥ x) && decide (p ≤ x + 2 * h - 1)) = true) ∨
    ((decide (p ≥ x) && decide (p ≤ x + h - 1)) = false ∧
      (decide (p ≥ x + h) && decide (p ≤ x + h + h - 1)) = true ∧
      (decide (p ≥ x) && decide (p ≤ x + 2 * h - 1)) = true) ∨
    ((decide (p ≥ x) && decide (p ≤ x + h - 1)) = false ∧
      (decide (p ≥ x + h) && decide (p ≤ x + h + h - 1)) = false ∧
      (decide (p ≥ x) && decide (p ≤ x + 2 * h - 1)) = false) := by
  simp only [Bool.and_eq_true, Bool.and_eq_false_iff, decide_eq_true_eq, decide_eq_false_iff_not]
  omega

/-- C10 (region tiling).  Take a square region with corner `(x, y)` and
even width `w`, `2 ≤ w`, that does not wrap: `w` is an `unsigned int` and
`x + w - 1`, `y + w - 1` are at most `2 ^ 32 - 1`.  The first half of
`_quadtree_node_subdivide` then succeeds (no `assert` fires) and yields
four children of width and height `w / 2` such that, for every point
`(px, py)`, the number of children that contain it (in the sense of
`_quadtree_node_contains`) is 1 when the parent region contains the point
and 0 when it does not: the children are pairwise disjoint and their union
is the parent region. -/
theorem region_tiling (x y w px py : Nat) (hw : 2 ≤ w) (he : w % 2 = 0) (hlt : w < U32)
    (hx : x + w ≤ U32) (hy : y + w ≤ U32) :
    ∃ nw ne sw se,
      subdivide_children ⟨⟨x, y⟩, ⟨x + w - 1, y + w - 1⟩, w, w⟩ = .ok (nw, ne, sw, se) ∧
      (∀ c ∈ [nw, ne, sw, se], c.region.width = w / 2 ∧ c.region.height = w / 2) ∧
      ([nw, ne, sw, se].filter (fun c => _quadtree_node_contains c px py)).length =
        if (QUADTREE_REGION.contains ⟨⟨x, y⟩, ⟨x + w - 1, y + w - 1⟩, w, w⟩ px py) then 1
        else 0 := by
  rw [U32_eq] at hx hy hlt
  obtain ⟨h, rfl⟩ : ∃ h, w = 2 * h := ⟨w / 2, by omega⟩
  have e1 : (U32 + (1 + (x + 2 * h - 1)) % U32 - x) % U32 / 2 = h := by
    rw [U32_eq]; omega
  have e2 : (U32 + (1 + (y + 2 * h - 1)) % U32 - y) % U32 / 2 = h := by
    rw [U32_eq]; omega
  have a1 : (U32 + (x + h) - 1) % U32 = x + h - 1 := by rw [U32_eq]; omega
  have a2 : (U32 + (y + h) - 1) % U32 = y + h - 1 := by rw [U32_eq]; omega
  have a3 : (x + h) % U32 = x + h := by rw [U32_eq]; omega
  have a4 : (y + h) % U32 = y + h := by rw [U32_eq]; omega
  have a5 : (U32 + (x + h + h) - 1) % U32 = x + h + h - 1 := by rw [U32_eq]; omega
  have a6 : (U32 + (y + h + h) - 1) % U32 = y + h + h - 1 := by rw [U32_eq]; omega
  have w1 : (U32 + (x + h - 1) - x + 1) % U32 = h := by rw [U32_eq]; omega
  have w2 : (U32 + (y + h - 1) - y + 1) % U32 = h := by rw [U32_eq]; omega
  have w3 : (U32 + (x + h + h - 1) - (x + h) + 1) % U32 = h := by rw [U32_eq]; omega
  have w4 : (U32 + (y + h + h - 1) - (y + h) + 1) % U32 = h := by rw [U32_eq]; omega
  have hh : 2 * h / 2 = h := by omega
  simp only [subdivide_children, e1, e2, a1, a2, a3, a4, a5, a6, _quadtree_node_init,
    w1, w2, w3, w4, ne_eq, not_true_eq_false, if_false]
  refine ⟨_, _, _, _, rfl, ?_, ?_⟩
  · intro c hc
    simp only [List.mem_cons, List.mem_singleton, List.not_mem_nil, or_false] at hc
    rcases hc with rfl | rfl | rfl | rfl <;> exact ⟨hh.symm, hh.symm⟩
  · simp only [List.filter, _quadtree_node_contains, QUADTREE_NODE.region,
      QUADTREE_REGION.contains]
    rcases half_split x h px (by omega) with ⟨p1, p2, p3⟩ | ⟨p1, p2, p3⟩ | ⟨p1, p2, p3⟩ <;>
    rcases half_split y h py (by omega) with ⟨q1, q2, q3⟩ | ⟨q1, q2, q3⟩ | ⟨q1, q2, q3⟩ <;>
    simp only [p1, p2, p3, q1, q2, q3] <;> rfl

/-- Witness of `region_tiling`: the region `[4, 7] x [8, 11]` and the point
`(6, 9)`. -/
theorem region_tiling_witness :
    (2 ≤ 4 ∧ 4 % 2 = 0 ∧ 4 < U32 ∧ 4 + 4 ≤ U32 ∧ 8 + 4 ≤ U32) ∧
    ∃ nw ne sw se,
      subdivide_children ⟨⟨4, 8⟩, ⟨4 + 4 - 1, 8 + 4 - 1⟩, 4, 4⟩ = .ok (nw, ne, sw, se) ∧
      (∀ c ∈ [nw, ne, sw, se], c.region.width = 4 / 2 ∧ c.region.height = 4 / 2) ∧
      ([nw, ne, sw, se].filter (fun c => _quadtree_node_contains c 6 9)).length =
        if (QUADTREE_REGION.contains ⟨⟨4, 8⟩, ⟨4 + 4 - 1, 8 + 4 - 1⟩, 4, 4⟩ 6 9) then 1
        else 0 :=
  ⟨by rw [U32_eq]; decide,
    region_tiling 4 8 4 6 9 (by decide) (by decide) (by rw [U32_eq]; decide)
      (by rw [U32_eq]; decide) (by rw [U32_eq]; decide)⟩

/-! ### Insertion outside the root region -/

/-- C8 (out-of-region insert).  For every tree and every point `(x, y)`
with `x` beyond the `xmax` or `y` beyond the `ymax` of the root region,
`quadtree_insert` returns 0 (with any fuel that lets it start) and the tree
it leaves is the tree it was given: regions, variants, children and slots
are all unchanged. -/
theorem insert_outside_root_rejected (fuel : Nat) (tree : QUADTREE) (x y : Nat)
    (h : x > tree.root.region.se.x ∨ y > tree.root.region.se.y) :
    quadtree_insert (fuel + 1) tree x y = .ok (tree, false) := by
  have hc : _quadtree_node_contains tree.root x y = false := by
    simp only [_quadtree_node_contains, QUADTREE_REGION.contains, Bool.and_eq_false_iff,
      decide_eq_false_iff_not]
    omega
  simp only [quadtree_insert, _quadtree_insert, hc, Bool.not_false, if_true]

unseal U32 in
/-- Witness of `insert_outside_root_rejected`: the point `(64, 7)` offered
to a subdivided tree on `[0, 63] x [0, 63]`. -/
theorem insert_outside_root_rejected_witness :
    ∃ t log, build 8 63 [(5, 33), (5, 60), (5, 40), (5, 20), (5, 0)] = .ok (t, log) ∧
      (64 > t.root.region.se.x ∨ 7 > t.root.region.se.y) ∧
      quadtree_insert (0 + 1) t 64 7 = .ok (t, false) :=
  ⟨_, _, rfl, Or.inl (by decide),
    insert_outside_root_rejected 0 _ 64 7 (Or.inl (by decide))⟩

/-! ### The axis count -/

unseal U32 in
/-- C3 (the count is not exact).  After `quadtree_init(3, 3)` and the
successful inserts of `(0,0)`, `(1,0)`, `(0,1)`, `(1,1)`, `(3,0)` the tree
stores exactly one point with `x = 3` (it lies in the `ne` child), yet
`quadtree_count_x(tree, 3)` returns 0: the sum at an internal node takes
`se` twice and never `ne`. -/
theorem count_x_miscounts :
    ∃ t log, build 8 3 [(3, 0), (1, 1), (0, 1), (1, 0), (0, 0)] = .ok (t, log) ∧
      (∀ e ∈ log, e.2.2 = true) ∧
      ((stored t.root).filter (fun pt => decide (pt.x = 3))).length = 1 ∧
      quadtree_count_x t 3 = .ok 0 := by
  refine ⟨_, _, rfl, ?_, ?_, ?_⟩
  · decide
  · decide
  · rfl

/-! ### Scans that do not return -/

unseal U32 in
/-- C7 (scan of a tree whose root is a leaf).  After `quadtree_init(63, 63)`
and the successful inserts of `(0,0)`, `(0,1)`, `(63,63)`, `(32,10)` the
root is still a leaf, and `quadtree_scan_x` with `x = 0` does not complete:
for every buffer and capacity, whatever the fuel beyond two iterations, the
loop handles the root leaf, sets `n = n->parent`, which is `NULL`, and reads
`n->parent` through it. -/
theorem scan_x_on_leaf_root_faults :
    ∃ t log, build 8 63 [(32, 10), (63, 63), (0, 1), (0, 0)] = .ok (t, log) ∧
      (∀ e ∈ log, e.2.2 = true) ∧ subdivided t.root = false ∧
      ∀ fuel out c, quadtree_scan_x (fuel + 2) t 0 out 0 c = .error .null_deref := by
  refine ⟨_, _, rfl, ?_, ?_, ?_⟩
  · decide
  · rfl
  · intro fuel out c
    rfl

unseal U32 in
/-- C5 (scan output sorted, for every `y`).  After `quadtree_init(63, 63)`
and the successful inserts of `(0,13)`, `(20,13)`, `(40,13)`, `(60,13)`,
`(33,13)` the root is subdivided and no stored point has `y = 64`, so any
capacity is sufficient; yet `quadtree_scan_y` with `y = 64`, outside the
root's range, does not return 0: the loop leaves the root through its
`NULL` parent link and reads `n->parent` through it.  `_quadtree_scan_x` has
the range test before the loop that `_quadtree_scan_y` lacks. -/
theorem scan_y_out_of_range_faults :
    ∃ t log, build 8 63 [(33, 13), (60, 13), (40, 13), (20, 13), (0, 13)] = .ok (t, log) ∧
      (∀ e ∈ log, e.2.2 = true) ∧ subdivided t.root = true ∧
      ((stored t.root).filter (fun pt => decide (pt.y = 64))).length = 0 ∧
      ∀ fuel out c, quadtree_scan_y (fuel + 2) t 64 out 0 c = .error .null_deref := by
  refine ⟨_, _, rfl, ?_, ?_, ?_, ?_⟩
  · decide
  · rfl
  · decide
  · intro fuel out c
    rfl

/-! ### The scans never write past the capacity -/

/-- A swap changes no cell other than the two it exchanges. -/
theorem sort_swap_frame (out : Nat → Nat) (a b i : Nat) (ha : i ≠ a) (hb : i ≠ b) :
    _quadtree_sort_swap out a b i = out i := by
  simp only [_quadtree_sort_swap, ha, hb, if_false]

/-- One pass of the sort over the cells `tmp .. tmp + n` changes no cell
outside them. -/
theorem sort_pass_frame (n : Nat) : ∀ (out : Nat → Nat) (tmp i : Nat),
    (i < tmp ∨ tmp + n < i) → sort_pass out tmp n i = out i := by
  induction n with
  | zero => intro out tmp i _; rfl
  | succ n ih =>
    intro out tmp i h
    simp only [sort_pass]
    rw [ih _ (tmp + 1) i (by omega)]
    split
    · exact sort_swap_frame out tmp (tmp + 1) i (by omega) (by omega)
    · rfl

/-- The sort of the cells `start .. start + len` changes no cell outside
them. -/
theorem sort_loop_frame (len : Nat) : ∀ (out : Nat → Nat) (start i : Nat),
    (i < start ∨ start + len < i) → sort_loop out start len i = out i := by
  induction len with
  | zero => intro out start i _; rfl
  | succ len ih =>
    intro out start i h
    simp only [sort_loop]
    rw [ih _ start i (by omega), sort_pass_frame (len + 1) out start i h]

/-- The body of the slot loop leaves every cell at or past the capacity as
it was. -/
theorem scan_point_safe (a : Axis) (q c : Nat) (out0 : Nat → Nat) (b : ScanBuf)
    (pt : QUADTREE_POINT) (h : BufSafe c out0 b) : BufSafe c out0 (scan_point a q c b pt) := by
  unfold scan_point
  split
  · exact h
  · split
    · rename_i hp
      refine ⟨fun i hi => ?_, fun _ => ?_⟩
      · have : i ≠ b.p := by omega
        simp only [this, if_false]
        exact h.1 i hi
      · show b.p + 1 ≤ c
        omega
    · split
      · refine ⟨h.1, fun hr => ?_⟩
        cases hr
      · exact h

/-- The slot loop over any list of slots leaves every cell at or past the
capacity as it was. -/
theorem scan_points_safe (a : Axis) (q c : Nat) (out0 : Nat → Nat) (pts : List QUADTREE_POINT) :
    ∀ b, BufSafe c out0 b → BufSafe c out0 (pts.foldl (scan_point a q c) b) := by
  induction pts with
  | nil => intro b h; exact h
  | cons pt pts ih => intro b h; exact ih _ (scan_point_safe a q c out0 b pt h)

/-- The body of the slot loop never lowers the counter. -/
theorem scan_point_p_mono (a : Axis) (q c : Nat) (b : ScanBuf) (pt : QUADTREE_POINT) :
    b.p ≤ (scan_point a q c b pt).p := by
  unfold scan_point
  split
  · exact Nat.le_refl _
  · split
    · exact Nat.le_succ _
    · split
      · exact Nat.le_succ _
      · exact Nat.le_refl _

/-- The slot loop never lowers the counter. -/
theorem scan_points_p_mono (a : Axis) (q c : Nat) (pts : List QUADTREE_POINT) :
    ∀ b, b.p ≤ (pts.foldl (scan_point a q c) b).p := by
  induction pts with
  | nil => intro b; exact Nat.le_refl _
  | cons pt pts ih => intro b; exact Nat.le_trans (scan_point_p_mono a q c b pt) (ih _)

/-- The leaf branch, slot loop and sort together, leaves every cell at or
past the capacity as it was. -/
theorem scan_leaf_safe (a : Axis) (q c : Nat) (out0 : Nat → Nat) (pts : List QUADTREE_POINT)
    (b : ScanBuf) (h : BufSafe c out0 b) : BufSafe c out0 (scan_leaf a q c pts b) := by
  have h1 := scan_points_safe a q c out0 pts b h
  have hm := scan_points_p_mono a q c pts b
  unfold scan_leaf
  simp only
  split
  · rename_i hr
    have hr1 : (pts.foldl (scan_point a q c) b).ret = false := by simpa using hr
    have hp := h1.2 hr1
    refine ⟨fun i hi => ?_, fun _ => hp⟩
    show _quadtree_sort_result_array _ _ _ i = out0 i
    unfold _quadtree_sort_result_array
    by_cases hz : (((pts.foldl (scan_point a q c) b).p : Int) - 1 - (b.p : Int)).toNat = 0
    · rw [hz]
      exact h1.1 i hi
    · rw [sort_loop_frame _ _ _ i (by omega)]
      exact h1.1 i hi
  · exact h1

/-- One iteration of the scan loop leaves every cell at or past the capacity
as it was, whether the loop continues or returns. -/
theorem scan_step_safe (a : Axis) (q c : Nat) (out0 : Nat → Nat) (s : ScanState)
    (h : BufSafe c out0 s.buf) :
    (∀ s1, scan_step a q c s = .next s1 → BufSafe c out0 s1.buf) ∧
    (∀ r, scan_step a q c s = .done r → BufSafe c out0 r.buf) := by
  obtain ⟨n, b⟩ := s
  constructor
  · intro s1 hs
    unfold scan_step at hs
    split at hs
    · cases hs
    · repeat' split at hs
      all_goals first
        | (cases hs; exact h)
        | cases hs
    · repeat' split at hs
      all_goals first
        | (cases hs; exact h)
        | (cases hs; exact scan_leaf_safe a q c out0 _ _ h)
        | cases hs
  · intro r hs
    unfold scan_step at hs
    split at hs
    · cases hs
    · repeat' split at hs
      all_goals first
        | (cases hs; exact h)
        | cases hs
    · repeat' split at hs
      all_goals cases hs

/-! ### The stackless walk -/

/-- Runs of the scan loop compose: `k1` iterations followed by `k2` are
`k1 + k2` iterations. -/
theorem scan_run_trans (a : Axis) (q c : Nat) (k1 : Nat) :
    ∀ (k2 : Nat) (s s1 s2 : ScanState), scan_run a q c k1 s = some s1 →
      scan_run a q c k2 s1 = some s2 → scan_run a q c (k1 + k2) s = some s2 := by
  induction k1 with
  | zero =>
    intro k2 s s1 s2 h1 h2
    simp only [scan_run] at h1
    cases h1
    rw [Nat.zero_add]
    exact h2
  | succ k1 ih =>
    intro k2 s s1 s2 h1 h2
    rw [Nat.succ_add]
    simp only [scan_run] at h1 ⊢
    cases hs : scan_step a q c s with
    | next s3 =>
      rw [hs] at h1
      exact ih k2 s3 s1 s2 h1 h2
    | done r => rw [hs] at h1; cases h1
    | fault e => rw [hs] at h1; cases h1

/-- An iteration that continues is a run of length one. -/
theorem scan_run_one (a : Axis) (q c : Nat) (s s1 : ScanState)
    (h : scan_step a q c s = .next s1) : scan_run a q c 1 s = some s1 := by
  simp only [scan_run, h]

/-- Running the loop past `k` iterations that do not return continues from
the state they reach. -/
theorem scan_loop_of_run (a : Axis) (q c : Nat) (k : Nat) :
    ∀ (fuel : Nat) (s s1 : ScanState), scan_run a q c k s = some s1 →
      scan_loop a q c (k + fuel) s = scan_loop a q c fuel s1 := by
  induction k with
  | zero =>
    intro fuel s s1 h
    simp only [scan_run] at h
    cases h
    rw [Nat.zero_add]
  | succ k ih =>
    intro fuel s s1 h
    rw [Nat.succ_add]
    simp only [scan_run] at h
    simp only [scan_loop]
    cases hs : scan_step a q c s with
    | next s3 =>
      rw [hs] at h
      exact ih fuel s3 s1 h
    | done r => rw [hs] at h; cases h
    | fault e => rw [hs] at h; cases h

/-- A node outside the query's range is left for its parent at once. -/
theorem step_out_of_range (a : Axis) (q c : Nat) (f : Frame) (up : List Frame)
    (n : QUADTREE_NODE) (b : ScanBuf) (h : q < a.lo n.region ∨ q > a.hi n.region) :
    scan_step a q c ⟨some ⟨f :: up, n⟩, b⟩ = .next ⟨some ⟨up, f.plug n⟩, b⟩ := by
  cases n with
  | leaf r p0 p1 p2 p3 =>
    simp only [QUADTREE_NODE.region] at h
    cases a <;> simp only [scan_step, h, if_true, leave]
  | internal r m nw ne sw se =>
    simp only [QUADTREE_NODE.region] at h
    cases a <;> simp only [scan_step, h, if_true, leave, List.isEmpty_cons, Bool.false_and,
      Bool.false_eq_true, if_false]

/-- A leaf inside the query's range is scanned and left for its parent. -/
theorem step_leaf (a : Axis) (q c : Nat) (f : Frame) (up : List Frame)
    (r : QUADTREE_REGION) (p0 p1 p2 p3 : QUADTREE_POINT) (b : ScanBuf)
    (h : ¬ (q < a.lo r ∨ q > a.hi r)) :
    scan_step a q c ⟨some ⟨f :: up, .leaf r p0 p1 p2 p3⟩, b⟩ =
      .next ⟨some ⟨up, f.plug (.leaf r p0 p1 p2 p3)⟩, scan_leaf a q c [p0, p1, p2, p3] b⟩ := by
  simp only [scan_step, h, if_false, leave]

/-- An in-range internal node with `points == NULL` is marked `0xFCFCFCFC`
and the walk enters the first child of the scan order. -/
theorem step_marker_0 (a : Axis) (q c : Nat) (up : List Frame)
    (r : QUADTREE_REGION) (nw ne sw se : QUADTREE_NODE) (b : ScanBuf)
    (h : ¬ (q < a.lo r ∨ q > a.hi r)) :
    scan_step a q c ⟨some ⟨up, .internal r 0 nw ne sw se⟩, b⟩ =
      .next ⟨some (enter up r 0xFCFCFCFC nw ne sw se a.order.1), b⟩ := by
  simp [scan_step, h]

/-- An in-range internal node marked `0xFCFCFCFC` is marked `0xFDFDFDFD` and
the walk enters the second child of the scan order. -/
theorem step_marker_FC (a : Axis) (q c : Nat) (up : List Frame)
    (r : QUADTREE_REGION) (nw ne sw se : QUADTREE_NODE) (b : ScanBuf)
    (h : ¬ (q < a.lo r ∨ q > a.hi r)) :
    scan_step a q c ⟨some ⟨up, .internal r 0xFCFCFCFC nw ne sw se⟩, b⟩ =
      .next ⟨some (enter up r 0xFDFDFDFD nw ne sw se a.order.2.1), b⟩ := by
  simp [scan_step, h]

/-- An in-range internal node marked `0xFDFDFDFD` is marked `0xFEFEFEFE` and
the walk enters the third child of the scan order. -/
theorem step_marker_FD (a : Axis) (q c : Nat) (up : List Frame)
    (r : QUADTREE_REGION) (nw ne sw se : QUADTREE_NODE) (b : ScanBuf)
    (h : ¬ (q < a.lo r ∨ q > a.hi r)) :
    scan_step a q c ⟨some ⟨up, .internal r 0xFDFDFDFD nw ne sw se⟩, b⟩ =
      .next ⟨some (enter up r 0xFEFEFEFE nw ne sw se a.order.2.2.1), b⟩ := by
  simp [scan_step, h]

/-- An in-range internal node marked `0xFEFEFEFE` is marked `0xFFFFFFFF` and
the walk enters the fourth child of the scan order. -/
theorem step_marker_FE (a : Axis) (q c : Nat) (up : List Frame)
    (r : QUADTREE_REGION) (nw ne sw se : QUADTREE_NODE) (b : ScanBuf)
    (h : ¬ (q < a.lo r ∨ q > a.hi r)) :
    scan_step a q c ⟨some ⟨up, .internal r 0xFEFEFEFE nw ne sw se⟩, b⟩ =
      .next ⟨some (enter up r 0xFFFFFFFF nw ne sw se a.order.2.2.2), b⟩ := by
  simp [scan_step, h]

/-- An in-range internal node below the root marked `0xFFFFFFFF` has its
marker cleared and the walk moves to its parent. -/
theorem step_marker_FF (a : Axis) (q c : Nat) (f : Frame) (up : List Frame)
    (r : QUADTREE_REGION) (nw ne sw se : QUADTREE_NODE) (b : ScanBuf)
    (h : ¬ (q < a.lo r ∨ q > a.hi r)) :
    scan_step a q c ⟨some ⟨f :: up, .internal r 0xFFFFFFFF nw ne sw se⟩, b⟩ =
      .next ⟨some ⟨up, f.plug (.internal r 0 nw ne sw se)⟩, b⟩ := by
  simp [scan_step, h, leave]

/-- The root marked `0xFFFFFFFF` has its marker cleared and the loop
returns. -/
theorem step_marker_FF_root (a : Axis) (q c : Nat)
    (r : QUADTREE_REGION) (nw ne sw se : QUADTREE_NODE) (b : ScanBuf) :
    scan_step a q c ⟨some ⟨[], .internal r 0xFFFFFFFF nw ne sw se⟩, b⟩ =
      .done ⟨.internal r 0 nw ne sw se, b⟩ := by
  simp [scan_step]


/-- The walk below a node: started at a node at rest that has a parent, the
loop comes back to that parent after finitely many iterations, with the
node unchanged and the buffer as `scan_tree` describes. -/
theorem scan_walk (a : Axis) (q c : Nat) : ∀ (t : QUADTREE_NODE), at_rest t →
    ∀ (f : Frame) (up : List Frame) (b : ScanBuf),
      ∃ k, scan_run a q c k ⟨some ⟨f :: up, t⟩, b⟩ =
        some ⟨some ⟨up, f.plug t⟩, scan_tree a q c t b⟩ := by
  intro t
  induction t with
  | leaf r p0 p1 p2 p3 =>
    intro _ f up b
    by_cases h : q < a.lo r ∨ q > a.hi r
    · refine ⟨1, ?_⟩
      rw [scan_run_one a q c _ _ (step_out_of_range a q c f up (.leaf r p0 p1 p2 p3) b h)]
      simp only [scan_tree, h, if_true]
    · refine ⟨1, ?_⟩
      rw [scan_run_one a q c _ _ (step_leaf a q c f up r p0 p1 p2 p3 b h)]
      simp only [scan_tree, h, if_false]
  | internal r m nw ne sw se ihnw ihne ihsw ihse =>
    intro hr f up b
    obtain ⟨hm, hnw, hne, hsw, hse⟩ := hr
    subst hm
    by_cases h : q < a.lo r ∨ q > a.hi r
    · refine ⟨1, ?_⟩
      rw [scan_run_one a q c _ _
        (step_out_of_range a q c f up (.internal r 0 nw ne sw se) b h)]
      simp only [scan_tree, h, if_true]
    · cases a with
      | x =>
        obtain ⟨k1, h1⟩ := ihsw hsw ⟨r, 0xFCFCFCFC, .sw, nw, ne, se⟩ (f :: up) b
        obtain ⟨k2, h2⟩ := ihnw hnw ⟨r, 0xFDFDFDFD, .nw, ne, sw, se⟩ (f :: up)
          (scan_tree .x q c sw b)
        obtain ⟨k3, h3⟩ := ihse hse ⟨r, 0xFEFEFEFE, .se, nw, ne, sw⟩ (f :: up)
          (scan_tree .x q c nw (scan_tree .x q c sw b))
        obtain ⟨k4, h4⟩ := ihne hne ⟨r, 0xFFFFFFFF, .ne, nw, sw, se⟩ (f :: up)
          (scan_tree .x q c se (scan_tree .x q c nw (scan_tree .x q c sw b)))
        refine ⟨1 + (k1 + (1 + (k2 + (1 + (k3 + (1 + (k4 + 1))))))), ?_⟩
        refine scan_run_trans _ _ _ _ _ _ _ _
          (scan_run_one _ _ _ _ _ (step_marker_0 .x q c (f :: up) r nw ne sw se b h)) ?_
        refine scan_run_trans _ _ _ _ _ _ _ _ h1 ?_
        refine scan_run_trans _ _ _ _ _ _ _ _
          (scan_run_one _ _ _ _ _ (step_marker_FC .x q c (f :: up) r nw ne sw se _ h)) ?_
        refine scan_run_trans _ _ _ _ _ _ _ _ h2 ?_
        refine scan_run_trans _ _ _ _ _ _ _ _
          (scan_run_one _ _ _ _ _ (step_marker_FD .x q c (f :: up) r nw ne sw se _ h)) ?_
        refine scan_run_trans _ _ _ _ _ _ _ _ h3 ?_
        refine scan_run_trans _ _ _ _ _ _ _ _
          (scan_run_one _ _ _ _ _ (step_marker_FE .x q c (f :: up) r nw ne sw se _ h)) ?_
        refine scan_run_trans _ _ _ _ _ _ _ _ h4 ?_
        refine Eq.trans
          (scan_run_one _ _ _ _ _ (step_marker_FF .x q c f up r nw ne sw se _ h)) ?_
        simp only [scan_tree, h, if_false]
      | y =>
        obtain ⟨k1, h1⟩ := ihse hse ⟨r, 0xFCFCFCFC, .se, nw, ne, sw⟩ (f :: up) b
        obtain ⟨k2, h2⟩ := ihne hne ⟨r, 0xFDFDFDFD, .ne, nw, sw, se⟩ (f :: up)
          (scan_tree .y q c se b)
        obtain ⟨k3, h3⟩ := ihsw hsw ⟨r, 0xFEFEFEFE, .sw, nw, ne, se⟩ (f :: up)
          (scan_tree .y q c ne (scan_tree .y q c se b))
        obtain ⟨k4, h4⟩ := ihnw hnw ⟨r, 0xFFFFFFFF, .nw, ne, sw, se⟩ (f :: up)
          (scan_tree .y q c sw (scan_tree .y q c ne (scan_tree .y q c se b)))
        refine ⟨1 + (k1 + (1 + (k2 + (1 + (k3 + (1 + (k4 + 1))))))), ?_⟩
        refine scan_run_trans _ _ _ _ _ _ _ _
          (scan_run_one _ _ _ _ _ (step_marker_0 .y q c (f :: up) r nw ne sw se b h)) ?_
        refine scan_run_trans _ _ _ _ _ _ _ _ h1 ?_
        refine scan_run_trans _ _ _ _ _ _ _ _
          (scan_run_one _ _ _ _ _ (step_marker_FC .y q c (f :: up) r nw ne sw se _ h)) ?_
        refine scan_run_trans _ _ _ _ _ _ _ _ h2 ?_
        refine scan_run_trans _ _ _ _ _ _ _ _
          (scan_run_one _ _ _ _ _ (step_marker_FD .y q c (f :: up) r nw ne sw se _ h)) ?_
        refine scan_run_trans _ _ _ _ _ _ _ _ h3 ?_
        refine scan_run_trans _ _ _ _ _ _ _ _
          (scan_run_one _ _ _ _ _ (step_marker_FE .y q c (f :: up) r nw ne sw se _ h)) ?_
        refine scan_run_trans _ _ _ _ _ _ _ _ h4 ?_
        refine Eq.trans
          (scan_run_one _ _ _ _ _ (step_marker_FF .y q c f up r nw ne sw se _ h)) ?_
        simp only [scan_tree, h, if_false]

/-- The scan of a subdivided root at rest whose range holds the query: the
loop returns after finitely many iterations, with the tree unchanged and
the buffer as `scan_tree` describes. -/
theorem scan_loop_root (a : Axis) (q c : Nat) (r : QUADTREE_REGION)
    (nw ne sw se : QUADTREE_NODE) (b : ScanBuf)
    (hr : at_rest (.internal r 0 nw ne sw se)) (h : ¬ (q < a.lo r ∨ q > a.hi r)) :
    ∃ k, ∀ fuel, scan_loop a q c (k + (fuel + 1)) ⟨some ⟨[], .internal r 0 nw ne sw se⟩, b⟩ =
      .ok ⟨.internal r 0 nw ne sw se, scan_tree a q c (.internal r 0 nw ne sw se) b⟩ := by
  obtain ⟨_, hnw, hne, hsw, hse⟩ := hr
  cases a with
  | x =>
    obtain ⟨k1, h1⟩ := scan_walk .x q c sw hsw ⟨r, 0xFCFCFCFC, .sw, nw, ne, se⟩ [] b
    obtain ⟨k2, h2⟩ := scan_walk .x q c nw hnw ⟨r, 0xFDFDFDFD, .nw, ne, sw, se⟩ []
      (scan_tree .x q c sw b)
    obtain ⟨k3, h3⟩ := scan_walk .x q c se hse ⟨r, 0xFEFEFEFE, .se, nw, ne, sw⟩ []
      (scan_tree .x q c nw (scan_tree .x q c sw b))
    obtain ⟨k4, h4⟩ := scan_walk .x q c ne hne ⟨r, 0xFFFFFFFF, .ne, nw, sw, se⟩ []
      (scan_tree .x q c se (scan_tree .x q c nw (scan_tree .x q c sw b)))
    refine ⟨1 + (k1 + (1 + (k2 + (1 + (k3 + (1 + k4)))))), fun fuel => ?_⟩
    have hrun : scan_run .x q c (1 + (k1 + (1 + (k2 + (1 + (k3 + (1 + k4)))))))
        ⟨some ⟨[], .internal r 0 nw ne sw se⟩, b⟩ =
        some ⟨some ⟨[], .internal r 0xFFFFFFFF nw ne sw se⟩,
          scan_tree .x q c (.internal r 0 nw ne sw se) b⟩ := by
      refine scan_run_trans _ _ _ _ _ _ _ _
        (scan_run_one _ _ _ _ _ (step_marker_0 .x q c [] r nw ne sw se b h)) ?_
      refine scan_run_trans _ _ _ _ _ _ _ _ h1 ?_
      refine scan_run_trans _ _ _ _ _ _ _ _
        (scan_run_one _ _ _ _ _ (step_marker_FC .x q c [] r nw ne sw se _ h)) ?_
      refine scan_run_trans _ _ _ _ _ _ _ _ h2 ?_
      refine scan_run_trans _ _ _ _ _ _ _ _
        (scan_run_one _ _ _ _ _ (step_marker_FD .x q c [] r nw ne sw se _ h)) ?_
      refine scan_run_trans _ _ _ _ _ _ _ _ h3 ?_
      refine scan_run_trans _ _ _ _ _ _ _ _
        (scan_run_one _ _ _ _ _ (step_marker_FE .x q c [] r nw ne sw se _ h)) ?_
      refine Eq.trans h4 ?_
      simp only [scan_tree, h, if_false, Frame.plug]
    rw [scan_loop_of_run _ _ _ _ _ _ _ hrun]
    simp only [scan_loop, step_marker_FF_root]
  | y =>
    obtain ⟨k1, h1⟩ := scan_walk .y q c se hse ⟨r, 0xFCFCFCFC, .se, nw, ne, sw⟩ [] b
    obtain ⟨k2, h2⟩ := scan_walk .y q c ne hne ⟨r, 0xFDFDFDFD, .ne, nw, sw, se⟩ []
      (scan_tree .y q c se b)
    obtain ⟨k3, h3⟩ := scan_walk .y q c sw hsw ⟨r, 0xFEFEFEFE, .sw, nw, ne, se⟩ []
      (scan_tree .y q c ne (scan_tree .y q c se b))
    obtain ⟨k4, h4⟩ := scan_walk .y q c nw hnw ⟨r, 0xFFFFFFFF, .nw, ne, sw, se⟩ []
      (scan_tree .y q c sw (scan_tree .y q c ne (scan_tree .y q c se b)))
    refine ⟨1 + (k1 + (1 + (k2 + (1 + (k3 + (1 + k4)))))), fun fuel => ?_⟩
    have hrun : scan_run .y q c (1 + (k1 + (1 + (k2 + (1 + (k3 + (1 + k4)))))))
        ⟨some ⟨[], .internal r 0 nw ne sw se⟩, b⟩ =
        some ⟨some ⟨[], .internal r 0xFFFFFFFF nw ne sw se⟩,
          scan_tree .y q c (.internal r 0 nw ne sw se) b⟩ := by
      refine scan_run_trans _ _ _ _ _ _ _ _
        (scan_run_one _ _ _ _ _ (step_marker_0 .y q c [] r nw ne sw se b h)) ?_
      refine scan_run_trans _ _ _ _ _ _ _ _ h1 ?_
      refine scan_run_trans _ _ _ _ _ _ _ _
        (scan_run_one _ _ _ _ _ (step_marker_FC .y q c [] r nw ne sw se _ h)) ?_
      refine scan_run_trans _ _ _ _ _ _ _ _ h2 ?_
      refine scan_run_trans _ _ _ _ _ _ _ _
        (scan_run_one _ _ _ _ _ (step_marker_FD .y q c [] r nw ne sw se _ h)) ?_
      refine scan_run_trans _ _ _ _ _ _ _ _ h3 ?_
      refine scan_run_trans _ _ _ _ _ _ _ _
        (scan_run_one _ _ _ _ _ (step_marker_FE .y q c [] r nw ne sw se _ h)) ?_
      refine Eq.trans h4 ?_
      simp only [scan_tree, h, if_false, Frame.plug]
    rw [scan_loop_of_run _ _ _ _ _ _ _ hrun]
    simp only [scan_loop, step_marker_FF_root]

/-! ### Subdivision -/

/-- `_quadtree_node_init` on corners whose computed width and height agree. -/
theorem node_init_ok (minx miny maxx maxy w : Nat)
    (hw : (U32 + maxx - minx + 1) % U32 = w) (hh : (U32 + maxy - miny + 1) % U32 = w) :
    _quadtree_node_init minx miny maxx maxy =
      .ok (.leaf ⟨⟨minx, miny⟩, ⟨maxx, maxy⟩, w, w⟩ EMPTY EMPTY EMPTY EMPTY) := by
  unfold _quadtree_node_init
  simp only [hw, hh, ne_eq, not_true_eq_false, if_false]

/-- The children of a region that does not wrap and on which subdivision
does not wrap: fresh leaves on the regions `Kids` describes. -/
theorem subdivide_children_ok (r : QUADTREE_REGION) (hN : Normal r) (hS : ¬ Wraps r) :
    ∃ R1 R2 R3 R4, subdivide_children r =
        .ok (.leaf R1 EMPTY EMPTY EMPTY EMPTY, .leaf R2 EMPTY EMPTY EMPTY EMPTY,
          .leaf R3 EMPTY EMPTY EMPTY EMPTY, .leaf R4 EMPTY EMPTY EMPTY EMPTY) ∧
      Kids r R1 R2 R3 R4 := by
  obtain ⟨⟨x, y⟩, ⟨X, Y⟩, rw, rh⟩ := r
  obtain ⟨n1, n2, n3, n4, n5⟩ := hN
  simp only at n1 n2 n3 n4 n5
  simp only [Wraps] at hS
  rw [U32_eq] at n3 n4 hS
  have ehx : (U32 + (1 + X) % U32 - x) % U32 / 2 = (X - x + 1) / 2 := by
    rw [U32_eq]; omega
  have ehy : (U32 + (1 + Y) % U32 - y) % U32 / 2 = (X - x + 1) / 2 := by
    rw [U32_eq]; omega
  unfold subdivide_children
  simp only [ehx, ehy]
  generalize hh : (X - x + 1) / 2 = h
  by_cases hpos : 1 ≤ h
  · have a1 : (U32 + (x + h) - 1) % U32 = x + h - 1 := by rw [U32_eq]; omega
    have a2 : (U32 + (y + h) - 1) % U32 = y + h - 1 := by rw [U32_eq]; omega
    have a3 : (x + h) % U32 = x + h := by rw [U32_eq]; omega
    have a4 : (y + h) % U32 = y + h := by rw [U32_eq]; omega
    have a5 : (U32 + (x + h + h) - 1) % U32 = x + h + h - 1 := by rw [U32_eq]; omega
    have a6 : (U32 + (y + h + h) - 1) % U32 = y + h + h - 1 := by rw [U32_eq]; omega
    have w1 : (U32 + (x + h - 1) - x + 1) % U32 = h := by rw [U32_eq]; omega
    have w2 : (U32 + (y + h - 1) - y + 1) % U32 = h := by rw [U32_eq]; omega
    have w3 : (U32 + (x + h + h - 1) - (x + h) + 1) % U32 = h := by rw [U32_eq]; omega
    have w4 : (U32 + (y + h + h - 1) - (y + h) + 1) % U32 = h := by rw [U32_eq]; omega
    simp only [a1, a2, a3, a4, a5, a6]
    rw [node_init_ok _ _ _ _ h w1 w2, node_init_ok _ _ _ _ h w3 w2,
      node_init_ok _ _ _ _ h w1 w4, node_init_ok _ _ _ _ h w3 w4]
    refine ⟨_, _, _, _, rfl, ?_, ?_⟩
    · intro _
      simp only [half, hh, QUADTREE_POINT.mk.injEq, true_and, and_true]
      omega
    · intro hle
      simp only at hle
      omega
  · have h0 : h = 0 := by omega
    subst h0
    have b1 : (x + 0) % U32 = x := by rw [U32_eq]; omega
    have b2 : (y + 0) % U32 = y := by rw [U32_eq]; omega
    simp only [Nat.add_zero] at b1 b2 ⊢
    simp only [b1, b2]
    have w1 : (U32 + (U32 + x - 1) % U32 - x + 1) % U32 = 0 := by rw [U32_eq]; omega
    have w2 : (U32 + (U32 + y - 1) % U32 - y + 1) % U32 = 0 := by rw [U32_eq]; omega
    have v : ∀ px py, ¬ ((px ≥ x ∧ px ≤ (U32 + x - 1) % U32) ∧
        (py ≥ y ∧ py ≤ (U32 + y - 1) % U32)) := by
      intro px py
      rw [U32_eq]
      omega
    rw [node_init_ok _ _ _ _ 0 w1 w2]
    refine ⟨_, _, _, _, rfl, ?_, ?_⟩
    · intro hlt
      simp only at hlt
      omega
    · intro _
      have hv : Void ⟨⟨x, y⟩, ⟨(U32 + x - 1) % U32, (U32 + y - 1) % U32⟩, 0, 0⟩ := by
        intro px py
        have := v px py
        simp only [QUADTREE_REGION.contains, Bool.and_eq_false_iff, decide_eq_false_iff_not]
        omega
      exact ⟨hv, hv, hv, hv⟩


/-- The children of a region on which subdivision wraps: four fresh leaves
that each span the whole coordinate space. -/
theorem subdivide_children_wrap (r : QUADTREE_REGION) (hN : Normal r) (hW : Wraps r) :
    subdivide_children r =
      .ok (.leaf whole EMPTY EMPTY EMPTY EMPTY, .leaf whole EMPTY EMPTY EMPTY EMPTY,
        .leaf whole EMPTY EMPTY EMPTY EMPTY, .leaf whole EMPTY EMPTY EMPTY EMPTY) := by
  obtain ⟨⟨x, y⟩, ⟨X, Y⟩, rw, rh⟩ := r
  obtain ⟨n1, n2, n3, n4, n5⟩ := hN
  obtain ⟨hx, hy, hX⟩ := hW
  simp only at n1 n2 n3 n4 n5 hx hy hX
  subst hx hy
  rw [U32_eq] at n3 n4 hX
  have ehx : (U32 + (1 + X) % U32 - 0) % U32 / 2 = 0 := by
    rw [U32_eq]; omega
  have ehy : (U32 + (1 + Y) % U32 - 0) % U32 / 2 = 0 := by
    rw [U32_eq]; omega
  have a1 : (U32 + (0 + 0) - 1) % U32 = U32 - 1 := by rw [U32_eq]
  have a2 : (0 + 0) % U32 = 0 := by rw [U32_eq]
  have a3 : (U32 + (0 + 0 + 0) - 1) % U32 = U32 - 1 := by rw [U32_eq]
  have w1 : (U32 + (U32 - 1) - 0 + 1) % U32 = 0 := by rw [U32_eq]
  unfold subdivide_children
  simp only [ehx, ehy, a1, a2, a3]
  rw [node_init_ok _ _ _ _ 0 w1 w1]
  rfl

/-! ### Insertion where subdivision wraps -/

/-- A point inside a region that does not wrap has coordinates below `2 ^ 32`,
so the region of the whole space contains it. -/
theorem whole_contains (r : QUADTREE_REGION) (hN : Normal r) (x y : Nat)
    (h : r.contains x y = true) : whole.contains x y = true := by
  obtain ⟨n1, n2, n3, n4, n5⟩ := hN
  simp only [QUADTREE_REGION.contains, Bool.and_eq_true, decide_eq_true_eq] at h
  simp only [QUADTREE_REGION.contains, whole, Bool.and_eq_true, decide_eq_true_eq]
  omega

/-- The region of all `unsigned int` pairs has ordered, in-range corners and
is square. -/
theorem normal_whole : Normal whole := by
  simp only [Normal, whole]
  rw [U32_eq]
  decide

/-- The region of all `unsigned int` pairs is one on which subdivision
wraps. -/
theorem wraps_whole : Wraps whole := by
  exact ⟨rfl, rfl, Or.inr rfl⟩

/-- `_quadtree_insert` on a leaf with a free slot. -/
theorem insert_leaf_free (fuel : Nat) (r : QUADTREE_REGION) (p0 p1 p2 p3 : QUADTREE_POINT)
    (x y : Nat) (sd : Bool) (n1 : QUADTREE_NODE) (hc : r.contains x y = true)
    (h : _quadtree_insert_into_internal (.leaf r p0 p1 p2 p3) x y = .ok (n1, true)) :
    _quadtree_insert (fuel + 1) (.leaf r p0 p1 p2 p3) x y sd = .ok (n1, true) := by
  simp only [_quadtree_insert, _quadtree_node_contains, QUADTREE_NODE.region, hc,
    _quadtree_node_isleaf, Bool.not_true, Bool.false_eq_true, if_false, if_true, h]

/-- `_quadtree_insert` on an internal node at rest whose `nw` child takes
the point. -/
theorem insert_internal_nw (fuel : Nat) (r : QUADTREE_REGION) (nw ne sw se nw1 : QUADTREE_NODE)
    (x y : Nat) (sd : Bool) (hc : r.contains x y = true)
    (h : _quadtree_insert fuel nw x y sd = .ok (nw1, true)) :
    _quadtree_insert (fuel + 1) (.internal r 0 nw ne sw se) x y sd =
      .ok (.internal r 0 nw1 ne sw se, true) := by
  simp only [_quadtree_insert, _quadtree_node_contains, QUADTREE_NODE.region, hc,
    _quadtree_node_isleaf, Bool.not_true, Bool.false_eq_true, if_false, ne_eq,
    not_true_eq_false, decide_False, insert_children, h]

/-- With fuel for two levels, the reinsertion loop of a subdivision whose
children span the whole space puts all four saved points into `nw`. -/
theorem reinsert_wrap (fuel : Nat) (r : QUADTREE_REGION) (p0 p1 p2 p3 : QUADTREE_POINT)
    (hN : Normal r)
    (hp : ∀ pt ∈ [p0, p1, p2, p3], pt ≠ EMPTY ∧ r.contains pt.x pt.y = true) :
    subdivide_reinsert (_quadtree_insert (fuel + 2))
      (.internal r 0 (.leaf whole EMPTY EMPTY EMPTY EMPTY) (.leaf whole EMPTY EMPTY EMPTY EMPTY)
        (.leaf whole EMPTY EMPTY EMPTY EMPTY) (.leaf whole EMPTY EMPTY EMPTY EMPTY))
      [p0, p1, p2, p3] =
    .ok (.internal r 0 (.leaf whole p0 p1 p2 p3) (.leaf whole EMPTY EMPTY EMPTY EMPTY)
        (.leaf whole EMPTY EMPTY EMPTY EMPTY) (.leaf whole EMPTY EMPTY EMPTY EMPTY), false) := by
  obtain ⟨h0e, h0c⟩ := hp p0 (by simp)
  obtain ⟨h1e, h1c⟩ := hp p1 (by simp)
  obtain ⟨h2e, h2c⟩ := hp p2 (by simp)
  obtain ⟨h3e, h3c⟩ := hp p3 (by simp)
  have s0 := insert_internal_nw (fuel + 1) r _ (.leaf whole EMPTY EMPTY EMPTY EMPTY)
    (.leaf whole EMPTY EMPTY EMPTY EMPTY) (.leaf whole EMPTY EMPTY EMPTY EMPTY) _ p0.x p0.y false h0c
    (insert_leaf_free fuel whole EMPTY EMPTY EMPTY EMPTY p0.x p0.y false
      (.leaf whole p0 EMPTY EMPTY EMPTY) (whole_contains r hN _ _ h0c)
      (by simp only [_quadtree_insert_into_internal, if_true]))
  have s1 := insert_internal_nw (fuel + 1) r _ (.leaf whole EMPTY EMPTY EMPTY EMPTY)
    (.leaf whole EMPTY EMPTY EMPTY EMPTY) (.leaf whole EMPTY EMPTY EMPTY EMPTY) _ p1.x p1.y false h1c
    (insert_leaf_free fuel whole p0 EMPTY EMPTY EMPTY p1.x p1.y false
      (.leaf whole p0 p1 EMPTY EMPTY) (whole_contains r hN _ _ h1c)
      (by simp only [_quadtree_insert_into_internal, h0e, if_false, if_true]))
  have s2 := insert_internal_nw (fuel + 1) r _ (.leaf whole EMPTY EMPTY EMPTY EMPTY)
    (.leaf whole EMPTY EMPTY EMPTY EMPTY) (.leaf whole EMPTY EMPTY EMPTY EMPTY) _ p2.x p2.y false h2c
    (insert_leaf_free fuel whole p0 p1 EMPTY EMPTY p2.x p2.y false
      (.leaf whole p0 p1 p2 EMPTY) (whole_contains r hN _ _ h2c)
      (by simp only [_quadtree_insert_into_internal, h0e, h1e, if_false, if_true]))
  have s3 := insert_internal_nw (fuel + 1) r _ (.leaf whole EMPTY EMPTY EMPTY EMPTY)
    (.leaf whole EMPTY EMPTY EMPTY EMPTY) (.leaf whole EMPTY EMPTY EMPTY EMPTY) _ p3.x p3.y false h3c
    (insert_leaf_free fuel whole p0 p1 p2 EMPTY p3.x p3.y false
      (.leaf whole p0 p1 p2 p3) (whole_contains r hN _ _ h3c)
      (by simp only [_quadtree_insert_into_internal, h0e, h1e, h2e, if_false, if_true]))
  simp only [subdivide_reinsert, s0, s1, s2, s3]

/-- Offering a point to a full leaf on which subdivision wraps never
returns: the children span the whole space, the four saved points and the
new one all go to `nw`, which is full again and wraps again. -/
theorem insert_wrap_diverges (fuel : Nat) : ∀ (r : QUADTREE_REGION)
    (p0 p1 p2 p3 : QUADTREE_POINT) (x y : Nat), Normal r → Wraps r →
    (∀ pt ∈ [p0, p1, p2, p3], pt ≠ EMPTY ∧ r.contains pt.x pt.y = true) →
    r.contains x y = true →
    _quadtree_insert fuel (.leaf r p0 p1 p2 p3) x y true = .error .fuel := by
  induction fuel with
  | zero => intro r p0 p1 p2 p3 x y _ _ _ _; rfl
  | succ f ih =>
    intro r p0 p1 p2 p3 x y hN hW hp hc
    obtain ⟨h0e, h0c⟩ := hp p0 (by simp)
    obtain ⟨h1e, _⟩ := hp p1 (by simp)
    obtain ⟨h2e, _⟩ := hp p2 (by simp)
    obtain ⟨h3e, _⟩ := hp p3 (by simp)
    have hfull : _quadtree_insert_into_internal (.leaf r p0 p1 p2 p3) x y =
        .ok (.leaf r p0 p1 p2 p3, false) := by
      simp only [_quadtree_insert_into_internal, h0e, h1e, h2e, h3e, if_false]
    simp only [_quadtree_insert, _quadtree_node_contains, QUADTREE_NODE.region, hc,
      _quadtree_node_isleaf, Bool.not_true, Bool.false_eq_true, if_false, if_true, hfull,
      _quadtree_node_subdivide, subdivide_children_wrap r hN hW]
    match f, ih with
    | 0, _ => rfl
    | 1, _ =>
      simp only [subdivide_reinsert, _quadtree_insert, _quadtree_node_contains,
        QUADTREE_NODE.region, h0c, _quadtree_node_isleaf, Bool.not_true, Bool.false_eq_true,
        if_false, ne_eq, not_true_eq_false, decide_False, insert_children]
    | g + 2, ih =>
      rw [reinsert_wrap g r p0 p1 p2 p3 hN hp]
      have hrec := ih whole p0 p1 p2 p3 x y normal_whole wraps_whole
        (fun pt hpt => ⟨(hp pt hpt).1, whole_contains r hN _ _ (hp pt hpt).2⟩)
        (whole_contains r hN _ _ hc)
      simp only [insert_children, hrec]

/-! ### The invariant of insertion -/

/-- The invariant is monotone in the set of offered points. -/
theorem inv_mono (S T : Nat → Nat → Prop) (hST : ∀ a b, S a b → T a b) :
    ∀ n, Inv S n → Inv T n := by
  intro n
  induction n with
  | leaf r p0 p1 p2 p3 =>
    intro h
    exact ⟨h.1, fun pt hpt hne => ⟨(h.2 pt hpt hne).1, hST _ _ (h.2 pt hpt hne).2⟩⟩
  | internal r m nw ne sw se i1 i2 i3 i4 =>
    intro h
    obtain ⟨h1, h2, h3, h4, h5, h6, h7, h8, h9⟩ := h
    exact ⟨h1, h2, h3, fun e => hST _ _ (h4 e), h5, i1 h6, i2 h7, i3 h8, i4 h9⟩

/-- The quadrants of a region that does not wrap do not wrap either. -/
theorem kids_normal (r R1 R2 R3 R4 : QUADTREE_REGION) (hN : Normal r)
    (hK : Kids r R1 R2 R3 R4) :
    (Normal R1 ∨ Void R1) ∧ (Normal R2 ∨ Void R2) ∧ (Normal R3 ∨ Void R3) ∧
      (Normal R4 ∨ Void R4) := by
  obtain ⟨n1, n2, n3, n4, n5⟩ := hN
  by_cases hlt : r.nw.x < r.se.x
  · obtain ⟨e1, e2, e3, e4, e5, e6, e7, e8⟩ := hK.1 hlt
    have hh : half r = (r.se.x - r.nw.x + 1) / 2 := rfl
    refine ⟨Or.inl ?_, Or.inl ?_, Or.inl ?_, Or.inl ?_⟩
    · simp only [Normal, e1, e2]; omega
    · simp only [Normal, e3, e4]; omega
    · simp only [Normal, e5, e6]; omega
    · simp only [Normal, e7, e8]; omega
  · obtain ⟨v1, v2, v3, v4⟩ := hK.2 (by omega)
    exact ⟨Or.inr v1, Or.inr v2, Or.inr v3, Or.inr v4⟩

/-- A fresh leaf satisfies the invariant when its region does not wrap or
holds no point. -/
theorem inv_fresh (T : Nat → Nat → Prop) (R : QUADTREE_REGION) (h : Normal R ∨ Void R) :
    Inv T (.leaf R EMPTY EMPTY EMPTY EMPTY) := by
  refine ⟨h, fun pt hpt hne => ?_⟩
  simp only [List.mem_cons, List.mem_singleton, List.not_mem_nil, or_false, or_self] at hpt
  exact absurd hpt hne

/-- The tail of `_quadtree_insert` keeps the invariant when the recursive
calls do. -/
theorem insert_children_inv (T : Nat → Nat → Prop) (f : Nat) (ih : InsertKeeps T f)
    (r : QUADTREE_REGION) (m : Nat) (nw ne sw se : QUADTREE_NODE) (x y : Nat) (sd : Bool)
    (n1 : QUADTREE_NODE) (b : Bool) (hI : Inv T (.internal r m nw ne sw se)) (hT : T x y)
    (h : insert_children (fun c => _quadtree_insert f c x y sd) (.internal r m nw ne sw se) =
      .ok (n1, b)) :
    Inv T n1 ∧ n1.region = r ∧ subdivided n1 = true := by
  obtain ⟨h1, h2, h3, h4, h5, h6, h7, h8, h9⟩ := hI
  simp only [insert_children] at h
  cases e1 : _quadtree_insert f nw x y sd with
  | error e => rw [e1] at h; cases h
  | ok v1 =>
    obtain ⟨nw1, b1⟩ := v1
    obtain ⟨k1, g1, _, _⟩ := ih nw x y sd nw1 b1 h6 hT e1
    rw [e1] at h
    cases b1 with
    | true =>
      cases h
      exact ⟨⟨h1, h2, h3, h4, by rw [g1]; exact h5, k1, h7, h8, h9⟩, rfl, rfl⟩
    | false =>
      simp only at h
      cases e2 : _quadtree_insert f ne x y sd with
      | error e => rw [e2] at h; cases h
      | ok v2 =>
        obtain ⟨ne1, b2⟩ := v2
        obtain ⟨k2, g2, _, _⟩ := ih ne x y sd ne1 b2 h7 hT e2
        rw [e2] at h
        cases b2 with
        | true =>
          cases h
          exact ⟨⟨h1, h2, h3, h4, by rw [g1, g2]; exact h5, k1, k2, h8, h9⟩, rfl, rfl⟩
        | false =>
          simp only at h
          cases e3 : _quadtree_insert f sw x y sd with
          | error e => rw [e3] at h; cases h
          | ok v3 =>
            obtain ⟨sw1, b3⟩ := v3
            obtain ⟨k3, g3, _, _⟩ := ih sw x y sd sw1 b3 h8 hT e3
            rw [e3] at h
            cases b3 with
            | true =>
              cases h
              exact ⟨⟨h1, h2, h3, h4, by rw [g1, g2, g3]; exact h5, k1, k2, k3, h9⟩, rfl, rfl⟩
            | false =>
              simp only at h
              cases e4 : _quadtree_insert f se x y sd with
              | error e => rw [e4] at h; cases h
              | ok v4 =>
                obtain ⟨se1, b4⟩ := v4
                obtain ⟨k4, g4, _, _⟩ := ih se x y sd se1 b4 h9 hT e4
                rw [e4] at h
                cases b4 with
                | true =>
                  cases h
                  exact ⟨⟨h1, h2, h3, h4, by rw [g1, g2, g3, g4]; exact h5, k1, k2, k3, k4⟩,
                    rfl, rfl⟩
                | false =>
                  cases h
                  exact ⟨⟨h1, h2, h3, h4, by rw [g1, g2, g3, g4]; exact h5, k1, k2, k3, k4⟩,
                    rfl, rfl⟩

/-- The reinsertion loop of a subdivision keeps the invariant when the
recursive calls do. -/
theorem reinsert_inv (T : Nat → Nat → Prop) (f : Nat) (ih : InsertKeeps T f) :
    ∀ (pts : List QUADTREE_POINT) (n n1 : QUADTREE_NODE) (e : Bool), Inv T n →
      (∀ pt ∈ pts, T pt.x pt.y) →
      subdivide_reinsert (_quadtree_insert f) n pts = .ok (n1, e) →
      Inv T n1 ∧ n1.region = n.region ∧ (subdivided n = true → subdivided n1 = true) := by
  intro pts
  induction pts with
  | nil =>
    intro n n1 e hI _ h
    simp only [subdivide_reinsert] at h
    cases h
    exact ⟨hI, rfl, fun a => a⟩
  | cons pt pts ihp =>
    intro n n1 e hI hT h
    simp only [subdivide_reinsert] at h
    cases e1 : _quadtree_insert f n pt.x pt.y false with
    | error e => rw [e1] at h; cases h
    | ok v =>
      obtain ⟨n2, b2⟩ := v
      obtain ⟨k1, g1, s1, _⟩ := ih n pt.x pt.y false n2 b2 hI (hT pt (List.mem_cons_self _ _)) e1
      rw [e1] at h
      cases b2 with
      | false =>
        cases h
        exact ⟨k1, g1, s1⟩
      | true =>
        simp only at h
        obtain ⟨k2, g2, s2⟩ := ihp n2 n1 e k1 (fun q hq => hT q (List.mem_cons_of_mem _ hq)) h
        exact ⟨k2, g2.trans g1, fun a => s2 (s1 a)⟩


/-- A region that contains a point and does not wrap or holds no point does
not wrap. -/
theorem normal_of_contains (r : QUADTREE_REGION) (x y : Nat) (h : Normal r ∨ Void r)
    (hc : r.contains x y = true) : Normal r := by
  rcases h with h | h
  · exact h
  · rw [h x y] at hc
    cases hc

/-- Every call of `_quadtree_insert` that returns keeps the invariant, the
region of the node and its being subdivided, and returns 1 only for a point
inside the node's region. -/
theorem insert_keeps (T : Nat → Nat → Prop) : ∀ f, InsertKeeps T f := by
  intro f
  induction f with
  | zero =>
    intro n x y sd n1 b _ _ h
    simp only [_quadtree_insert] at h
    cases h
  | succ f ih =>
    intro n x y sd n1 b hI hT h
    by_cases hc : n.region.contains x y = true
    · cases n with
      | internal r m nw ne sw se =>
        have hm : m = 0 := hI.1
        subst hm
        simp only [_quadtree_insert, _quadtree_node_contains, hc, _quadtree_node_isleaf,
          Bool.not_true, Bool.false_eq_true, if_false, ne_eq, not_true_eq_false,
          decide_False] at h
        obtain ⟨k, g, s⟩ := insert_children_inv T f ih r 0 nw ne sw se x y sd n1 b hI hT h
        exact ⟨k, g, fun _ => s, fun _ => hc⟩
      | leaf r p0 p1 p2 p3 =>
        simp only [QUADTREE_NODE.region] at hc
        obtain ⟨hR, hP⟩ := hI
        have hN : Normal r := normal_of_contains r x y hR hc
        have hP0 := hP p0 (by simp)
        have hP1 := hP p1 (by simp)
        have hP2 := hP p2 (by simp)
        have hP3 := hP p3 (by simp)
        have hnew : (⟨x, y⟩ : QUADTREE_POINT) ≠ EMPTY →
            r.contains (⟨x, y⟩ : QUADTREE_POINT).x (⟨x, y⟩ : QUADTREE_POINT).y = true ∧
              T (⟨x, y⟩ : QUADTREE_POINT).x (⟨x, y⟩ : QUADTREE_POINT).y := fun _ => ⟨hc, hT⟩
        by_cases e0 : p0 = EMPTY
        · simp only [_quadtree_insert, _quadtree_node_contains, QUADTREE_NODE.region, hc,
            _quadtree_node_isleaf, Bool.not_true, Bool.false_eq_true, if_false, if_true,
            _quadtree_insert_into_internal, e0] at h
          cases h
          refine ⟨⟨hR, fun pt hpt => ?_⟩, rfl, fun a => ?_, fun _ => hc⟩
          swap
          · cases a
          simp only [List.mem_cons, List.mem_singleton, List.not_mem_nil, or_false] at hpt
          rcases hpt with rfl | rfl | rfl | rfl
          · exact hnew
          · exact hP1
          · exact hP2
          · exact hP3
        by_cases e1 : p1 = EMPTY
        · simp only [_quadtree_insert, _quadtree_node_contains, QUADTREE_NODE.region, hc,
            _quadtree_node_isleaf, Bool.not_true, Bool.false_eq_true, if_false, if_true,
            _quadtree_insert_into_internal, e0, e1] at h
          cases h
          refine ⟨⟨hR, fun pt hpt => ?_⟩, rfl, fun a => ?_, fun _ => hc⟩
          swap
          · cases a
          simp only [List.mem_cons, List.mem_singleton, List.not_mem_nil, or_false] at hpt
          rcases hpt with rfl | rfl | rfl | rfl
          · exact hP0
          · exact hnew
          · exact hP2
          · exact hP3
        by_cases e2 : p2 = EMPTY
        · simp only [_quadtree_insert, _quadtree_node_contains, QUADTREE_NODE.region, hc,
            _quadtree_node_isleaf, Bool.not_true, Bool.false_eq_true, if_false, if_true,
            _quadtree_insert_into_internal, e0, e1, e2] at h
          cases h
          refine ⟨⟨hR, fun pt hpt => ?_⟩, rfl, fun a => ?_, fun _ => hc⟩
          swap
          · cases a
          simp only [List.mem_cons, List.mem_singleton, List.not_mem_nil, or_false] at hpt
          rcases hpt with rfl | rfl | rfl | rfl
          · exact hP0
          · exact hP1
          · exact hnew
          · exact hP3
        by_cases e3 : p3 = EMPTY
        · simp only [_quadtree_insert, _quadtree_node_contains, QUADTREE_NODE.region, hc,
            _quadtree_node_isleaf, Bool.not_true, Bool.false_eq_true, if_false, if_true,
            _quadtree_insert_into_internal, e0, e1, e2, e3] at h
          cases h
          refine ⟨⟨hR, fun pt hpt => ?_⟩, rfl, fun a => ?_, fun _ => hc⟩
          swap
          · cases a
          simp only [List.mem_cons, List.mem_singleton, List.not_mem_nil, or_false] at hpt
          rcases hpt with rfl | rfl | rfl | rfl
          · exact hP0
          · exact hP1
          · exact hP2
          · exact hnew
        -- the leaf is full
        cases sd with
        | false =>
          simp only [_quadtree_insert, _quadtree_node_contains, QUADTREE_NODE.region, hc,
            _quadtree_node_isleaf, Bool.not_true, Bool.false_eq_true, if_false, if_true,
            _quadtree_insert_into_internal, e0, e1, e2, e3, insert_children] at h
          cases h
        | true =>
          by_cases hW : Wraps r
          · have hd := insert_wrap_diverges (f + 1) r p0 p1 p2 p3 x y hN hW
              (fun pt hpt => by
                simp only [List.mem_cons, List.mem_singleton, List.not_mem_nil,
                  or_false] at hpt
                rcases hpt with rfl | rfl | rfl | rfl
                · exact ⟨e0, (hP0 e0).1⟩
                · exact ⟨e1, (hP1 e1).1⟩
                · exact ⟨e2, (hP2 e2).1⟩
                · exact ⟨e3, (hP3 e3).1⟩) hc
            rw [hd] at h
            cases h
          · obtain ⟨R1, R2, R3, R4, hsc, hK⟩ := subdivide_children_ok r hN hW
            obtain ⟨q1, q2, q3, q4⟩ := kids_normal r R1 R2 R3 R4 hN hK
            have hcell : r.se.x = r.nw.x → T r.nw.x r.nw.y := by
              intro he
              obtain ⟨n1, n2, n3, n4, n5⟩ := hN
              simp only [QUADTREE_REGION.contains, Bool.and_eq_true, decide_eq_true_eq] at hc
              have hx : x = r.nw.x := by omega
              have hy : y = r.nw.y := by omega
              rw [← hx, ← hy]
              exact hT
            have hI0 : Inv T (.internal r 0 (.leaf R1 EMPTY EMPTY EMPTY EMPTY)
                (.leaf R2 EMPTY EMPTY EMPTY EMPTY) (.leaf R3 EMPTY EMPTY EMPTY EMPTY)
                (.leaf R4 EMPTY EMPTY EMPTY EMPTY)) :=
              ⟨rfl, hN, hW, hcell, hK, inv_fresh T R1 q1, inv_fresh T R2 q2,
                inv_fresh T R3 q3, inv_fresh T R4 q4⟩
            simp only [_quadtree_insert, _quadtree_node_contains, QUADTREE_NODE.region, hc,
              _quadtree_node_isleaf, Bool.not_true, Bool.false_eq_true, if_false, if_true,
              _quadtree_insert_into_internal, e0, e1, e2, e3, _quadtree_node_subdivide,
              hsc] at h
            cases hre : subdivide_reinsert (_quadtree_insert f)
                (.internal r 0 (.leaf R1 EMPTY EMPTY EMPTY EMPTY)
                  (.leaf R2 EMPTY EMPTY EMPTY EMPTY) (.leaf R3 EMPTY EMPTY EMPTY EMPTY)
                  (.leaf R4 EMPTY EMPTY EMPTY EMPTY)) [p0, p1, p2, p3] with
            | error e => rw [hre] at h; cases h
            | ok v =>
              obtain ⟨n2, er⟩ := v
              rw [hre] at h
              obtain ⟨k2, g2, s2⟩ := reinsert_inv T f ih [p0, p1, p2, p3] _ n2 er hI0
                (fun pt hpt => by
                  simp only [List.mem_cons, List.mem_singleton, List.not_mem_nil,
                    or_false] at hpt
                  rcases hpt with rfl | rfl | rfl | rfl
                  · exact (hP0 e0).2
                  · exact (hP1 e1).2
                  · exact (hP2 e2).2
                  · exact (hP3 e3).2) hre
              cases er with
              | true =>
                cases h
                refine ⟨k2, g2, fun a => ?_, fun a => ?_⟩
                · cases a
                · cases a
              | false =>
                simp only at h
                cases n2 with
                | leaf r2 a0 a1 a2 a3 =>
                  have := s2 rfl
                  cases this
                | internal r2 m2 c1 c2 c3 c4 =>
                  obtain ⟨k3, g3, _⟩ := insert_children_inv T f ih r2 m2 c1 c2 c3 c4 x y true
                    n1 b k2 hT h
                  refine ⟨k3, g3.trans g2, fun a => ?_, fun _ => hc⟩
                  cases a
    · have hc1 : _quadtree_node_contains n x y = false := by
        simpa [_quadtree_node_contains] using hc
      simp only [_quadtree_insert, hc1, Bool.not_false, if_true] at h
      cases h
      refine ⟨hI, rfl, fun a => a, fun a => ?_⟩
      cases a

/-! ### What a scan reports -/

/-- The swap of two cells is the array composed with the transposition of
the two indices. -/
theorem sort_swap_eq (out : Nat → Nat) (a b : Nat) :
    _quadtree_sort_swap out a b = out ∘ (Equiv.swap a b) := by
  funext k
  simp only [_quadtree_sort_swap, Function.comp, Equiv.swap_apply_def]
  split
  · rfl
  · split <;> rfl

/-- Exchanging two of the first `n` cells permutes them. -/
theorem swap_perm (out : Nat → Nat) (a b n : Nat) (ha : a < n) (hb : b < n) :
    (cells (_quadtree_sort_swap out a b) n).Perm (cells out n) := by
  rw [sort_swap_eq]
  simp only [cells]
  rw [← List.map_map]
  apply List.Perm.map
  rw [List.perm_ext_iff_of_nodup
    ((List.nodup_range n).map (Equiv.swap a b).injective) (List.nodup_range n)]
  intro k
  simp only [List.mem_map, List.mem_range]
  constructor
  · rintro ⟨i, hi, rfl⟩
    rw [Equiv.swap_apply_def]
    split
    · exact hb
    · split
      · exact ha
      · exact hi
  · intro hk
    refine ⟨Equiv.swap a b k, ?_, Equiv.swap_apply_self a b k⟩
    rw [Equiv.swap_apply_def]
    split
    · exact hb
    · split
      · exact ha
      · exact hk

/-- One pass of the sort permutes the first `n` cells when it stays below
`n`. -/
theorem sort_pass_perm (k : Nat) : ∀ (out : Nat → Nat) (tmp n : Nat), tmp + k < n ∨ k = 0 →
    (cells (sort_pass out tmp k) n).Perm (cells out n) := by
  induction k with
  | zero => intro out tmp n _; exact List.Perm.refl _
  | succ k ih =>
    intro out tmp n h
    simp only [sort_pass]
    refine (ih _ (tmp + 1) n (by omega)).trans ?_
    split
    · exact swap_perm out tmp (tmp + 1) n (by omega) (by omega)
    · exact List.Perm.refl _

/-- The sort permutes the first `n` cells when it stays below `n`. -/
theorem sort_loop_perm (len : Nat) : ∀ (out : Nat → Nat) (start n : Nat),
    start + len < n ∨ len = 0 → (cells (sort_loop out start len) n).Perm (cells out n) := by
  induction len with
  | zero => intro out start n _; exact List.Perm.refl _
  | succ len ih =>
    intro out start n h
    simp only [sort_loop]
    exact (ih _ start n (by omega)).trans (sort_pass_perm (len + 1) out start n (by omega))

/-- The first `n + 1` cells are the first `n` followed by cell `n`. -/
theorem cells_succ (out : Nat → Nat) (n : Nat) : cells out (n + 1) = cells out n ++ [out n] := by
  simp only [cells, List.range_succ, List.map_append, List.map_cons, List.map_nil]

/-- Arrays that agree below `n` have the same first `n` cells. -/
theorem cells_congr (out1 out2 : Nat → Nat) (n : Nat) (h : ∀ i, i < n → out1 i = out2 i) :
    cells out1 n = cells out2 n := by
  simp only [cells]
  apply List.map_congr_left
  intro i hi
  exact h i (List.mem_range.1 hi)

/-- Parts of a scan compose. -/
theorem scanSpec_trans (c : Nat) (v1 v2 : List Nat) (b b1 b2 : ScanBuf)
    (h1 : ScanSpec c v1 b b1) (h2 : ScanSpec c v2 b1 b2) : ScanSpec c (v1 ++ v2) b b2 := by
  refine ⟨fun hr hp => ?_, fun hr hp => ⟨fun hfit => ?_, fun hov => ?_⟩⟩
  · have e1 := h1.1 hr hp
    have e2 := h2.1 (by rw [e1]; exact hr) (by rw [e1]; exact hp)
    rw [e2, e1]
  · rw [List.length_append] at hfit
    obtain ⟨r1, p1, c1⟩ := (h1.2 hr hp).1 (by omega)
    obtain ⟨r2, p2, c2⟩ := (h2.2 r1 (by omega)).1 (by omega)
    refine ⟨r2, by rw [p2, p1, List.length_append]; omega, ?_⟩
    refine c2.trans ?_
    rw [← List.append_assoc]
    exact List.Perm.append_right _ c1
  · rw [List.length_append] at hov
    by_cases hf : b.p + v1.length ≤ c
    · obtain ⟨r1, p1, _⟩ := (h1.2 hr hp).1 hf
      exact (h2.2 r1 (by omega)).2 (by omega)
    · obtain ⟨r1, p1⟩ := (h1.2 hr hp).2 (by omega)
      have e2 := h2.1 r1 (by omega)
      rw [e2]
      exact ⟨r1, p1⟩

/-- Doing nothing is the scan of no matching point. -/
theorem scanSpec_refl (c : Nat) (b : ScanBuf) : ScanSpec c [] b b := by
  refine ⟨fun _ _ => rfl, fun hr hp => ⟨fun _ => ⟨hr, rfl, ?_⟩, fun hov => ?_⟩⟩
  · rw [List.append_nil]
  · simp only [List.length_nil, Nat.add_zero] at hov
    omega

/-- One slot of a leaf. -/
theorem scan_point_spec (a : Axis) (q c : Nat) (b : ScanBuf) (pt : QUADTREE_POINT) :
    ScanSpec c (([pt].filter (fun pt => decide (a.key pt = q))).map a.val) b
      (scan_point a q c b pt) := by
  by_cases hk : a.key pt = q
  · have hv : ([pt].filter (fun pt => decide (a.key pt = q))).map a.val = [a.val pt] := by
      simp only [List.filter, hk, decide_True, List.map_cons, List.map_nil]
    rw [hv]
    refine ⟨fun hr hp => ?_, fun hr hp => ⟨fun hfit => ?_, fun hov => ?_⟩⟩
    · have h1 : ¬ b.p < c := by omega
      simp only [scan_point, hk, ne_eq, not_true_eq_false, if_false, h1, hr, Bool.not_true,
        Bool.false_eq_true]
    · simp only [List.length_singleton] at hfit
      have h1 : b.p < c := by omega
      simp only [scan_point, hk, ne_eq, not_true_eq_false, if_false, h1, if_true,
        List.length_singleton]
      refine ⟨hr, trivial, ?_⟩
      rw [cells_succ]
      simp only [if_true]
      rw [cells_congr _ b.out b.p (fun i hi => by
        have : i ≠ b.p := by omega
        simp only [this, if_false])]
    · simp only [List.length_singleton] at hov
      have h1 : ¬ b.p < c := by omega
      have h2 : b.p = c := by omega
      simp only [scan_point, hk, ne_eq, not_true_eq_false, if_false, h1, hr, Bool.not_false,
        if_true]
      exact ⟨trivial, by rw [h2]⟩
  · have hv : ([pt].filter (fun pt => decide (a.key pt = q))).map a.val = [] := by
      simp only [List.filter, hk, decide_False, List.map_nil]
    rw [hv]
    have he : scan_point a q c b pt = b := by
      simp only [scan_point, ne_eq, hk, not_false_eq_true, if_true]
    rw [he]
    exact scanSpec_refl c b

/-- The `for` loop over the slots of a leaf. -/
theorem scan_points_spec (a : Axis) (q c : Nat) (pts : List QUADTREE_POINT) :
    ∀ b, ScanSpec c ((pts.filter (fun pt => decide (a.key pt = q))).map a.val) b
      (pts.foldl (scan_point a q c) b) := by
  induction pts with
  | nil => intro b; exact scanSpec_refl c b
  | cons pt pts ih =>
    intro b
    have h := scanSpec_trans c _ _ b _ _ (scan_point_spec a q c b pt) (ih (scan_point a q c b pt))
    rw [← List.map_append, ← List.filter_append] at h
    exact h

/-- The leaf branch of the scan loop. -/
theorem scan_leaf_spec (a : Axis) (q c : Nat) (pts : List QUADTREE_POINT) (b : ScanBuf) :
    ScanSpec c ((pts.filter (fun pt => decide (a.key pt = q))).map a.val) b
      (scan_leaf a q c pts b) := by
  have h := scan_points_spec a q c pts b
  have hm := scan_points_p_mono a q c pts b
  refine ⟨fun hr hp => ?_, fun hr hp => ⟨fun hfit => ?_, fun hov => ?_⟩⟩
  · have e := h.1 hr hp
    simp only [scan_leaf, e, hr, Bool.not_true, Bool.false_eq_true, if_false]
  · obtain ⟨r1, p1, c1⟩ := (h.2 hr hp).1 hfit
    simp only [scan_leaf, r1, Bool.not_false, if_true]
    refine ⟨trivial, p1, ?_⟩
    refine List.Perm.trans ?_ c1
    unfold _quadtree_sort_result_array
    exact sort_loop_perm _ _ _ _ (by omega)
  · obtain ⟨r1, p1⟩ := (h.2 hr hp).2 hov
    simp only [scan_leaf, r1, Bool.not_true, Bool.false_eq_true, if_false]
    exact ⟨trivial, p1⟩

/-- What a scan does below a node, in terms of the values it meets. -/
theorem scan_tree_spec (a : Axis) (q c : Nat) : ∀ (t : QUADTREE_NODE) (b : ScanBuf),
    ScanSpec c (scan_vals a q t) b (scan_tree a q c t b) := by
  intro t
  induction t with
  | leaf r p0 p1 p2 p3 =>
    intro b
    by_cases h : q < a.lo r ∨ q > a.hi r
    · simp only [scan_vals, scan_tree, h, if_true]
      exact scanSpec_refl c b
    · simp only [scan_vals, scan_tree, h, if_false]
      exact scan_leaf_spec a q c _ b
  | internal r m nw ne sw se i1 i2 i3 i4 =>
    intro b
    by_cases h : q < a.lo r ∨ q > a.hi r
    · simp only [scan_vals, scan_tree, h, if_true]
      exact scanSpec_refl c b
    · cases a with
      | x =>
        simp only [scan_vals, scan_tree, h, if_false]
        exact scanSpec_trans c _ _ _ _ _ (scanSpec_trans c _ _ _ _ _
          (scanSpec_trans c _ _ _ _ _ (i3 b) (i1 _)) (i4 _)) (i2 _)
      | y =>
        simp only [scan_vals, scan_tree, h, if_false]
        exact scanSpec_trans c _ _ _ _ _ (scanSpec_trans c _ _ _ _ _
          (scanSpec_trans c _ _ _ _ _ (i4 b) (i2 _)) (i3 _)) (i1 _)

/-! ### Stored points and the scan line -/

/-- A tree that satisfies the invariant is at rest. -/
theorem inv_at_rest (T : Nat → Nat → Prop) : ∀ n, Inv T n → at_rest n := by
  intro n
  induction n with
  | leaf r p0 p1 p2 p3 => intro _; trivial
  | internal r m nw ne sw se i1 i2 i3 i4 =>
    intro h
    obtain ⟨h1, _, _, _, _, h6, h7, h8, h9⟩ := h
    exact ⟨h1, i1 h6, i2 h7, i3 h8, i4 h9⟩

/-- A point inside a quadrant is inside the parent region. -/
theorem kids_inside (r R1 R2 R3 R4 : QUADTREE_REGION) (hN : Normal r)
    (hK : Kids r R1 R2 R3 R4) (x y : Nat)
    (h : R1.contains x y = true ∨ R2.contains x y = true ∨ R3.contains x y = true ∨
      R4.contains x y = true) : r.contains x y = true := by
  obtain ⟨n1, n2, n3, n4, n5⟩ := hN
  by_cases hlt : r.nw.x < r.se.x
  · obtain ⟨e1, e2, e3, e4, e5, e6, e7, e8⟩ := hK.1 hlt
    have hh : half r = (r.se.x - r.nw.x + 1) / 2 := rfl
    simp only [QUADTREE_REGION.contains, Bool.and_eq_true, decide_eq_true_eq, e1, e2, e3, e4,
      e5, e6, e7, e8] at h ⊢
    omega
  · obtain ⟨v1, v2, v3, v4⟩ := hK.2 (by omega)
    rw [v1 x y, v2 x y, v3 x y, v4 x y] at h
    simp only [Bool.false_eq_true, or_self] at h

/-- Every stored point of a tree that satisfies the invariant lies in the
region of the root of that tree. -/
theorem stored_inside (T : Nat → Nat → Prop) : ∀ n, Inv T n →
    ∀ pt ∈ stored n, n.region.contains pt.x pt.y = true := by
  intro n
  induction n with
  | leaf r p0 p1 p2 p3 =>
    intro h pt hpt
    simp only [stored, List.mem_filter, decide_eq_true_eq] at hpt
    exact (h.2 pt hpt.1 hpt.2).1
  | internal r m nw ne sw se i1 i2 i3 i4 =>
    intro h pt hpt
    obtain ⟨_, h2, _, _, h5, h6, h7, h8, h9⟩ := h
    simp only [stored, List.mem_append] at hpt
    apply kids_inside r _ _ _ _ h2 h5
    rcases hpt with ((hpt | hpt) | hpt) | hpt
    · exact Or.inl (i1 h6 pt hpt)
    · exact Or.inr (Or.inl (i2 h7 pt hpt))
    · exact Or.inr (Or.inr (Or.inl (i3 h8 pt hpt)))
    · exact Or.inr (Or.inr (Or.inr (i4 h9 pt hpt)))

/-- A point inside a region has its scanned coordinate inside the range of
the region on that axis. -/
theorem key_in_range (a : Axis) (r : QUADTREE_REGION) (pt : QUADTREE_POINT)
    (h : r.contains pt.x pt.y = true) : a.lo r ≤ a.key pt ∧ a.key pt ≤ a.hi r := by
  simp only [QUADTREE_REGION.contains, Bool.and_eq_true, decide_eq_true_eq] at h
  cases a
  · exact ⟨h.1.1, h.1.2⟩
  · exact ⟨h.2.1, h.2.2⟩

/-- No stored point has its scanned coordinate outside the range of the
root. -/
theorem stored_out_of_range (T : Nat → Nat → Prop) (a : Axis) (q : Nat) (n : QUADTREE_NODE)
    (hI : Inv T n) (h : q < a.lo n.region ∨ q > a.hi n.region) :
    (stored n).filter (fun pt => decide (a.key pt = q)) = [] := by
  rw [List.filter_eq_nil_iff]
  intro pt hpt
  have := key_in_range a n.region pt (stored_inside T n hI pt hpt)
  simp only [decide_eq_true_eq]
  omega

/-- Both coordinates of the empty-slot value are `0xFFFFFFFF`. -/
theorem key_empty (a : Axis) : a.key EMPTY = U32 - 1 := by
  cases a <;> rfl

/-- The values a scan meets are the reported coordinates of the stored
points on the scan line, in some order. -/
theorem scan_vals_perm (T : Nat → Nat → Prop) (a : Axis) (q : Nat) (hq : q ≠ U32 - 1) :
    ∀ n, Inv T n →
      (scan_vals a q n).Perm (((stored n).filter (fun pt => decide (a.key pt = q))).map a.val) := by
  intro n
  induction n with
  | leaf r p0 p1 p2 p3 =>
    intro hI
    by_cases h : q < a.lo r ∨ q > a.hi r
    · rw [stored_out_of_range T a q _ hI h]
      simp only [scan_vals, h, if_true, List.map_nil]
      exact List.Perm.refl _
    · simp only [scan_vals, h, if_false, stored, List.filter_filter]
      have : ∀ pt : QUADTREE_POINT, (decide (a.key pt = q) && decide (pt ≠ EMPTY)) =
          decide (a.key pt = q) := by
        intro pt
        by_cases hk : a.key pt = q
        · have : pt ≠ EMPTY := by
            intro he
            rw [he, key_empty] at hk
            exact hq hk.symm
          simp only [hk, this, ne_eq, not_false_eq_true, decide_True, Bool.and_self]
        · simp only [hk, decide_False, Bool.false_and]
      simp only [this]
      exact List.Perm.refl _
  | internal r m nw ne sw se i1 i2 i3 i4 =>
    intro hI
    by_cases h : q < a.lo r ∨ q > a.hi r
    · rw [stored_out_of_range T a q _ hI h]
      simp only [scan_vals, h, if_true, List.map_nil]
      exact List.Perm.refl _
    · obtain ⟨_, _, _, _, _, h6, h7, h8, h9⟩ := hI
      have k1 := i1 h6
      have k2 := i2 h7
      have k3 := i3 h8
      have k4 := i4 h9
      cases a with
      | x =>
        simp only [scan_vals, h, if_false, stored, List.filter_append, List.map_append]
        refine ((((k3.append k1).append k4).append k2)).trans ?_
        apply Multiset.coe_eq_coe.1
        simp only [← Multiset.coe_add]
        abel
      | y =>
        simp only [scan_vals, h, if_false, stored, List.filter_append, List.map_append]
        refine ((((k4.append k2).append k3).append k1)).trans ?_
        apply Multiset.coe_eq_coe.1
        simp only [← Multiset.coe_add]
        abel

/-! ### Runs -/

/-- The tree `quadtree_init(xmax, xmax)` creates. -/
theorem init_root (xmax : Nat) :
    quadtree_init xmax xmax = .ok ⟨.leaf ⟨⟨0, 0⟩, ⟨xmax, xmax⟩, (U32 + xmax - 0 + 1) % U32,
      (U32 + xmax - 0 + 1) % U32⟩ EMPTY EMPTY EMPTY EMPTY⟩ := by
  unfold quadtree_init
  rw [node_init_ok 0 0 xmax xmax _ rfl rfl]

/-- Every tree of a run satisfies the invariant for the points offered in
the run, and its root region is `[0, xmax] x [0, xmax]`. -/
theorem run_inv (xmax : Nat) (log : List (Nat × Nat × Bool)) (t : QUADTREE)
    (h : Run xmax log t) :
    Inv (offered log) t.root ∧ t.root.region.nw = ⟨0, 0⟩ ∧ t.root.region.se = ⟨xmax, xmax⟩ ∧
      xmax < U32 := by
  induction h with
  | init hmax h0 =>
    rw [init_root] at h0
    cases h0
    refine ⟨inv_fresh _ _ (Or.inl ?_), rfl, rfl, hmax⟩
    exact ⟨Nat.zero_le _, Nat.zero_le _, hmax, hmax, rfl⟩
  | @insert log t t1 fuel x y b hrun hx hy h ih =>
    obtain ⟨hI, h1, h2, h3⟩ := ih
    unfold quadtree_insert at h
    cases e : _quadtree_insert fuel t.root x y true with
    | error err => rw [e] at h; cases h
    | ok v =>
      obtain ⟨n1, b1⟩ := v
      rw [e] at h
      cases h
      have hT : offered ((x, y, b) :: log) x y := by
        simp only [offered, List.map_cons, List.mem_cons, true_or]
      have hI1 : Inv (offered ((x, y, b) :: log)) t.root :=
        inv_mono _ _ (fun a c hac => by
          simp only [offered, List.map_cons, List.mem_cons] at hac ⊢
          exact Or.inr hac) _ hI
      obtain ⟨k, g, _, _⟩ := insert_keeps _ fuel t.root x y true n1 b hI1 hT e
      refine ⟨k, ?_, ?_, h3⟩
      · show n1.region.nw = _
        rw [g]; exact h1
      · show n1.region.se = _
        rw [g]; exact h2

/-- In a tree of a run whose root is subdivided, `xmax` is below the
all-bits-set value: a coordinate in the root's range is never the one that
marks an empty slot. -/
theorem run_subdivided_xmax (xmax : Nat) (log : List (Nat × Nat × Bool)) (t : QUADTREE)
    (h : Run xmax log t) (hs : subdivided t.root = true) : xmax < U32 - 1 := by
  obtain ⟨hI, h1, h2, h3⟩ := run_inv xmax log t h
  cases hr : t.root with
  | leaf r p0 p1 p2 p3 => rw [hr] at hs; cases hs
  | internal r m nw ne sw se =>
    rw [hr] at hI h1 h2
    simp only [QUADTREE_NODE.region] at h1 h2
    obtain ⟨_, _, hW, _⟩ := hI
    simp only [Wraps, h1, h2, true_and] at hW
    omega

/-- The scan loop on the subdivided root of a tree that satisfies the
invariant, for a query inside the root's range on the scanned axis: with
enough fuel the loop returns, leaves the tree as it was, and has treated
the buffer as `ScanSpec` says for the stored points on the scan line. -/
theorem scan_root_spec (T : Nat → Nat → Prop) (a : Axis) (q c : Nat) (n : QUADTREE_NODE)
    (hI : Inv T n) (hs : subdivided n = true) (hq : ¬ (q < a.lo n.region ∨ q > a.hi n.region))
    (hq2 : q ≠ U32 - 1) (b : ScanBuf) :
    ∃ k, ∀ fuel, ∃ b1, scan_loop a q c (k + fuel) ⟨some ⟨[], n⟩, b⟩ = .ok ⟨n, b1⟩ ∧
      ∃ vals, vals.Perm (((stored n).filter (fun pt => decide (a.key pt = q))).map a.val) ∧
        ScanSpec c vals b b1 := by
  cases n with
  | leaf r p0 p1 p2 p3 => cases hs
  | internal r m nw ne sw se =>
    have hm : m = 0 := hI.1
    subst hm
    obtain ⟨k, hk⟩ := scan_loop_root a q c r nw ne sw se b (inv_at_rest T _ hI) hq
    refine ⟨k + 1, fun fuel => ⟨_, ?_, scan_vals a q _, scan_vals_perm T a q hq2 _ hI,
      scan_tree_spec a q c _ b⟩⟩
    have := hk fuel
    rw [show k + 1 + fuel = k + (fuel + 1) by omega]
    exact this

/-! ### The scans on the trees of a run -/

/-- C6 (scan completeness).  Let `t` be a tree built by `quadtree_init(xmax,
xmax)` and calls of `quadtree_insert` that all returned 1, with its root
subdivided, let `x` be inside the root's x-range and let the capacity `c`
be at least the number of stored points whose `x` is the query.  Then
`quadtree_scan_x`, started with `*p = 0` and given enough fuel, returns 0,
leaves the tree as it was, ends with `*p` equal to the number of those
points, and `out[0 .. *p)` holds exactly their `y` values as a multiset
(it is a permutation of the list of their `y` values). -/
theorem scan_x_complete (xmax : Nat) (t : QUADTREE) (x c : Nat) (out : Nat → Nat)
    (hb : Built xmax t) (hs : subdivided t.root = true)
    (hx : t.root.region.nw.x ≤ x ∧ x ≤ t.root.region.se.x)
    (hc : ((stored t.root).filter (fun pt => decide (pt.x = x))).length ≤ c) :
    ∃ k, ∀ fuel, ∃ r, quadtree_scan_x (k + fuel) t x out 0 c = .ok r ∧ r.root = t.root ∧
      r.buf.ret = false ∧
      r.buf.p = ((stored t.root).filter (fun pt => decide (pt.x = x))).length ∧
      (cells r.buf.out r.buf.p).Perm
        (((stored t.root).filter (fun pt => decide (pt.x = x))).map (fun pt => pt.y)) := by
  obtain ⟨log, hrun, _⟩ := hb
  obtain ⟨hI, h1, h2, h3⟩ := run_inv xmax log t hrun
  have hmax := run_subdivided_xmax xmax log t hrun hs
  have hxm : x ≤ xmax := by
    have := hx.2
    rw [h2] at this
    exact this
  have hq : ¬ (x < Axis.x.lo t.root.region ∨ x > Axis.x.hi t.root.region) := by
    simp only [Axis.lo, Axis.hi]
    omega
  obtain ⟨k, hk⟩ := scan_root_spec (offered log) .x x c t.root hI hs hq (by omega)
    ⟨out, 0, false⟩
  refine ⟨k, fun fuel => ?_⟩
  obtain ⟨b1, hl, vals, hperm, hspec⟩ := hk fuel
  have hq' : ¬ (x < t.root.region.nw.x ∨ x > t.root.region.se.x) := hq
  refine ⟨⟨t.root, b1⟩, ?_, rfl, ?_⟩
  · simp only [quadtree_scan_x, _quadtree_scan_x, hq', if_false]
    exact hl
  · have hlen : vals.length = ((stored t.root).filter (fun pt => decide (pt.x = x))).length := by
      rw [hperm.length_eq, List.length_map]
      rfl
    obtain ⟨r1, p1, c1⟩ := (hspec.2 rfl (Nat.zero_le _)).1 (by
      show 0 + vals.length ≤ c
      omega)
    refine ⟨r1, ?_, ?_⟩
    · rw [p1]
      show 0 + vals.length = _
      omega
    · refine c1.trans ?_
      show (cells out 0 ++ vals).Perm _
      simp only [cells, List.range_zero, List.map_nil, List.nil_append]
      exact hperm

/-- C4, amended (scan total under overflow).  Let `t` be a tree obtained by
`quadtree_init(xmax, xmax)` and calls of `quadtree_insert`, with its root
subdivided, and let the capacity `c` be smaller than the number of stored
points whose `x` is the query.  Then `quadtree_scan_x`, started with
`*p = 0` and given enough fuel, returns the overflow flag 1, leaves the
tree as it was, and ends with `*p = c + 1`: the first match that does not
fit is counted, the later ones are not. -/
theorem scan_x_overflow (xmax : Nat) (log : List (Nat × Nat × Bool)) (t : QUADTREE)
    (x c : Nat) (out : Nat → Nat) (hrun : Run xmax log t) (hs : subdivided t.root = true)
    (hc : c < ((stored t.root).filter (fun pt => decide (pt.x = x))).length) :
    ∃ k, ∀ fuel, ∃ r, quadtree_scan_x (k + fuel) t x out 0 c = .ok r ∧ r.root = t.root ∧
      r.buf.ret = true ∧ r.buf.p = c + 1 := by
  obtain ⟨hI, h1, h2, h3⟩ := run_inv xmax log t hrun
  have hmax := run_subdivided_xmax xmax log t hrun hs
  have hq : ¬ (x < Axis.x.lo t.root.region ∨ x > Axis.x.hi t.root.region) := by
    intro h
    have := stored_out_of_range (offered log) .x x t.root hI h
    simp only [Axis.key] at this
    rw [this] at hc
    simp only [List.length_nil, Nat.not_lt_zero] at hc
  have hxm : x ≤ xmax := by
    simp only [Axis.lo, Axis.hi, h2] at hq
    omega
  obtain ⟨k, hk⟩ := scan_root_spec (offered log) .x x c t.root hI hs hq (by omega)
    ⟨out, 0, false⟩
  refine ⟨k, fun fuel => ?_⟩
  obtain ⟨b1, hl, vals, hperm, hspec⟩ := hk fuel
  have hq' : ¬ (x < t.root.region.nw.x ∨ x > t.root.region.se.x) := hq
  refine ⟨⟨t.root, b1⟩, ?_, rfl, ?_⟩
  · simp only [quadtree_scan_x, _quadtree_scan_x, hq', if_false]
    exact hl
  · have hlen : vals.length = ((stored t.root).filter (fun pt => decide (pt.x = x))).length := by
      rw [hperm.length_eq, List.length_map]
      rfl
    exact (hspec.2 rfl (Nat.zero_le _)).2 (by
      show c < 0 + vals.length
      omega)

unseal U32 in
/-- Witness of `scan_x_complete`: five points with `x = 5` in
`[0, 63] x [0, 63]`, scanned with capacity 5. -/
theorem scan_x_complete_witness :
    ∃ t log, build 8 63 [(5, 33), (5, 60), (5, 40), (5, 20), (5, 0)] = .ok (t, log) ∧
      Built 63 t ∧ subdivided t.root = true ∧
      (t.root.region.nw.x ≤ 5 ∧ 5 ≤ t.root.region.se.x) ∧
      ((stored t.root).filter (fun pt => decide (pt.x = 5))).length ≤ 5 ∧
      ∃ k, ∀ fuel, ∃ r, quadtree_scan_x (k + fuel) t 5 (fun _ => 0) 0 5 = .ok r ∧
        r.root = t.root ∧ r.buf.ret = false ∧
        r.buf.p = ((stored t.root).filter (fun pt => decide (pt.x = 5))).length ∧
        (cells r.buf.out r.buf.p).Perm
          (((stored t.root).filter (fun pt => decide (pt.x = 5))).map (fun pt => pt.y)) := by
  refine ⟨_, _, rfl, ?_⟩
  have hb : Built 63 _ := ⟨_, (run_of_build 8 63 (by decide)
    [(5, 33), (5, 60), (5, 40), (5, 20), (5, 0)] _ _ (by decide) rfl).1, by decide⟩
  exact ⟨hb, rfl, by decide, by decide,
    scan_x_complete 63 _ 5 5 (fun _ => 0) hb rfl (by decide) (by decide)⟩

unseal U32 in
/-- Witness of `scan_x_overflow`: five points with `x = 5` in
`[0, 63] x [0, 63]`, scanned with capacity 2. -/
theorem scan_x_overflow_witness :
    ∃ t log, build 8 63 [(5, 33), (5, 60), (5, 40), (5, 20), (5, 0)] = .ok (t, log) ∧
      Run 63 log t ∧ subdivided t.root = true ∧
      2 < ((stored t.root).filter (fun pt => decide (pt.x = 5))).length ∧
      ∃ k, ∀ fuel, ∃ r, quadtree_scan_x (k + fuel) t 5 (fun _ => 0) 0 2 = .ok r ∧
        r.root = t.root ∧ r.buf.ret = true ∧ r.buf.p = 2 + 1 := by
  refine ⟨_, _, rfl, ?_⟩
  have hr : Run 63 _ _ := (run_of_build 8 63 (by decide)
    [(5, 33), (5, 60), (5, 40), (5, 20), (5, 0)] _ _ (by decide) rfl).1
  exact ⟨hr, rfl, by decide, scan_x_overflow 63 _ _ 5 2 (fun _ => 0) hr rfl (by decide)⟩

unseal U32 in
/-- C4 as stated fails.  After `quadtree_init(63, 63)` and the inserts of
`(5,0)`, `(5,20)`, `(5,40)`, `(5,60)`, `(5,33)` the root is subdivided and
five stored points have `x = 5`; `quadtree_scan_x` with `x = 5`, `*p = 0`
and capacity 2 returns 1 and leaves `*p = 3`, not the total 5 (the buffer
holds 40 and 60). -/
theorem scan_x_total_counterexample :
    ∃ t log, build 8 63 [(5, 33), (5, 60), (5, 40), (5, 20), (5, 0)] = .ok (t, log) ∧
      subdivided t.root = true ∧
      ((stored t.root).filter (fun pt => decide (pt.x = 5))).length = 5 ∧
      ∃ r, quadtree_scan_x 20 t 5 (fun _ => 0) 0 2 = .ok r ∧ r.buf.ret = true ∧
        r.buf.p = 3 ∧ r.buf.p ≠ 5 ∧ r.buf.out 0 = 40 ∧ r.buf.out 1 = 60 := by
  refine ⟨_, _, rfl, rfl, by decide, _, rfl, rfl, rfl, by decide, rfl, rfl⟩

/-- The states the scan loop passes through keep `BufSafe`. -/
theorem scan_run_safe (a : Axis) (q c : Nat) (out0 : Nat → Nat) (k : Nat) :
    ∀ (s s1 : ScanState), BufSafe c out0 s.buf → scan_run a q c k s = some s1 →
      BufSafe c out0 s1.buf := by
  induction k with
  | zero =>
    intro s s1 h hs
    simp only [scan_run] at hs
    cases hs
    exact h
  | succ k ih =>
    intro s s1 h hs
    simp only [scan_run] at hs
    cases e : scan_step a q c s with
    | next s2 =>
      rw [e] at hs
      exact ih s2 s1 ((scan_step_safe a q c out0 s h).1 s2 e) hs
    | done r => rw [e] at hs; cases hs
    | fault f => rw [e] at hs; cases hs

/-- The result of the scan loop keeps `BufSafe`. -/
theorem scan_loop_safe (a : Axis) (q c : Nat) (out0 : Nat → Nat) (fuel : Nat) :
    ∀ (s : ScanState) (r : ScanResult), BufSafe c out0 s.buf →
      scan_loop a q c fuel s = .ok r → BufSafe c out0 r.buf := by
  induction fuel with
  | zero =>
    intro s r _ hs
    simp only [scan_loop] at hs
    cases hs
  | succ fuel ih =>
    intro s r h hs
    simp only [scan_loop] at hs
    cases e : scan_step a q c s with
    | next s2 =>
      rw [e] at hs
      exact ih s2 r ((scan_step_safe a q c out0 s h).1 s2 e) hs
    | done r1 =>
      rw [e] at hs
      cases hs
      exact (scan_step_safe a q c out0 s h).2 r e
    | fault f => rw [e] at hs; cases hs

/-- The state at loop entry, `*p = 0` and `ret = 0` over the array of the
caller, has touched no cell. -/
theorem bufSafe_start (c : Nat) (out : Nat → Nat) : BufSafe c out ⟨out, 0, false⟩ :=
  ⟨fun _ _ => rfl, fun _ => Nat.zero_le _⟩

/-- C9 (no buffer overrun).  Let `t` be a tree obtained by `quadtree_init`
and calls of `quadtree_insert`, with its root subdivided, `q` any query
coordinate and `c` any capacity (0 and capacities below the number of
matches included), and let a scan start with `*p = 0` on the buffer `out`.
(1) In every state the loop of `_quadtree_scan_x` or `_quadtree_scan_y`
passes through, each cell at an index `>= c` holds what it held before the
scan, and `*p <= c` as long as `ret` is 0; the same holds after the `for`
loop over the slots of any leaf met in that state, so the segment
`out[j .. *p - 1]` that is sorted next ends below `c` (the sort changes no
cell outside its segment: `sort_loop_frame`, `sort_pass_frame`).
(2) `quadtree_scan_x` returns, given enough fuel, and each cell at an index
`>= c` then holds what it held before.  (3) So does `quadtree_scan_y` when
`q` is inside the root's y-range.  (4) Whenever `quadtree_scan_y` returns,
each cell at an index `>= c` holds what it held before. -/
theorem scan_stays_below_capacity (xmax : Nat) (log : List (Nat × Nat × Bool)) (t : QUADTREE)
    (q c : Nat) (out : Nat → Nat) (hrun : Run xmax log t) (hs : subdivided t.root = true) :
    (∀ (a : Axis) (k : Nat) (s : ScanState),
      scan_run a q c k ⟨some ⟨[], t.root⟩, ⟨out, 0, false⟩⟩ = some s →
        BufSafe c out s.buf ∧
        ∀ pts : List QUADTREE_POINT, BufSafe c out (pts.foldl (scan_point a q c) s.buf)) ∧
    (∃ k, ∀ fuel, ∃ r, quadtree_scan_x (k + fuel) t q out 0 c = .ok r ∧
      ∀ i, c ≤ i → r.buf.out i = out i) ∧
    (t.root.region.nw.y ≤ q ∧ q ≤ t.root.region.se.y →
      ∃ k, ∀ fuel, ∃ r, quadtree_scan_y (k + fuel) t q out 0 c = .ok r ∧
        ∀ i, c ≤ i → r.buf.out i = out i) ∧
    (∀ fuel r, quadtree_scan_y fuel t q out 0 c = .ok r → ∀ i, c ≤ i → r.buf.out i = out i) := by
  obtain ⟨hI, h1, h2, h3⟩ := run_inv xmax log t hrun
  have hmax := run_subdivided_xmax xmax log t hrun hs
  refine ⟨fun a k s hk => ?_, ?_, fun hq => ?_, fun fuel r hr => ?_⟩
  · have hsafe := scan_run_safe a q c out k _ s (bufSafe_start c out) hk
    exact ⟨hsafe, fun pts => scan_points_safe a q c out pts _ hsafe⟩
  · by_cases hq : q < t.root.region.nw.x ∨ q > t.root.region.se.x
    · refine ⟨0, fun fuel => ⟨⟨t.root, ⟨out, 0, false⟩⟩, ?_, fun _ _ => rfl⟩⟩
      simp only [quadtree_scan_x, _quadtree_scan_x, hq, if_true]
    · have hqm : q ≤ xmax := by
        rw [h2] at hq
        simp only at hq
        omega
      obtain ⟨k, hk⟩ := scan_root_spec (offered log) .x q c t.root hI hs hq (by omega)
        ⟨out, 0, false⟩
      refine ⟨k, fun fuel => ?_⟩
      obtain ⟨b1, hl, _⟩ := hk fuel
      refine ⟨⟨t.root, b1⟩, ?_, ?_⟩
      · simp only [quadtree_scan_x, _quadtree_scan_x, hq, if_false]
        exact hl
      · exact (scan_loop_safe .x q c out _ _ _ (bufSafe_start c out) hl).1
  · have hq' : ¬ (q < Axis.y.lo t.root.region ∨ q > Axis.y.hi t.root.region) := by
      simp only [Axis.lo, Axis.hi]
      omega
    have hqm : q ≤ xmax := by
      have := hq.2
      rw [h2] at this
      exact this
    obtain ⟨k, hk⟩ := scan_root_spec (offered log) .y q c t.root hI hs hq' (by omega)
      ⟨out, 0, false⟩
    refine ⟨k, fun fuel => ?_⟩
    obtain ⟨b1, hl, _⟩ := hk fuel
    exact ⟨⟨t.root, b1⟩, hl, (scan_loop_safe .y q c out _ _ _ (bufSafe_start c out) hl).1⟩
  · exact (scan_loop_safe .y q c out fuel _ r (bufSafe_start c out) hr).1

unseal U32 in
/-- Witness of `scan_stays_below_capacity`: five points with `x = 5` in
`[0, 63] x [0, 63]`, scanned for `q = 5` with capacity 2. -/
theorem scan_stays_below_capacity_witness :
    ∃ t log, build 8 63 [(5, 33), (5, 60), (5, 40), (5, 20), (5, 0)] = .ok (t, log) ∧
      Run 63 log t ∧ subdivided t.root = true ∧
      ∃ k, ∀ fuel, ∃ r, quadtree_scan_x (k + fuel) t 5 (fun _ => 0) 0 2 = .ok r ∧
        ∀ i, 2 ≤ i → r.buf.out i = (fun _ => 0) i := by
  refine ⟨_, _, rfl, ?_⟩
  have hr : Run 63 _ _ := (run_of_build 8 63 (by decide)
    [(5, 33), (5, 60), (5, 40), (5, 20), (5, 0)] _ _ (by decide) rfl).1
  exact ⟨hr, rfl, (scan_stays_below_capacity 63 _ _ 5 2 (fun _ => 0) hr rfl).2.1⟩

/-! ### Insertion followed by a query -/

/-- The quadrants of a region that does not wrap are pairwise disjoint. -/
theorem kids_disjoint (r R1 R2 R3 R4 : QUADTREE_REGION) (hN : Normal r)
    (hK : Kids r R1 R2 R3 R4) (x y : Nat) :
    (R1.contains x y = true → R2.contains x y = false ∧ R3.contains x y = false ∧
      R4.contains x y = false) ∧
    (R2.contains x y = true → R1.contains x y = false ∧ R3.contains x y = false ∧
      R4.contains x y = false) ∧
    (R3.contains x y = true → R1.contains x y = false ∧ R2.contains x y = false ∧
      R4.contains x y = false) ∧
    (R4.contains x y = true → R1.contains x y = false ∧ R2.contains x y = false ∧
      R3.contains x y = false) := by
  obtain ⟨n1, n2, n3, n4, n5⟩ := hN
  by_cases hlt : r.nw.x < r.se.x
  · obtain ⟨e1, e2, e3, e4, e5, e6, e7, e8⟩ := hK.1 hlt
    have hh : half r = (r.se.x - r.nw.x + 1) / 2 := rfl
    simp only [QUADTREE_REGION.contains, Bool.and_eq_true, decide_eq_true_eq,
      Bool.and_eq_false_iff, decide_eq_false_iff_not, e1, e2, e3, e4, e5, e6, e7, e8]
    omega
  · obtain ⟨v1, v2, v3, v4⟩ := hK.2 (by omega)
    simp only [v1 x y, v2 x y, v3 x y, v4 x y, Bool.false_eq_true, and_self, implies_true]

/-- `_quadtree_query` at an internal node at rest, when `nw` is the only
child that contains the point. -/
theorem query_nw (r : QUADTREE_REGION) (nw ne sw se : QUADTREE_NODE) (x y : Nat)
    (h1 : nw.region.contains x y = true) (h3 : sw.region.contains x y = false)
    (h4 : se.region.contains x y = false) :
    _quadtree_query (.internal r 0 nw ne sw se) x y = _quadtree_query nw x y := by
  simp only [_quadtree_query, _quadtree_node_contains, h1, h3, h4, ne_eq, not_true_eq_false,
    if_false, Bool.false_eq_true, if_true]

/-- When only the north-east child contains the point, the query descends
into it. -/
theorem query_ne (r : QUADTREE_REGION) (nw ne sw se : QUADTREE_NODE) (x y : Nat)
    (h1 : nw.region.contains x y = false) (h2 : ne.region.contains x y = true)
    (h3 : sw.region.contains x y = false) (h4 : se.region.contains x y = false) :
    _quadtree_query (.internal r 0 nw ne sw se) x y = _quadtree_query ne x y := by
  simp only [_quadtree_query, _quadtree_node_contains, h1, h2, h3, h4, ne_eq,
    not_true_eq_false, if_false, Bool.false_eq_true, if_true]

/-- When only the south-west child contains the point, the query descends
into it. -/
theorem query_sw (r : QUADTREE_REGION) (nw ne sw se : QUADTREE_NODE) (x y : Nat)
    (h3 : sw.region.contains x y = true) :
    _quadtree_query (.internal r 0 nw ne sw se) x y = _quadtree_query sw x y := by
  simp only [_quadtree_query, _quadtree_node_contains, h3, ne_eq, not_true_eq_false,
    if_false, if_true]

/-- When only the south-east child contains the point, the query descends
into it. -/
theorem query_se (r : QUADTREE_REGION) (nw ne sw se : QUADTREE_NODE) (x y : Nat)
    (h3 : sw.region.contains x y = false) (h4 : se.region.contains x y = true) :
    _quadtree_query (.internal r 0 nw ne sw se) x y = _quadtree_query se x y := by
  simp only [_quadtree_query, _quadtree_node_contains, h3, h4, ne_eq, not_true_eq_false,
    if_false, Bool.false_eq_true, if_true]

/-- The tail of `_quadtree_insert` leaves the point where `_quadtree_query`
looks for it, when the recursive calls do. -/
theorem insert_children_query (T : Nat → Nat → Prop) (f : Nat) (ih : QueryFinds T f)
    (r : QUADTREE_REGION) (m : Nat) (nw ne sw se : QUADTREE_NODE) (x y : Nat) (sd : Bool)
    (n1 : QUADTREE_NODE) (hI : Inv T (.internal r m nw ne sw se)) (hT : T x y)
    (h : insert_children (fun c => _quadtree_insert f c x y sd) (.internal r m nw ne sw se) =
      .ok (n1, true)) :
    _quadtree_query n1 x y = .ok true := by
  obtain ⟨h1, h2, h3, h4, h5, h6, h7, h8, h9⟩ := hI
  subst h1
  obtain ⟨d1, d2, d3, d4⟩ := kids_disjoint r _ _ _ _ h2 h5 x y
  simp only [insert_children] at h
  cases e1 : _quadtree_insert f nw x y sd with
  | error e => rw [e1] at h; cases h
  | ok v1 =>
    obtain ⟨nw1, b1⟩ := v1
    obtain ⟨_, g1, _, c1⟩ := insert_keeps T f nw x y sd nw1 b1 h6 hT e1
    rw [e1] at h
    cases b1 with
    | true =>
      cases h
      obtain ⟨_, a3, a4⟩ := d1 (c1 rfl)
      rw [query_nw r nw1 ne sw se x y (by rw [g1]; exact c1 rfl) a3 a4]
      exact ih nw x y sd nw1 h6 hT e1
    | false =>
      simp only at h
      cases e2 : _quadtree_insert f ne x y sd with
      | error e => rw [e2] at h; cases h
      | ok v2 =>
        obtain ⟨ne1, b2⟩ := v2
        obtain ⟨_, g2, _, c2⟩ := insert_keeps T f ne x y sd ne1 b2 h7 hT e2
        rw [e2] at h
        cases b2 with
        | true =>
          cases h
          obtain ⟨a1, a3, a4⟩ := d2 (c2 rfl)
          rw [query_ne r nw1 ne1 sw se x y (by rw [g1]; exact a1) (by rw [g2]; exact c2 rfl)
            a3 a4]
          exact ih ne x y sd ne1 h7 hT e2
        | false =>
          simp only at h
          cases e3 : _quadtree_insert f sw x y sd with
          | error e => rw [e3] at h; cases h
          | ok v3 =>
            obtain ⟨sw1, b3⟩ := v3
            obtain ⟨_, g3, _, c3⟩ := insert_keeps T f sw x y sd sw1 b3 h8 hT e3
            rw [e3] at h
            cases b3 with
            | true =>
              cases h
              rw [query_sw r nw1 ne1 sw1 se x y (by rw [g3]; exact c3 rfl)]
              exact ih sw x y sd sw1 h8 hT e3
            | false =>
              simp only at h
              cases e4 : _quadtree_insert f se x y sd with
              | error e => rw [e4] at h; cases h
              | ok v4 =>
                obtain ⟨se1, b4⟩ := v4
                obtain ⟨_, g4, _, c4⟩ := insert_keeps T f se x y sd se1 b4 h9 hT e4
                rw [e4] at h
                cases b4 with
                | true =>
                  cases h
                  obtain ⟨_, _, a3⟩ := d4 (c4 rfl)
                  rw [query_se r nw1 ne1 sw1 se1 x y (by rw [g3]; exact a3)
                    (by rw [g4]; exact c4 rfl)]
                  exact ih se x y sd se1 h9 hT e4
                | false => cases h

/-- `_quadtree_query` at a leaf one of whose slots holds the point. -/
theorem query_leaf_of_mem (r : QUADTREE_REGION) (p0 p1 p2 p3 : QUADTREE_POINT) (x y : Nat)
    (h : (⟨x, y⟩ : QUADTREE_POINT) ∈ [p0, p1, p2, p3]) :
    _quadtree_query (.leaf r p0 p1 p2 p3) x y = .ok true := by
  simp only [_quadtree_query, Except.ok.injEq, List.any_eq_true, Bool.and_eq_true,
    decide_eq_true_eq]
  exact ⟨⟨x, y⟩, h, rfl, rfl⟩

/-- A call of `_quadtree_insert` that returns 1 leaves the point where
`_quadtree_query` finds it. -/
theorem insert_query (T : Nat → Nat → Prop) : ∀ f, QueryFinds T f := by
  intro f
  induction f with
  | zero =>
    intro n x y sd n1 _ _ h
    simp only [_quadtree_insert] at h
    cases h
  | succ f ih =>
    intro n x y sd n1 hI hT h
    have hc : n.region.contains x y = true :=
      (insert_keeps T (f + 1) n x y sd n1 true hI hT h).2.2.2 rfl
    cases n with
    | internal r m nw ne sw se =>
      have hm : m = 0 := hI.1
      subst hm
      simp only [_quadtree_insert, _quadtree_node_contains, hc, _quadtree_node_isleaf,
        Bool.not_true, Bool.false_eq_true, if_false, ne_eq, not_true_eq_false,
        decide_False] at h
      exact insert_children_query T f ih r 0 nw ne sw se x y sd n1 hI hT h
    | leaf r p0 p1 p2 p3 =>
      simp only [QUADTREE_NODE.region] at hc
      obtain ⟨hR, hP⟩ := hI
      have hN : Normal r := normal_of_contains r x y hR hc
      have hP0 := hP p0 (by simp)
      have hP1 := hP p1 (by simp)
      have hP2 := hP p2 (by simp)
      have hP3 := hP p3 (by simp)
      by_cases e0 : p0 = EMPTY
      · simp only [_quadtree_insert, _quadtree_node_contains, QUADTREE_NODE.region, hc,
          _quadtree_node_isleaf, Bool.not_true, Bool.false_eq_true, if_false, if_true,
          _quadtree_insert_into_internal, e0] at h
        cases h
        exact query_leaf_of_mem _ _ _ _ _ x y (by simp)
      by_cases e1 : p1 = EMPTY
      · simp only [_quadtree_insert, _quadtree_node_contains, QUADTREE_NODE.region, hc,
          _quadtree_node_isleaf, Bool.not_true, Bool.false_eq_true, if_false, if_true,
          _quadtree_insert_into_internal, e0, e1] at h
        cases h
        exact query_leaf_of_mem _ _ _ _ _ x y (by simp)
      by_cases e2 : p2 = EMPTY
      · simp only [_quadtree_insert, _quadtree_node_contains, QUADTREE_NODE.region, hc,
          _quadtree_node_isleaf, Bool.not_true, Bool.false_eq_true, if_false, if_true,
          _quadtree_insert_into_internal, e0, e1, e2] at h
        cases h
        exact query_leaf_of_mem _ _ _ _ _ x y (by simp)
      by_cases e3 : p3 = EMPTY
      · simp only [_quadtree_insert, _quadtree_node_contains, QUADTREE_NODE.region, hc,
          _quadtree_node_isleaf, Bool.not_true, Bool.false_eq_true, if_false, if_true,
          _quadtree_insert_into_internal, e0, e1, e2, e3] at h
        cases h
        exact query_leaf_of_mem _ _ _ _ _ x y (by simp)
      cases sd with
      | false =>
        simp only [_quadtree_insert, _quadtree_node_contains, QUADTREE_NODE.region, hc,
          _quadtree_node_isleaf, Bool.not_true, Bool.false_eq_true, if_false, if_true,
          _quadtree_insert_into_internal, e0, e1, e2, e3, insert_children] at h
        cases h
      | true =>
        by_cases hW : Wraps r
        · have hd := insert_wrap_diverges (f + 1) r p0 p1 p2 p3 x y hN hW
            (fun pt hpt => by
              simp only [List.mem_cons, List.mem_singleton, List.not_mem_nil,
                or_false] at hpt
              rcases hpt with rfl | rfl | rfl | rfl
              · exact ⟨e0, (hP0 e0).1⟩
              · exact ⟨e1, (hP1 e1).1⟩
              · exact ⟨e2, (hP2 e2).1⟩
              · exact ⟨e3, (hP3 e3).1⟩) hc
          rw [hd] at h
          cases h
        · obtain ⟨R1, R2, R3, R4, hsc, hK⟩ := subdivide_children_ok r hN hW
          obtain ⟨q1, q2, q3, q4⟩ := kids_normal r R1 R2 R3 R4 hN hK
          have hcell : r.se.x = r.nw.x → T r.nw.x r.nw.y := by
            intro he
            obtain ⟨n1, n2, n3, n4, n5⟩ := hN
            simp only [QUADTREE_REGION.contains, Bool.and_eq_true, decide_eq_true_eq] at hc
            have hx : x = r.nw.x := by omega
            have hy : y = r.nw.y := by omega
            rw [← hx, ← hy]
            exact hT
          have hI0 : Inv T (.internal r 0 (.leaf R1 EMPTY EMPTY EMPTY EMPTY)
              (.leaf R2 EMPTY EMPTY EMPTY EMPTY) (.leaf R3 EMPTY EMPTY EMPTY EMPTY)
              (.leaf R4 EMPTY EMPTY EMPTY EMPTY)) :=
            ⟨rfl, hN, hW, hcell, hK, inv_fresh T R1 q1, inv_fresh T R2 q2,
              inv_fresh T R3 q3, inv_fresh T R4 q4⟩
          simp only [_quadtree_insert, _quadtree_node_contains, QUADTREE_NODE.region, hc,
            _quadtree_node_isleaf, Bool.not_true, Bool.false_eq_true, if_false, if_true,
            _quadtree_insert_into_internal, e0, e1, e2, e3, _quadtree_node_subdivide,
            hsc] at h
          cases hre : subdivide_reinsert (_quadtree_insert f)
              (.internal r 0 (.leaf R1 EMPTY EMPTY EMPTY EMPTY)
                (.leaf R2 EMPTY EMPTY EMPTY EMPTY) (.leaf R3 EMPTY EMPTY EMPTY EMPTY)
                (.leaf R4 EMPTY EMPTY EMPTY EMPTY)) [p0, p1, p2, p3] with
          | error e => rw [hre] at h; cases h
          | ok v =>
            obtain ⟨n2, er⟩ := v
            rw [hre] at h
            obtain ⟨k2, g2, s2⟩ := reinsert_inv T f (insert_keeps T f) [p0, p1, p2, p3] _ n2 er
              hI0
              (fun pt hpt => by
                simp only [List.mem_cons, List.mem_singleton, List.not_mem_nil,
                  or_false] at hpt
                rcases hpt with rfl | rfl | rfl | rfl
                · exact (hP0 e0).2
                · exact (hP1 e1).2
                · exact (hP2 e2).2
                · exact (hP3 e3).2) hre
            cases er with
            | true => cases h
            | false =>
              simp only at h
              cases n2 with
              | leaf r2 a0 a1 a2 a3 =>
                have := s2 rfl
                cases this
              | internal r2 m2 c1 c2 c3 c4 =>
                exact insert_children_query T f ih r2 m2 c1 c2 c3 c4 x y true n1 k2 hT h

/-- C1, amended (insert/query round trip).  Let `t` be a tree obtained from
`quadtree_init(xmax, xmax)` by any sequence of `quadtree_insert` calls and
`(x, y)` a point (in particular any point inside the root region; a point
outside it is never accepted).  If `quadtree_insert(t, x, y)` returns 1,
then `quadtree_query` on the resulting tree returns 1 for `(x, y)`. -/
theorem insert_then_query (xmax : Nat) (log : List (Nat × Nat × Bool)) (t t1 : QUADTREE)
    (fuel x y : Nat) (hrun : Run xmax log t)
    (h : quadtree_insert fuel t x y = .ok (t1, true)) :
    quadtree_query t1 x y = .ok true := by
  obtain ⟨hI, _, _, _⟩ := run_inv xmax log t hrun
  unfold quadtree_insert at h
  cases e : _quadtree_insert fuel t.root x y true with
  | error err => rw [e] at h; cases h
  | ok v =>
    obtain ⟨n1, b1⟩ := v
    rw [e] at h
    cases h
    exact insert_query (fun a b => offered log a b ∨ (a = x ∧ b = y)) fuel t.root x y true n1
      (inv_mono _ _ (fun a b hab => Or.inl hab) _ hI) (Or.inr ⟨rfl, rfl⟩) e

unseal U32 in
/-- Witness of `insert_then_query`: a fifth point offered to a tree on
`[0, 63] x [0, 63]` that holds four. -/
theorem insert_then_query_witness :
    ∃ t log, build 8 63 [(5, 60), (5, 40), (5, 20), (5, 0)] = .ok (t, log) ∧
      Run 63 log t ∧ ∃ t1, quadtree_insert 8 t 5 33 = .ok (t1, true) ∧
        quadtree_query t1 5 33 = .ok true := by
  refine ⟨_, _, rfl, ?_⟩
  have hr : Run 63 _ _ := (run_of_build 8 63 (by decide)
    [(5, 60), (5, 40), (5, 20), (5, 0)] _ _ (by decide) rfl).1
  exact ⟨hr, _, rfl, insert_then_query 63 _ _ _ 8 5 33 hr rfl⟩

unseal U32 in
/-- C1 as stated fails.  After `quadtree_init(1, 1)` and four inserts of
`(1, 1)`, a fifth `quadtree_insert(tree, 1, 1)`, of a point inside the root
region, returns 0: the root is subdivided, the full `se` child, a single
cell, is subdivided in turn into children without points, and the saved
points cannot be put back.  `quadtree_query(tree, 1, 1)` then finds no
child of that cell containing the point and reads the local `c`
uninitialised; it does not return 1. -/
theorem insert_then_query_counterexample :
    ∃ t log, build 8 1 [(1, 1), (1, 1), (1, 1), (1, 1)] = .ok (t, log) ∧
      (∀ e ∈ log, e.2.2 = true) ∧ (1 ≤ t.root.region.se.x ∧ 1 ≤ t.root.region.se.y) ∧
      ∃ t1, quadtree_insert 8 t 1 1 = .ok (t1, false) ∧
        quadtree_query t1 1 1 = .error .uninit := by
  refine ⟨_, _, rfl, by decide, by decide, _, rfl, rfl⟩

/-! ### Queries for points that were never inserted -/

/-- The quadrants of a region of even width cover it. -/
theorem kids_cover (r R1 R2 R3 R4 : QUADTREE_REGION) (hN : Normal r)
    (hK : Kids r R1 R2 R3 R4) (hlt : r.nw.x < r.se.x)
    (hev : (r.se.x - r.nw.x + 1) % 2 = 0) (x y : Nat) (hc : r.contains x y = true) :
    R1.contains x y = true ∨ R2.contains x y = true ∨ R3.contains x y = true ∨
      R4.contains x y = true := by
  obtain ⟨n1, n2, n3, n4, n5⟩ := hN
  obtain ⟨e1, e2, e3, e4, e5, e6, e7, e8⟩ := hK.1 hlt
  have hh : half r = (r.se.x - r.nw.x + 1) / 2 := rfl
  simp only [QUADTREE_REGION.contains, Bool.and_eq_true, decide_eq_true_eq, e1, e2, e3, e4,
    e5, e6, e7, e8] at hc ⊢
  omega

/-- The width of the quadrants of a region of width `2 * P`. -/
theorem kids_width (r R1 R2 R3 R4 : QUADTREE_REGION) (hN : Normal r)
    (hK : Kids r R1 R2 R3 R4) (P : Nat) (hP : 1 ≤ P) (hw : r.se.x - r.nw.x + 1 = 2 * P) :
    R1.se.x - R1.nw.x + 1 = P ∧ R2.se.x - R2.nw.x + 1 = P ∧ R3.se.x - R3.nw.x + 1 = P ∧
      R4.se.x - R4.nw.x + 1 = P := by
  obtain ⟨n1, n2, n3, n4, n5⟩ := hN
  obtain ⟨e1, e2, e3, e4, e5, e6, e7, e8⟩ := hK.1 (by omega)
  have hh : half r = (r.se.x - r.nw.x + 1) / 2 := rfl
  simp only [e1, e2, e3, e4, e5, e6, e7, e8]
  omega

/-- In a tree that satisfies the invariant and whose root region has a
power of two as width, `_quadtree_query` returns 0 for every point of the
root region that was not offered and is not the all-bits-set pair. -/
theorem query_absent (T : Nat → Nat → Prop) (x y : Nat) (hT : ¬ T x y)
    (hne : ¬ (x = U32 - 1 ∧ y = U32 - 1)) :
    ∀ n, Inv T n → ∀ j, n.region.se.x - n.region.nw.x + 1 = 2 ^ j → Normal n.region →
      n.region.contains x y = true → _quadtree_query n x y = .ok false := by
  intro n
  induction n with
  | leaf r p0 p1 p2 p3 =>
    intro hI j _ _ _
    simp only [_quadtree_query, Except.ok.injEq, List.any_eq_false, Bool.and_eq_true,
      decide_eq_true_eq, not_and]
    intro pt hpt hx hy
    by_cases he : pt = EMPTY
    · apply hne
      rw [← hx, ← hy, he]
      exact ⟨rfl, rfl⟩
    · apply hT
      rw [← hx, ← hy]
      exact (hI.2 pt hpt he).2
  | internal r m nw ne sw se i1 i2 i3 i4 =>
    intro hI j hw hN hc
    obtain ⟨h1, h2, h3, h4, h5, h6, h7, h8, h9⟩ := hI
    subst h1
    simp only [QUADTREE_NODE.region] at hw hc
    cases j with
    | zero =>
      exfalso
      apply hT
      obtain ⟨n1, n2, n3, n4, n5⟩ := h2
      have hcell := h4 (by simp only [pow_zero] at hw; omega)
      simp only [QUADTREE_REGION.contains, Bool.and_eq_true, decide_eq_true_eq] at hc
      simp only [pow_zero] at hw
      have hx : x = r.nw.x := by omega
      have hy : y = r.nw.y := by omega
      rw [hx, hy]
      exact hcell
    | succ j =>
      have hP : 1 ≤ 2 ^ j := Nat.one_le_two_pow
      have hw2 : r.se.x - r.nw.x + 1 = 2 * 2 ^ j := by rw [hw, pow_succ]; omega
      obtain ⟨w1, w2, w3, w4⟩ := kids_width r _ _ _ _ h2 h5 (2 ^ j) hP hw2
      obtain ⟨q1, q2, q3, q4⟩ := kids_normal r _ _ _ _ h2 h5
      obtain ⟨d1, d2, d3, d4⟩ := kids_disjoint r _ _ _ _ h2 h5 x y
      rcases kids_cover r _ _ _ _ h2 h5 (by omega) (by omega) x y hc with c | c | c | c
      · obtain ⟨_, a3, a4⟩ := d1 c
        rw [query_nw r nw ne sw se x y c a3 a4]
        exact i1 h6 j w1 (normal_of_contains _ x y q1 c) c
      · obtain ⟨a1, a3, a4⟩ := d2 c
        rw [query_ne r nw ne sw se x y a1 c a3 a4]
        exact i2 h7 j w2 (normal_of_contains _ x y q2 c) c
      · rw [query_sw r nw ne sw se x y c]
        exact i3 h8 j w3 (normal_of_contains _ x y q3 c) c
      · obtain ⟨_, _, a3⟩ := d4 c
        rw [query_se r nw ne sw se x y a3 c]
        exact i4 h9 j w4 (normal_of_contains _ x y q4 c) c

/-- C2, amended (negative query).  Let `t` be a tree obtained from
`quadtree_init(2^k - 1, 2^k - 1)` by any sequence of `quadtree_insert`
calls, and `(x, y)` a point inside the root region, other than the
all-bits-set pair that marks an empty slot, that was never passed to
`quadtree_insert` on that tree.  Then `quadtree_query(t, x, y)` returns 0. -/
theorem query_never_inserted (k : Nat) (log : List (Nat × Nat × Bool)) (t : QUADTREE)
    (x y : Nat) (hrun : Run (2 ^ k - 1) log t) (hx : x ≤ 2 ^ k - 1) (hy : y ≤ 2 ^ k - 1)
    (hne : ¬ (x = U32 - 1 ∧ y = U32 - 1)) (hnot : ¬ offered log x y) :
    quadtree_query t x y = .ok false := by
  obtain ⟨hI, h1, h2, h3⟩ := run_inv _ log t hrun
  have hP : 1 ≤ 2 ^ k := Nat.one_le_two_pow
  have hN : Normal t.root.region :=
    ⟨by rw [h1, h2]; exact Nat.zero_le _, by rw [h1, h2]; exact Nat.zero_le _,
      by rw [h2]; exact h3, by rw [h2]; exact h3, by rw [h1, h2]⟩
  have hc : t.root.region.contains x y = true := by
    simp only [QUADTREE_REGION.contains, h1, h2, Bool.and_eq_true, decide_eq_true_eq]
    omega
  exact query_absent (offered log) x y hnot hne t.root hI k
    (by simp only [h1, h2]; omega) hN hc

unseal U32 in
/-- Witness of `query_never_inserted`: the point `(1, 1)` in a subdivided
tree on `[0, 63] x [0, 63]`. -/
theorem query_never_inserted_witness :
    ∃ t log, build 8 63 [(5, 33), (5, 60), (5, 40), (5, 20), (5, 0)] = .ok (t, log) ∧
      Run (2 ^ 6 - 1) log t ∧ (1 ≤ 2 ^ 6 - 1 ∧ 1 ≤ 2 ^ 6 - 1) ∧ ¬ (1 = U32 - 1 ∧ 1 = U32 - 1) ∧
      ¬ offered log 1 1 ∧ quadtree_query t 1 1 = .ok false := by
  refine ⟨_, _, rfl, ?_⟩
  have hr : Run 63 _ _ := (run_of_build 8 63 (by decide)
    [(5, 33), (5, 60), (5, 40), (5, 20), (5, 0)] _ _ (by decide) rfl).1
  exact ⟨hr, by decide, by decide, by unfold offered; decide,
    query_never_inserted 6 _ _ 1 1 hr (by decide) (by decide) (by decide)
      (by unfold offered; decide)⟩

unseal U32 in
/-- C2 as stated fails.  (1) On the fresh tree of
`quadtree_init(2^32 - 1, 2^32 - 1)`, to which nothing was ever inserted,
`quadtree_query` returns 1 for the all-bits-set pair, which every empty slot
holds.  (2) On a subdivided tree on `[0, 63] x [0, 63]`, `quadtree_query`
for the never-inserted `(64, 1)`, outside the root region, finds no child
containing the point and reads the local `c` uninitialised.  (3) So it does
for the never-inserted `(2, 2)` inside the root region of a subdivided tree
on `[0, 2] x [0, 2]`, whose quadrants of width 1 leave the last row and
column uncovered. -/
theorem query_never_inserted_counterexample :
    (∃ t log, build 8 (U32 - 1) [] = .ok (t, log) ∧ log = [] ∧
      quadtree_query t (U32 - 1) (U32 - 1) = .ok true) ∧
    (∃ t log, build 8 63 [(5, 33), (5, 60), (5, 40), (5, 20), (5, 0)] = .ok (t, log) ∧
      ¬ offered log 64 1 ∧ quadtree_query t 64 1 = .error .uninit) ∧
    (∃ t log, build 8 2 [(1, 1), (0, 0), (0, 0), (0, 0), (0, 0)] = .ok (t, log) ∧
      (∀ e ∈ log, e.2.2 = true) ∧ ¬ offered log 2 2 ∧
      quadtree_query t 2 2 = .error .uninit) := by
  refine ⟨⟨_, _, rfl, rfl, rfl⟩, ⟨_, _, rfl, by unfold offered; decide, rfl⟩,
    ⟨_, _, rfl, by decide, by unfold offered; decide, rfl⟩⟩

/-! ### Duplicates in a fresh tree -/

/-- A point whose `x` is below the all-bits-set value is not the empty-slot
value. -/
theorem ne_empty_of_lt (x y : Nat) (h : x < U32 - 1) : (⟨x, y⟩ : QUADTREE_POINT) ≠ EMPTY := by
  intro e
  have := congrArg QUADTREE_POINT.x e
  simp only [EMPTY] at this
  omega

/-- One more call of `quadtree_insert` at the end of an executable run. -/
theorem build_cons (fuel xmax : Nat) (ps : List (Nat × Nat)) (p : Nat × Nat) (t t1 : QUADTREE)
    (log : List (Nat × Nat × Bool)) (b : Bool) (h : build fuel xmax ps = .ok (t, log))
    (hi : quadtree_insert fuel t p.1 p.2 = .ok (t1, b)) :
    build fuel xmax (p :: ps) = .ok (t1, (p.1, p.2, b) :: log) := by
  unfold build at h ⊢
  rw [List.foldr_cons, h]
  simp only [build_step, hi]

/-- `quadtree_insert` on a tree whose root is a leaf with a free slot. -/
theorem insert_root_free (fuel : Nat) (r : QUADTREE_REGION) (p0 p1 p2 p3 : QUADTREE_POINT)
    (x y : Nat) (n1 : QUADTREE_NODE) (hc : r.contains x y = true)
    (h : _quadtree_insert_into_internal (.leaf r p0 p1 p2 p3) x y = .ok (n1, true)) :
    quadtree_insert (fuel + 1) ⟨.leaf r p0 p1 p2 p3⟩ x y = .ok (⟨n1⟩, true) := by
  simp only [quadtree_insert, insert_leaf_free fuel r p0 p1 p2 p3 x y true n1 hc h]

/-- C11 (duplicates are stored and counted separately).  Let `xmax` be below
`2 ^ 32 - 1`, `(x, y)` a point inside the root region of
`quadtree_init(xmax, xmax)` and `1 <= k <= 4`.  Inserting `(x, y)` into the
fresh tree `k` times (each call with any fuel that lets it start) makes
every call return 1; the root is then still a leaf whose slots, in index
order, are `k` copies of `(x, y)` followed by `4 - k` empty slots (and
`(x, y)` is not the empty value, so exactly `k` slots are consumed); and
`quadtree_count_x(tree, x)` returns `k`. -/
theorem duplicates_counted (xmax x y k fuel : Nat) (hmax : xmax < U32 - 1) (hx : x ≤ xmax)
    (hy : y ≤ xmax) (hk1 : 1 ≤ k) (hk4 : k ≤ 4) :
    ∃ t log r p0 p1 p2 p3, build (fuel + 1) xmax (List.replicate k (x, y)) = .ok (t, log) ∧
      log = List.replicate k (x, y, true) ∧
      t.root = .leaf r p0 p1 p2 p3 ∧
      [p0, p1, p2, p3] = List.replicate k ⟨x, y⟩ ++ List.replicate (4 - k) EMPTY ∧
      (⟨x, y⟩ : QUADTREE_POINT) ≠ EMPTY ∧
      quadtree_count_x t x = .ok k := by
  have hne : (⟨x, y⟩ : QUADTREE_POINT) ≠ EMPTY := ne_empty_of_lt x y (by omega)
  have hE : ¬ (EMPTY.x = x) := by
    simp only [EMPTY]
    omega
  obtain ⟨r, hr⟩ : ∃ r : QUADTREE_REGION, r = ⟨⟨0, 0⟩, ⟨xmax, xmax⟩, (U32 + xmax - 0 + 1) % U32,
      (U32 + xmax - 0 + 1) % U32⟩ := ⟨_, rfl⟩
  have hc : r.contains x y = true := by
    subst hr
    simp [QUADTREE_REGION.contains, hx, hy]
  have hlo : ¬ (x < r.nw.x) := by subst hr; simp
  have hhi : ¬ (x > r.se.x) := by subst hr; simp; omega
  have b0 : build (fuel + 1) xmax [] = .ok (⟨.leaf r EMPTY EMPTY EMPTY EMPTY⟩, []) := by
    subst hr
    simp only [build, List.foldr_nil, build_init, init_root]
  have b1 := build_cons (fuel + 1) xmax [] (x, y) _ _ _ true b0
    (insert_root_free fuel r _ _ _ _ x y (.leaf r ⟨x, y⟩ EMPTY EMPTY EMPTY) hc
      (by simp [_quadtree_insert_into_internal]))
  have b2 := build_cons (fuel + 1) xmax _ (x, y) _ _ _ true b1
    (insert_root_free fuel r _ _ _ _ x y (.leaf r ⟨x, y⟩ ⟨x, y⟩ EMPTY EMPTY) hc
      (by simp [_quadtree_insert_into_internal, hne]))
  have b3 := build_cons (fuel + 1) xmax _ (x, y) _ _ _ true b2
    (insert_root_free fuel r _ _ _ _ x y (.leaf r ⟨x, y⟩ ⟨x, y⟩ ⟨x, y⟩ EMPTY) hc
      (by simp [_quadtree_insert_into_internal, hne]))
  have b4 := build_cons (fuel + 1) xmax _ (x, y) _ _ _ true b3
    (insert_root_free fuel r _ _ _ _ x y (.leaf r ⟨x, y⟩ ⟨x, y⟩ ⟨x, y⟩ ⟨x, y⟩) hc
      (by simp [_quadtree_insert_into_internal, hne]))
  interval_cases k
  · exact ⟨_, _, _, _, _, _, _, b1, rfl, rfl, rfl, hne, by
      simp [quadtree_count_x, _quadtree_count_x, hlo, hhi, hE]⟩
  · exact ⟨_, _, _, _, _, _, _, b2, rfl, rfl, rfl, hne, by
      simp [quadtree_count_x, _quadtree_count_x, hlo, hhi, hE]⟩
  · exact ⟨_, _, _, _, _, _, _, b3, rfl, rfl, rfl, hne, by
      simp [quadtree_count_x, _quadtree_count_x, hlo, hhi, hE]⟩
  · exact ⟨_, _, _, _, _, _, _, b4, rfl, rfl, rfl, hne, by
      simp [quadtree_count_x, _quadtree_count_x, hlo, hhi, hE]⟩

unseal U32 in
/-- Witness of `duplicates_counted`: the point `(7, 7)` inserted twice into
the fresh tree on `[0, 63] x [0, 63]`; `quadtree_count_x(tree, 7)` is 2. -/
theorem duplicates_counted_witness :
    (63 < U32 - 1 ∧ 7 ≤ 63 ∧ 7 ≤ 63 ∧ 1 ≤ 2 ∧ 2 ≤ 4) ∧
    ∃ t log r p0 p1 p2 p3, build (7 + 1) 63 (List.replicate 2 (7, 7)) = .ok (t, log) ∧
      log = List.replicate 2 (7, 7, true) ∧
      t.root = .leaf r p0 p1 p2 p3 ∧
      [p0, p1, p2, p3] = List.replicate 2 ⟨7, 7⟩ ++ List.replicate (4 - 2) EMPTY ∧
      (⟨7, 7⟩ : QUADTREE_POINT) ≠ EMPTY ∧
      quadtree_count_x t 7 = .ok 2 :=
  ⟨by decide, duplicates_counted 63 7 7 2 7 (by decide) (by decide) (by decide) (by decide)
    (by decide)⟩

/-! ### Scans for a coordinate outside the root -/

/-- C13 (out-of-range scans).  Let `t` be a tree obtained by
`quadtree_init(xmax, xmax)` and calls of `quadtree_insert`, and `q` a
coordinate beyond `xmax`.  `quadtree_scan_x` with `x = q` returns 0 at once,
with the tree, the buffer and `*p` as they were.  `quadtree_scan_y` with
`y = q` does not: its loop has no range test in front of it, finds the root
out of range, follows the root's `NULL` parent link and reads `n->parent`
through it in the second iteration, whatever the fuel beyond that. -/
theorem scan_out_of_range_asymmetric (xmax : Nat) (log : List (Nat × Nat × Bool))
    (t : QUADTREE) (q c p fuel : Nat) (out : Nat → Nat) (hrun : Run xmax log t)
    (hq : xmax < q) :
    quadtree_scan_x fuel t q out p c = .ok ⟨t.root, ⟨out, p, false⟩⟩ ∧
      quadtree_scan_y (fuel + 2) t q out p c = .error .null_deref := by
  obtain ⟨hI, h1, h2, _⟩ := run_inv xmax log t hrun
  have hx : q > t.root.region.se.x := by rw [h2]; exact hq
  have hy : q > t.root.region.se.y := by rw [h2]; exact hq
  constructor
  · simp only [quadtree_scan_x, _quadtree_scan_x, hx, or_true, if_true]
  · obtain ⟨n⟩ := t
    cases n with
    | leaf r p0 p1 p2 p3 =>
      have hy1 : q > r.se.y := hy
      simp [quadtree_scan_y, _quadtree_scan_y, scan_loop, scan_step, Axis.lo, Axis.hi, hy1, leave]
    | internal r m nw ne sw se =>
      have hy1 : q > r.se.y := hy
      have hm : m = 0 := hI.1
      subst hm
      simp [quadtree_scan_y, _quadtree_scan_y, scan_loop, scan_step, Axis.lo, Axis.hi, hy1, leave]

unseal U32 in
/-- Witness of `scan_out_of_range_asymmetric`: a subdivided tree on
`[0, 63] x [0, 63]` scanned for the coordinate 64 with capacity 4. -/
theorem scan_out_of_range_asymmetric_witness :
    ∃ t log, build 8 63 [(40, 40), (32, 10), (63, 63), (0, 1), (0, 0)] = .ok (t, log) ∧
      Run 63 log t ∧ 63 < 64 ∧
      quadtree_scan_x 20 t 64 (fun _ => 0) 0 4 = .ok ⟨t.root, ⟨fun _ => 0, 0, false⟩⟩ ∧
      quadtree_scan_y (20 + 2) t 64 (fun _ => 0) 0 4 = .error .null_deref := by
  refine ⟨_, _, rfl, ?_⟩
  have hr : Run 63 _ _ := (run_of_build 8 63 (by decide)
    [(40, 40), (32, 10), (63, 63), (0, 1), (0, 0)] _ _ (by decide) rfl).1
  exact ⟨hr, by decide, scan_out_of_range_asymmetric 63 _ _ 64 4 0 20 (fun _ => 0) hr (by decide)⟩

/-! ### Termination of the stackless walk -/

/-- The walk over a subdivided root at rest whose range holds the query:
after finitely many iterations the loop is back at the root, the marker of
the root is `0xFFFFFFFF`, and the buffer is as `scan_tree` describes. -/
theorem scan_run_root (a : Axis) (q c : Nat) (r : QUADTREE_REGION)
    (nw ne sw se : QUADTREE_NODE) (b : ScanBuf)
    (hr : at_rest (.internal r 0 nw ne sw se)) (h : ¬ (q < a.lo r ∨ q > a.hi r)) :
    ∃ k, scan_run a q c k ⟨some ⟨[], .internal r 0 nw ne sw se⟩, b⟩ =
      some ⟨some ⟨[], .internal r 0xFFFFFFFF nw ne sw se⟩,
        scan_tree a q c (.internal r 0 nw ne sw se) b⟩ := by
  obtain ⟨_, hnw, hne, hsw, hse⟩ := hr
  cases a with
  | x =>
    obtain ⟨k1, h1⟩ := scan_walk .x q c sw hsw ⟨r, 0xFCFCFCFC, .sw, nw, ne, se⟩ [] b
    obtain ⟨k2, h2⟩ := scan_walk .x q c nw hnw ⟨r, 0xFDFDFDFD, .nw, ne, sw, se⟩ []
      (scan_tree .x q c sw b)
    obtain ⟨k3, h3⟩ := scan_walk .x q c se hse ⟨r, 0xFEFEFEFE, .se, nw, ne, sw⟩ []
      (scan_tree .x q c nw (scan_tree .x q c sw b))
    obtain ⟨k4, h4⟩ := scan_walk .x q c ne hne ⟨r, 0xFFFFFFFF, .ne, nw, sw, se⟩ []
      (scan_tree .x q c se (scan_tree .x q c nw (scan_tree .x q c sw b)))
    refine ⟨1 + (k1 + (1 + (k2 + (1 + (k3 + (1 + k4)))))), ?_⟩
    refine scan_run_trans _ _ _ _ _ _ _ _
      (scan_run_one _ _ _ _ _ (step_marker_0 .x q c [] r nw ne sw se b h)) ?_
    refine scan_run_trans _ _ _ _ _ _ _ _ h1 ?_
    refine scan_run_trans _ _ _ _ _ _ _ _
      (scan_run_one _ _ _ _ _ (step_marker_FC .x q c [] r nw ne sw se _ h)) ?_
    refine scan_run_trans _ _ _ _ _ _ _ _ h2 ?_
    refine scan_run_trans _ _ _ _ _ _ _ _
      (scan_run_one _ _ _ _ _ (step_marker_FD .x q c [] r nw ne sw se _ h)) ?_
    refine scan_run_trans _ _ _ _ _ _ _ _ h3 ?_
    refine scan_run_trans _ _ _ _ _ _ _ _
      (scan_run_one _ _ _ _ _ (step_marker_FE .x q c [] r nw ne sw se _ h)) ?_
    refine Eq.trans h4 ?_
    simp only [scan_tree, h, if_false, Frame.plug]
  | y =>
    obtain ⟨k1, h1⟩ := scan_walk .y q c se hse ⟨r, 0xFCFCFCFC, .se, nw, ne, sw⟩ [] b
    obtain ⟨k2, h2⟩ := scan_walk .y q c ne hne ⟨r, 0xFDFDFDFD, .ne, nw, sw, se⟩ []
      (scan_tree .y q c se b)
    obtain ⟨k3, h3⟩ := scan_walk .y q c sw hsw ⟨r, 0xFEFEFEFE, .sw, nw, ne, se⟩ []
      (scan_tree .y q c ne (scan_tree .y q c se b))
    obtain ⟨k4, h4⟩ := scan_walk .y q c nw hnw ⟨r, 0xFFFFFFFF, .nw, ne, sw, se⟩ []
      (scan_tree .y q c sw (scan_tree .y q c ne (scan_tree .y q c se b)))
    refine ⟨1 + (k1 + (1 + (k2 + (1 + (k3 + (1 + k4)))))), ?_⟩
    refine scan_run_trans _ _ _ _ _ _ _ _
      (scan_run_one _ _ _ _ _ (step_marker_0 .y q c [] r nw ne sw se b h)) ?_
    refine scan_run_trans _ _ _ _ _ _ _ _ h1 ?_
    refine scan_run_trans _ _ _ _ _ _ _ _
      (scan_run_one _ _ _ _ _ (step_marker_FC .y q c [] r nw ne sw se _ h)) ?_
    refine scan_run_trans _ _ _ _ _ _ _ _ h2 ?_
    refine scan_run_trans _ _ _ _ _ _ _ _
      (scan_run_one _ _ _ _ _ (step_marker_FD .y q c [] r nw ne sw se _ h)) ?_
    refine scan_run_trans _ _ _ _ _ _ _ _ h3 ?_
    refine scan_run_trans _ _ _ _ _ _ _ _
      (scan_run_one _ _ _ _ _ (step_marker_FE .y q c [] r nw ne sw se _ h)) ?_
    refine Eq.trans h4 ?_
    simp only [scan_tree, h, if_false, Frame.plug]

/-- A run of `j + d` iterations passes through the state after `j`. -/
theorem scan_run_split (a : Axis) (q c : Nat) (j : Nat) :
    ∀ (d : Nat) (s s2 : ScanState), scan_run a q c (j + d) s = some s2 →
      ∃ s1, scan_run a q c j s = some s1 ∧ scan_run a q c d s1 = some s2 := by
  induction j with
  | zero =>
    intro d s s2 h
    rw [Nat.zero_add] at h
    exact ⟨s, rfl, h⟩
  | succ j ih =>
    intro d s s2 h
    rw [Nat.succ_add] at h
    simp only [scan_run] at h ⊢
    cases hs : scan_step a q c s with
    | next s3 =>
      rw [hs] at h
      exact ih d s3 s2 h
    | done r => rw [hs] at h; cases h
    | fault e => rw [hs] at h; cases h

/-- The loop returns only from the state in which the current node has no
parent and carries the marker `0xFFFFFFFF`; the tree it returns is that
node with the marker cleared. -/
theorem scan_step_done (a : Axis) (q c : Nat) (s : ScanState) (r : ScanResult)
    (h : scan_step a q c s = .done r) :
    ∃ reg nw ne sw se, s.n = some ⟨[], .internal reg 0xFFFFFFFF nw ne sw se⟩ ∧
      r = ⟨.internal reg 0 nw ne sw se, s.buf⟩ := by
  obtain ⟨n, b⟩ := s
  unfold scan_step at h
  split at h
  · cases h
  · rename_i up reg m nw ne sw se hn
    simp only at hn
    split at h
    · rename_i hc
      simp only [Bool.and_eq_true, List.isEmpty_iff, decide_eq_true_eq] at hc
      obtain ⟨hu, hm⟩ := hc
      subst hu hm
      cases h
      exact ⟨reg, nw, ne, sw, se, hn, rfl⟩
    · repeat' split at h
      all_goals cases h
  · repeat' split at h
    all_goals cases h

/-- An iteration that continues started from a node, not from `NULL`. -/
theorem scan_step_next (a : Axis) (q c : Nat) (s s1 : ScanState)
    (h : scan_step a q c s = .next s1) : ∃ loc, s.n = some loc := by
  obtain ⟨n, b⟩ := s
  cases n with
  | none => simp only [scan_step] at h; cases h
  | some loc => exact ⟨loc, rfl⟩

/-- The scan loop gives the same result with more fuel. -/
theorem scan_loop_mono (a : Axis) (q c : Nat) (fuel : Nat) :
    ∀ (d : Nat) (s : ScanState) (r : ScanResult), scan_loop a q c fuel s = .ok r →
      scan_loop a q c (fuel + d) s = .ok r := by
  induction fuel with
  | zero =>
    intro d s r h
    simp only [scan_loop] at h
    cases h
  | succ fuel ih =>
    intro d s r h
    rw [Nat.succ_add]
    simp only [scan_loop] at h ⊢
    cases hs : scan_step a q c s with
    | next s3 =>
      rw [hs] at h
      simp only
      exact ih d s3 r h
    | done r1 => rw [hs] at h; exact h
    | fault e => rw [hs] at h; cases h

/-- Two runs of the scan loop that return, whatever their fuel, return the
same result. -/
theorem scan_loop_det (a : Axis) (q c : Nat) (f1 f2 : Nat) (s : ScanState) (r1 r2 : ScanResult)
    (h1 : scan_loop a q c f1 s = .ok r1) (h2 : scan_loop a q c f2 s = .ok r2) : r1 = r2 := by
  have e1 := scan_loop_mono a q c f1 f2 s r1 h1
  have e2 := scan_loop_mono a q c f2 f1 s r2 h2
  rw [Nat.add_comm] at e2
  rw [e1] at e2
  cases e2
  rfl

/-- The root of a tree of a run that has been subdivided: an internal node
at rest on `[0, xmax] x [0, xmax]`, with `xmax` below the all-bits-set
value, that satisfies the invariant. -/
theorem run_root (xmax : Nat) (log : List (Nat × Nat × Bool)) (t : QUADTREE)
    (hrun : Run xmax log t) (hs : subdivided t.root = true) :
    ∃ r nw ne sw se, t.root = .internal r 0 nw ne sw se ∧ r.nw = ⟨0, 0⟩ ∧ r.se = ⟨xmax, xmax⟩ ∧
      xmax < U32 - 1 ∧ Inv (offered log) (.internal r 0 nw ne sw se) := by
  obtain ⟨hI, h1, h2, _⟩ := run_inv xmax log t hrun
  have hmax := run_subdivided_xmax xmax log t hrun hs
  obtain ⟨n⟩ := t
  cases n with
  | leaf r p0 p1 p2 p3 => cases hs
  | internal r m nw ne sw se =>
    have hm : m = 0 := hI.1
    subst hm
    exact ⟨r, nw, ne, sw, se, rfl, h1, h2, hmax, hI⟩

/-- The scan along an axis of a tree whose root is in range is the scan
loop started at the root. -/
theorem scan_axis_loop (a : Axis) (fuel : Nat) (t : QUADTREE) (q c p : Nat) (out : Nat → Nat)
    (h : ¬ (q < a.lo t.root.region ∨ q > a.hi t.root.region)) :
    scan_axis a fuel t q out p c = scan_loop a q c fuel ⟨some ⟨[], t.root⟩, ⟨out, p, false⟩⟩ := by
  cases a with
  | x =>
    have h1 : ¬ (q < t.root.region.nw.x ∨ q > t.root.region.se.x) := h
    simp only [scan_axis, quadtree_scan_x, _quadtree_scan_x, h1, if_false]
  | y => simp only [scan_axis, quadtree_scan_y, _quadtree_scan_y]

/-- A coordinate up to `xmax` is inside the range of a root on
`[0, xmax] x [0, xmax]`, on either axis. -/
theorem in_root_range (a : Axis) (r : QUADTREE_REGION) (xmax q : Nat) (h1 : r.nw = ⟨0, 0⟩)
    (h2 : r.se = ⟨xmax, xmax⟩) (hq : q ≤ xmax) : ¬ (q < a.lo r ∨ q > a.hi r) := by
  cases a <;> simp only [Axis.lo, Axis.hi, h1, h2] <;> omega

/-- C17 (the stackless walk terminates).  Let `t` be a tree built by
`quadtree_init(xmax, xmax)` and calls of `quadtree_insert` that all returned
1, with its root subdivided, and `q` a coordinate inside the root's range.
On either axis the loop makes `k` iterations that all continue, passing
only through states whose node pointer is not `NULL` (it never moves to the
parent of the root), and so reaches a state `s` in which the current node
is the root, without parent, with the marker `0xFFFFFFFF`; the next
iteration returns, with the tree as it was before the scan.  So the scan
returns for every fuel above `k`.  And an iteration returns only from such
a state: current node without parent and marker `0xFFFFFFFF`. -/
theorem scan_walk_terminates (xmax : Nat) (t : QUADTREE) (q c p : Nat) (out : Nat → Nat)
    (a : Axis) (hb : Built xmax t) (hs : subdivided t.root = true) (hq : q ≤ xmax) :
    ∃ k s reg nw ne sw se,
      scan_run a q c k ⟨some ⟨[], t.root⟩, ⟨out, p, false⟩⟩ = some s ∧
      s.n = some ⟨[], .internal reg 0xFFFFFFFF nw ne sw se⟩ ∧
      scan_step a q c s = .done ⟨t.root, s.buf⟩ ∧
      (∀ j, j ≤ k → ∃ sj loc,
        scan_run a q c j ⟨some ⟨[], t.root⟩, ⟨out, p, false⟩⟩ = some sj ∧ sj.n = some loc) ∧
      (∀ j, j < k → ∃ sj sj1,
        scan_run a q c j ⟨some ⟨[], t.root⟩, ⟨out, p, false⟩⟩ = some sj ∧
          scan_step a q c sj = .next sj1) ∧
      (∀ fuel, scan_axis a (k + 1 + fuel) t q out p c = .ok ⟨t.root, s.buf⟩) ∧
      (∀ (s1 : ScanState) (r1 : ScanResult), scan_step a q c s1 = .done r1 →
        ∃ reg1 nw1 ne1 sw1 se1,
          s1.n = some ⟨[], .internal reg1 0xFFFFFFFF nw1 ne1 sw1 se1⟩) := by
  obtain ⟨log, hrun, _⟩ := hb
  obtain ⟨r, nw, ne, sw, se, ht, h1, h2, hmax, hI⟩ := run_root xmax log t hrun hs
  have hr : ¬ (q < a.lo r ∨ q > a.hi r) := in_root_range a r xmax q h1 h2 hq
  have hr2 : ¬ (q < a.lo t.root.region ∨ q > a.hi t.root.region) := by
    rw [ht]
    exact hr
  obtain ⟨k, hk⟩ := scan_run_root a q c r nw ne sw se ⟨out, p, false⟩
    (inv_at_rest _ _ hI) hr
  have hstep : scan_step a q c ⟨some ⟨[], .internal r 0xFFFFFFFF nw ne sw se⟩,
      scan_tree a q c (.internal r 0 nw ne sw se) ⟨out, p, false⟩⟩ =
      .done ⟨.internal r 0 nw ne sw se, scan_tree a q c (.internal r 0 nw ne sw se)
        ⟨out, p, false⟩⟩ := step_marker_FF_root a q c r nw ne sw se _
  refine ⟨k, _, r, nw, ne, sw, se, by rw [ht]; exact hk, rfl, by rw [ht]; exact hstep,
    fun j hj => ?_, fun j hj => ?_, fun fuel => ?_, fun s1 r1 h => ?_⟩
  · rw [ht]
    obtain ⟨d, rfl⟩ := Nat.exists_eq_add_of_le hj
    obtain ⟨sj, e1, e2⟩ := scan_run_split a q c j d _ _ hk
    refine ⟨sj, ?_⟩
    cases d with
    | zero =>
      simp only [scan_run] at e2
      cases e2
      exact ⟨_, e1, rfl⟩
    | succ d =>
      simp only [scan_run] at e2
      cases hs1 : scan_step a q c sj with
      | next s3 =>
        obtain ⟨loc, hloc⟩ := scan_step_next a q c sj s3 hs1
        exact ⟨loc, e1, hloc⟩
      | done r1 => rw [hs1] at e2; cases e2
      | fault e => rw [hs1] at e2; cases e2
  · rw [ht]
    obtain ⟨d, hd⟩ := Nat.exists_eq_add_of_lt hj
    have hd2 : k = j + (d + 1) := by omega
    rw [hd2] at hk
    obtain ⟨sj, e1, e2⟩ := scan_run_split a q c j (d + 1) _ _ hk
    simp only [scan_run] at e2
    cases hs1 : scan_step a q c sj with
    | next s3 => exact ⟨sj, s3, e1, hs1⟩
    | done r1 => rw [hs1] at e2; cases e2
    | fault e => rw [hs1] at e2; cases e2
  · rw [scan_axis_loop a _ t q c p out hr2, ht, Nat.add_assoc,
      scan_loop_of_run a q c k _ _ _ hk, Nat.add_comm 1 fuel]
    simp only [scan_loop, hstep]
  · obtain ⟨reg1, nw1, ne1, sw1, se1, e, _⟩ := scan_step_done a q c s1 r1 h
    exact ⟨reg1, nw1, ne1, sw1, se1, e⟩

unseal U32 in
/-- Witness of `scan_walk_terminates`: the scan along `y = 13` of a tree on
`[0, 63] x [0, 63]` that holds five points. -/
theorem scan_walk_terminates_witness :
    ∃ t log, build 8 63 [(33, 13), (60, 13), (40, 13), (20, 13), (0, 13)] = .ok (t, log) ∧
      Built 63 t ∧ subdivided t.root = true ∧ 13 ≤ 63 ∧
      ∃ k s reg nw ne sw se,
        scan_run .y 13 2 k ⟨some ⟨[], t.root⟩, ⟨fun _ => 0, 0, false⟩⟩ = some s ∧
        s.n = some ⟨[], .internal reg 0xFFFFFFFF nw ne sw se⟩ ∧
        scan_step .y 13 2 s = .done ⟨t.root, s.buf⟩ ∧
        (∀ j, j ≤ k → ∃ sj loc,
          scan_run .y 13 2 j ⟨some ⟨[], t.root⟩, ⟨fun _ => 0, 0, false⟩⟩ = some sj ∧
            sj.n = some loc) ∧
        (∀ j, j < k → ∃ sj sj1,
          scan_run .y 13 2 j ⟨some ⟨[], t.root⟩, ⟨fun _ => 0, 0, false⟩⟩ = some sj ∧
            scan_step .y 13 2 sj = .next sj1) ∧
        (∀ fuel, scan_axis .y (k + 1 + fuel) t 13 (fun _ => 0) 0 2 = .ok ⟨t.root, s.buf⟩) ∧
        (∀ (s1 : ScanState) (r1 : ScanResult), scan_step .y 13 2 s1 = .done r1 →
          ∃ reg1 nw1 ne1 sw1 se1,
            s1.n = some ⟨[], .internal reg1 0xFFFFFFFF nw1 ne1 sw1 se1⟩) := by
  refine ⟨_, _, rfl, ?_⟩
  have hr : Run 63 _ _ := (run_of_build 8 63 (by decide)
    [(33, 13), (60, 13), (40, 13), (20, 13), (0, 13)] _ _ (by decide) rfl).1
  have hb : Built 63 _ := ⟨_, hr, by decide⟩
  exact ⟨hb, rfl, by decide,
    scan_walk_terminates 63 _ 13 2 0 (fun _ => 0) .y hb rfl (by decide)⟩

/-! ### The reported count -/

/-- The body of the slot loop keeps counter and flag together. -/
theorem scan_point_saturated (a : Axis) (q c : Nat) (b : ScanBuf) (pt : QUADTREE_POINT)
    (h : Saturated c b) : Saturated c (scan_point a q c b pt) := by
  unfold scan_point
  split
  · exact h
  · split
    · rename_i hp
      refine ⟨fun _ => ?_, fun hr => ?_⟩
      · show b.p + 1 ≤ c
        omega
      · have hr1 : b.ret = true := hr
        have := h.2 hr1
        omega
    · split
      · rename_i hp hr
        have hr1 : b.ret = false := by simpa using hr
        have := h.1 hr1
        refine ⟨fun hf => ?_, fun _ => ?_⟩
        · cases hf
        · show b.p + 1 = c + 1
          omega
      · exact h

/-- The slot loop keeps counter and flag together. -/
theorem scan_points_saturated (a : Axis) (q c : Nat) (pts : List QUADTREE_POINT) :
    ∀ b, Saturated c b → Saturated c (pts.foldl (scan_point a q c) b) := by
  induction pts with
  | nil => intro b h; exact h
  | cons pt pts ih => intro b h; exact ih _ (scan_point_saturated a q c b pt h)

/-- The leaf branch keeps counter and flag together. -/
theorem scan_leaf_saturated (a : Axis) (q c : Nat) (pts : List QUADTREE_POINT) (b : ScanBuf)
    (h : Saturated c b) : Saturated c (scan_leaf a q c pts b) := by
  have h1 := scan_points_saturated a q c pts b h
  unfold scan_leaf
  simp only
  split
  · exact ⟨fun hr => h1.1 hr, fun hr => h1.2 hr⟩
  · exact h1

/-- Once the flag is set and the counter is past the capacity, a slot is
neither written nor counted. -/
theorem scan_point_after_overflow (a : Axis) (q c : Nat) (b : ScanBuf) (pt : QUADTREE_POINT)
    (hr : b.ret = true) (hp : c < b.p) : scan_point a q c b pt = b := by
  unfold scan_point
  split
  · rfl
  · split
    · omega
    · simp only [hr, Bool.not_true, Bool.false_eq_true, if_false]

/-- Once the flag is set and the counter is past the capacity, the slot loop
changes nothing. -/
theorem scan_points_after_overflow (a : Axis) (q c : Nat) (pts : List QUADTREE_POINT) :
    ∀ b : ScanBuf, b.ret = true → c < b.p → pts.foldl (scan_point a q c) b = b := by
  induction pts with
  | nil => intro b _ _; rfl
  | cons pt pts ih =>
    intro b hr hp
    rw [List.foldl_cons, scan_point_after_overflow a q c b pt hr hp]
    exact ih b hr hp

/-- Once the flag is set and the counter is past the capacity, the leaf
branch changes nothing. -/
theorem scan_leaf_after_overflow (a : Axis) (q c : Nat) (pts : List QUADTREE_POINT)
    (b : ScanBuf) (hr : b.ret = true) (hp : c < b.p) : scan_leaf a q c pts b = b := by
  unfold scan_leaf
  simp only [scan_points_after_overflow a q c pts b hr hp, hr, Bool.not_true,
    Bool.false_eq_true, if_false]

/-- One iteration of the scan loop keeps counter and flag together. -/
theorem scan_step_saturated (a : Axis) (q c : Nat) (s s1 : ScanState)
    (h : Saturated c s.buf) (hs : scan_step a q c s = .next s1) : Saturated c s1.buf := by
  obtain ⟨n, b⟩ := s
  unfold scan_step at hs
  split at hs
  · cases hs
  · repeat' split at hs
    all_goals first
      | (cases hs; exact h)
      | cases hs
  · repeat' split at hs
    all_goals first
      | (cases hs; exact h)
      | (cases hs; exact scan_leaf_saturated a q c _ _ h)
      | cases hs

/-- The states the scan loop passes through keep counter and flag
together. -/
theorem scan_run_saturated (a : Axis) (q c : Nat) (k : Nat) :
    ∀ (s s1 : ScanState), Saturated c s.buf → scan_run a q c k s = some s1 →
      Saturated c s1.buf := by
  induction k with
  | zero =>
    intro s s1 h hs
    simp only [scan_run] at hs
    cases hs
    exact h
  | succ k ih =>
    intro s s1 h hs
    simp only [scan_run] at hs
    cases e : scan_step a q c s with
    | next s2 =>
      rw [e] at hs
      exact ih s2 s1 (scan_step_saturated a q c s s2 h e) hs
    | done r => rw [e] at hs; cases hs
    | fault f => rw [e] at hs; cases hs

/-- C19 (the reported count saturates at capacity + 1).  Let `t` be a tree
obtained by `quadtree_init(xmax, xmax)` and calls of `quadtree_insert`, with
its root subdivided, `q` a coordinate inside the root's range, `M` the
number of stored points whose scanned coordinate is `q`, and `c` any
capacity.  (1) On either axis the scan started with `*p = 0` returns, given
enough fuel; it returns 1 exactly when `c < M`, and it ends with
`*p = min(M, c + 1)`.  (2) In every state the loop passes through in which
`ret` is set, `*p` is `c + 1`, and neither a slot nor a whole leaf branch
changes the buffer, `*p` or `ret` from there: further matches are neither
written nor counted.  (3) In every state the loop passes through, a leaf
whose slot loop sets `ret` is left as the slot loop wrote it: its segment
is not sorted. -/
theorem scan_count_saturates (xmax : Nat) (log : List (Nat × Nat × Bool)) (t : QUADTREE)
    (q c : Nat) (out : Nat → Nat) (a : Axis) (hrun : Run xmax log t)
    (hs : subdivided t.root = true) (hq : q ≤ xmax) :
    (∃ k, ∀ fuel, ∃ r, scan_axis a (k + fuel) t q out 0 c = .ok r ∧
      (r.buf.ret = true ↔
        c < ((stored t.root).filter (fun pt => decide (a.key pt = q))).length) ∧
      r.buf.p = min ((stored t.root).filter (fun pt => decide (a.key pt = q))).length (c + 1)) ∧
    (∀ k s, scan_run a q c k ⟨some ⟨[], t.root⟩, ⟨out, 0, false⟩⟩ = some s →
      s.buf.ret = true →
        s.buf.p = c + 1 ∧ (∀ pt, scan_point a q c s.buf pt = s.buf) ∧
          ∀ pts, scan_leaf a q c pts s.buf = s.buf) ∧
    (∀ k s pts, scan_run a q c k ⟨some ⟨[], t.root⟩, ⟨out, 0, false⟩⟩ = some s →
      (pts.foldl (scan_point a q c) s.buf).ret = true →
        scan_leaf a q c pts s.buf = pts.foldl (scan_point a q c) s.buf) := by
  obtain ⟨rg, nw, ne, sw, se, ht, h1, h2, hmax, hI⟩ := run_root xmax log t hrun hs
  have hr : ¬ (q < a.lo rg ∨ q > a.hi rg) := in_root_range a rg xmax q h1 h2 hq
  have hr2 : ¬ (q < a.lo t.root.region ∨ q > a.hi t.root.region) := by
    rw [ht]
    exact hr
  have hI2 : Inv (offered log) t.root := by rw [ht]; exact hI
  refine ⟨?_, fun k s hk hret => ?_, fun k s pts _ hret => ?_⟩
  · obtain ⟨k, hk⟩ := scan_root_spec (offered log) a q c t.root hI2 hs hr2 (by omega)
      ⟨out, 0, false⟩
    refine ⟨k, fun fuel => ?_⟩
    obtain ⟨b1, hl, vals, hperm, hspec⟩ := hk fuel
    refine ⟨⟨t.root, b1⟩, by rw [scan_axis_loop a _ t q c 0 out hr2]; exact hl, ?_⟩
    have hlen : vals.length =
        ((stored t.root).filter (fun pt => decide (a.key pt = q))).length := by
      rw [hperm.length_eq, List.length_map]
    rw [← hlen]
    have h3 := hspec.2 rfl (Nat.zero_le _)
    by_cases hc : c < vals.length
    · obtain ⟨e1, e2⟩ := h3.2 (by show c < 0 + vals.length; omega)
      refine ⟨⟨fun _ => hc, fun _ => e1⟩, ?_⟩
      show b1.p = _
      rw [e2]
      omega
    · obtain ⟨e1, e2, _⟩ := h3.1 (by show 0 + vals.length ≤ c; omega)
      refine ⟨⟨fun h => ?_, fun h => absurd h hc⟩, ?_⟩
      · have h4 : b1.ret = true := h
        rw [e1] at h4
        cases h4
      · show b1.p = _
        rw [e2]
        show 0 + vals.length = _
        omega
  · have hsat := scan_run_saturated a q c k _ s ⟨fun _ => Nat.zero_le _, fun h => by cases h⟩ hk
    have hp := hsat.2 hret
    exact ⟨hp, fun pt => scan_point_after_overflow a q c s.buf pt hret (by omega),
      fun pts => scan_leaf_after_overflow a q c pts s.buf hret (by omega)⟩
  · unfold scan_leaf
    simp only [hret, Bool.not_true, Bool.false_eq_true, if_false]

unseal U32 in
/-- Witness of `scan_count_saturates`: five points with `x = 5` in
`[0, 63] x [0, 63]`, scanned along `x = 5` with capacity 2. -/
theorem scan_count_saturates_witness :
    ∃ t log, build 8 63 [(5, 33), (5, 60), (5, 40), (5, 20), (5, 0)] = .ok (t, log) ∧
      Run 63 log t ∧ subdivided t.root = true ∧ 5 ≤ 63 ∧
      (∃ k, ∀ fuel, ∃ r, scan_axis .x (k + fuel) t 5 (fun _ => 0) 0 2 = .ok r ∧
        (r.buf.ret = true ↔
          2 < ((stored t.root).filter (fun pt => decide (Axis.x.key pt = 5))).length) ∧
        r.buf.p =
          min ((stored t.root).filter (fun pt => decide (Axis.x.key pt = 5))).length (2 + 1)) ∧
      (∀ k s, scan_run .x 5 2 k ⟨some ⟨[], t.root⟩, ⟨fun _ => 0, 0, false⟩⟩ = some s →
        s.buf.ret = true →
          s.buf.p = 2 + 1 ∧ (∀ pt, scan_point .x 5 2 s.buf pt = s.buf) ∧
            ∀ pts, scan_leaf .x 5 2 pts s.buf = s.buf) ∧
      (∀ k s pts, scan_run .x 5 2 k ⟨some ⟨[], t.root⟩, ⟨fun _ => 0, 0, false⟩⟩ = some s →
        (pts.foldl (scan_point .x 5 2) s.buf).ret = true →
          scan_leaf .x 5 2 pts s.buf = pts.foldl (scan_point .x 5 2) s.buf) := by
  refine ⟨_, _, rfl, ?_⟩
  have hr : Run 63 _ _ := (run_of_build 8 63 (by decide)
    [(5, 33), (5, 60), (5, 40), (5, 20), (5, 0)] _ _ (by decide) rfl).1
  exact ⟨hr, rfl, by decide, scan_count_saturates 63 _ _ 5 2 (fun _ => 0) .x hr rfl (by decide)⟩

/-! ### The sort of a leaf's segment -/

/-- One pass of the sort carries the least value to the last cell: when the
cell at the cursor holds the least value of the cells from `s0` to the
cursor, the cell the pass ends at holds the least value of all the cells
from `s0` on. -/
theorem sort_pass_min (n : Nat) : ∀ (out : Nat → Nat) (tmp s0 : Nat), s0 ≤ tmp →
    (∀ i, s0 ≤ i → i ≤ tmp → out tmp ≤ out i) →
    ∀ i, s0 ≤ i → i ≤ tmp + n → sort_pass out tmp n (tmp + n) ≤ sort_pass out tmp n i := by
  induction n with
  | zero =>
    intro out tmp s0 _ h i h1 h2
    exact h i h1 h2
  | succ n ih =>
    intro out tmp s0 h0 h i h1 h2
    simp only [sort_pass]
    rw [show tmp + (n + 1) = tmp + 1 + n by omega] at h2 ⊢
    refine ih _ (tmp + 1) s0 (by omega) (fun k hk1 hk2 => ?_) i h1 h2
    by_cases hlt : out tmp < out (tmp + 1)
    · have hne : tmp + 1 ≠ tmp := by omega
      simp only [hlt, if_true, _quadtree_sort_swap, hne, if_false]
      split
      · omega
      · split
        · exact Nat.le_refl _
        · exact h k hk1 (by omega)
    · simp only [hlt, if_false]
      by_cases e2 : k = tmp + 1
      · subst e2
        exact Nat.le_refl _
      · have := h k hk1 (by omega)
        omega

/-- One pass of the sort keeps every property that all the cells of its
segment have. -/
theorem sort_pass_pred (Q : Nat → Prop) (n : Nat) : ∀ (out : Nat → Nat) (tmp : Nat),
    (∀ i, tmp ≤ i → i ≤ tmp + n → Q (out i)) →
    ∀ i, tmp ≤ i → i ≤ tmp + n → Q (sort_pass out tmp n i) := by
  induction n with
  | zero =>
    intro out tmp h i h1 h2
    exact h i h1 h2
  | succ n ih =>
    intro out tmp h i h1 h2
    simp only [sort_pass]
    by_cases e : i = tmp
    · subst e
      rw [sort_pass_frame n _ (i + 1) i (Or.inl (by omega))]
      split
      · simp only [_quadtree_sort_swap, if_true]
        exact h (i + 1) (by omega) (by omega)
      · exact h i (by omega) (by omega)
    · refine ih _ (tmp + 1) (fun k hk1 hk2 => ?_) i (by omega) (by omega)
      split
      · simp only [_quadtree_sort_swap]
        split
        · exact h _ (by omega) (by omega)
        · split
          · exact h _ (by omega) (by omega)
          · exact h _ (by omega) (by omega)
      · exact h _ (by omega) (by omega)

/-- The sort keeps every property that all the cells of its segment have. -/
theorem sort_loop_pred (Q : Nat → Prop) (len : Nat) : ∀ (out : Nat → Nat) (start : Nat),
    (∀ i, start ≤ i → i ≤ start + len → Q (out i)) →
    ∀ i, start ≤ i → i ≤ start + len → Q (sort_loop out start len i) := by
  induction len with
  | zero =>
    intro out start h i h1 h2
    exact h i h1 h2
  | succ len ih =>
    intro out start h i h1 h2
    simp only [sort_loop]
    have hp := sort_pass_pred Q (len + 1) out start h
    by_cases e : i = start + (len + 1)
    · subst e
      rw [sort_loop_frame len _ start _ (Or.inr (by omega))]
      exact hp _ (by omega) (Nat.le_refl _)
    · exact ih _ start (fun k hk1 hk2 => hp k hk1 (by omega)) i h1 (by omega)

/-- The sort leaves its segment in non-increasing order. -/
theorem sort_loop_sorted (len : Nat) : ∀ (out : Nat → Nat) (start i j : Nat),
    start ≤ i → i ≤ j → j ≤ start + len →
    sort_loop out start len j ≤ sort_loop out start len i := by
  induction len with
  | zero =>
    intro out start i j h1 h2 h3
    have : i = j := by omega
    subst this
    exact Nat.le_refl _
  | succ len ih =>
    intro out start i j h1 h2 h3
    simp only [sort_loop]
    by_cases e : j = start + (len + 1)
    · by_cases e2 : i = j
      · subst e2
        exact Nat.le_refl _
      · subst e
        rw [sort_loop_frame len _ start (start + (len + 1)) (Or.inr (by omega))]
        refine sort_loop_pred
          (fun v => sort_pass out start (len + 1) (start + (len + 1)) ≤ v) len _ start
          (fun k hk1 hk2 => ?_) i h1 (by omega)
        exact sort_pass_min (len + 1) out start start (Nat.le_refl _)
          (fun k2 hk3 hk4 => by
            have : k2 = start := by omega
            subst this
            exact Nat.le_refl _) k hk1 (by omega)
    · exact ih _ start i j h1 h2 (by omega)

/-! ### The order of the values a scan along `y` writes -/

/-- What one slot does to the buffer: the cells below the counter stay, the
counter grows by at most one, and a cell written below the capacity holds
the reported coordinate of the slot, which matches the query. -/
theorem scan_point_written (a : Axis) (q c : Nat) (b : ScanBuf) (pt : QUADTREE_POINT)
    (h : Saturated c b) :
    (∀ i, i < b.p → (scan_point a q c b pt).out i = b.out i) ∧
      b.p ≤ (scan_point a q c b pt).p ∧ (scan_point a q c b pt).p ≤ b.p + 1 ∧
      (∀ i, b.p ≤ i → i < (scan_point a q c b pt).p → i < c →
        a.key pt = q ∧ (scan_point a q c b pt).out i = a.val pt) := by
  unfold scan_point
  split
  · exact ⟨fun _ _ => rfl, Nat.le_refl _, Nat.le_succ _, fun i h1 h2 _ => by omega⟩
  · rename_i hk
    have hk1 : a.key pt = q := by
      by_contra hne
      exact hk hne
    split
    · refine ⟨fun i hi => ?_, Nat.le_succ _, Nat.le_refl _, fun i h1 h2 _ => ?_⟩
      · have : i ≠ b.p := by omega
        simp only [this, if_false]
      · have h3 : i < b.p + 1 := h2
        have : i = b.p := by omega
        simp only [this, if_true]
        exact ⟨hk1, trivial⟩
    · split
      · rename_i hp hr
        have hr1 : b.ret = false := by simpa using hr
        have := h.1 hr1
        exact ⟨fun _ _ => rfl, Nat.le_succ _, Nat.le_refl _, fun i h1 h2 h3 => by omega⟩
      · exact ⟨fun _ _ => rfl, Nat.le_refl _, Nat.le_succ _, fun i h1 h2 _ => by omega⟩

/-- What the slot loop does to the buffer: the cells below the counter stay,
the counter grows by at most the number of slots, and every cell written
below the capacity holds the reported coordinate of a slot that matches the
query. -/
theorem scan_points_written (a : Axis) (q c : Nat) (Q : Nat → Prop)
    (pts : List QUADTREE_POINT) :
    (∀ pt ∈ pts, a.key pt = q → Q (a.val pt)) → ∀ b, Saturated c b →
    (∀ i, i < b.p → (pts.foldl (scan_point a q c) b).out i = b.out i) ∧
      b.p ≤ (pts.foldl (scan_point a q c) b).p ∧
      (pts.foldl (scan_point a q c) b).p ≤ b.p + pts.length ∧
      (∀ i, b.p ≤ i → i < (pts.foldl (scan_point a q c) b).p → i < c →
        Q ((pts.foldl (scan_point a q c) b).out i)) := by
  induction pts with
  | nil =>
    intro _ b _
    exact ⟨fun _ _ => rfl, Nat.le_refl _, Nat.le_refl _, fun i h1 h2 _ => by
      have h3 : i < b.p := h2
      omega⟩
  | cons pt pts ih =>
    intro hQ b hb
    obtain ⟨s1, s2, s3, s4⟩ := scan_point_written a q c b pt hb
    obtain ⟨t1, t2, t3, t4⟩ := ih (fun p hp => hQ p (List.mem_cons_of_mem _ hp)) _
      (scan_point_saturated a q c b pt hb)
    simp only [List.foldl_cons, List.length_cons]
    refine ⟨fun i hi => ?_, by omega, by omega, fun i h1 h2 h3 => ?_⟩
    · rw [t1 i (by omega), s1 i hi]
    · by_cases hi : i < (scan_point a q c b pt).p
      · rw [t1 i hi]
        obtain ⟨e1, e2⟩ := s4 i h1 hi h3
        rw [e2]
        exact hQ pt (List.mem_cons_self _ _) e1
      · exact t4 i (by omega) h2 h3

/-- A weaker bound on the values of a buffer in order. -/
theorem descending_weaken (c B L : Nat) (b : ScanBuf) (hL : L ≤ B) (h : Descending c B b) :
    Descending c L b :=
  ⟨fun hr => ⟨(h.1 hr).1, (h.1 hr).2.1, fun i hi => Nat.le_trans hL ((h.1 hr).2.2 i hi)⟩, h.2⟩

/-- The leaf branch keeps the buffer in order when the matching slots of the
leaf, at most four, report values below those already in the buffer: after
it the cells below `*p` are in order, or, when the leaf overflows, the
cells of the earlier leaves and the first cell of this one are. -/
theorem scan_leaf_descending (a : Axis) (q c B L : Nat) (pts : List QUADTREE_POINT)
    (b : ScanBuf) (hlen : pts.length ≤ 4) (hL : L ≤ B)
    (hQ : ∀ pt ∈ pts, a.key pt = q → L ≤ a.val pt ∧ a.val pt < B)
    (hs : Saturated c b) (h : Descending c B b) :
    Descending c L (scan_leaf a q c pts b) := by
  cases hr : b.ret with
  | true =>
    rw [scan_leaf_after_overflow a q c pts b hr (h.2 hr).1]
    exact descending_weaken c B L b hL h
  | false =>
    obtain ⟨hp, hso, hB⟩ := h.1 hr
    obtain ⟨w1, w2, w3, w4⟩ := scan_points_written a q c (fun v => L ≤ v ∧ v < B) pts hQ b hs
    have hs1 := scan_points_saturated a q c pts b hs
    unfold scan_leaf
    simp only
    cases hr1 : (pts.foldl (scan_point a q c) b).ret with
    | true =>
      simp only [Bool.not_true, Bool.false_eq_true, if_false]
      have hp1 := hs1.2 hr1
      refine ⟨fun hf => ?_, fun _ => ⟨by omega, fun i j hij hj => ?_⟩⟩
      · rw [hr1] at hf
        cases hf
      by_cases hjp : j < b.p
      · rw [w1 j hjp, w1 i (by omega)]
        exact hso i j hij hjp
      · by_cases hie : i = j
        · subst hie
          exact Nat.le_refl _
        · have hj2 : j = b.p := by omega
          have := w4 j (by omega) (by omega) (by omega)
          rw [w1 i (by omega)]
          have := hB i (by omega)
          omega
    | false =>
      simp only [Bool.not_false, if_true]
      have hp1 := hs1.1 hr1
      refine ⟨fun _ => ⟨hp1, fun i j hij hj => ?_, fun i hi => ?_⟩, fun hf => ?_⟩
      rotate_right
      · cases hf
      · show _quadtree_sort_result_array _ _ _ j ≤ _quadtree_sort_result_array _ _ _ i
        have hj1 : j < (pts.foldl (scan_point a q c) b).p := hj
        unfold _quadtree_sort_result_array
        generalize hlen2 : (((pts.foldl (scan_point a q c) b).p : Int) - 1 - (b.p : Int)).toNat
          = len
        by_cases hjp : j < b.p
        · rw [sort_loop_frame len _ _ j (Or.inl hjp), sort_loop_frame len _ _ i (Or.inl (by omega)),
            w1 j hjp, w1 i (by omega)]
          exact hso i j hij hjp
        · have hlen3 : b.p + len + 1 = (pts.foldl (scan_point a q c) b).p := by omega
          by_cases hip : i < b.p
          · rw [sort_loop_frame len _ _ i (Or.inl hip), w1 i hip]
            have := sort_loop_pred (fun v => L ≤ v ∧ v < B) len
              (pts.foldl (scan_point a q c) b).out b.p
              (fun k hk1 hk2 => w4 k hk1 (by omega) (by omega)) j (by omega) (by omega)
            have := hB i hip
            omega
          · exact sort_loop_sorted len _ b.p i j (by omega) hij (by omega)
      · show L ≤ _quadtree_sort_result_array _ _ _ i
        have hi1 : i < (pts.foldl (scan_point a q c) b).p := hi
        unfold _quadtree_sort_result_array
        generalize hlen2 : (((pts.foldl (scan_point a q c) b).p : Int) - 1 - (b.p : Int)).toNat
          = len
        by_cases hip : i < b.p
        · rw [sort_loop_frame len _ _ i (Or.inl hip), w1 i hip]
          exact Nat.le_trans hL (hB i hip)
        · have hlen3 : b.p + len + 1 = (pts.foldl (scan_point a q c) b).p := by omega
          exact (sort_loop_pred (fun v => L ≤ v ∧ v < B) len
            (pts.foldl (scan_point a q c) b).out b.p
            (fun k hk1 hk2 => w4 k hk1 (by omega) (by omega)) i (by omega) (by omega)).1

/-- A node outside the query's range leaves the buffer as it is. -/
theorem scan_tree_out (a : Axis) (q c : Nat) (n : QUADTREE_NODE) (b : ScanBuf)
    (h : q < a.lo n.region ∨ q > a.hi n.region) : scan_tree a q c n b = b := by
  cases n with
  | leaf r p0 p1 p2 p3 =>
    have h1 : q < a.lo r ∨ q > a.hi r := h
    simp only [scan_tree, h1, if_true]
  | internal r m nw ne sw se =>
    have h1 : q < a.lo r ∨ q > a.hi r := h
    simp only [scan_tree, h1, if_true]

/-- A leaf none of whose slots matches the query leaves the buffer as it
is. -/
theorem scan_leaf_no_match (a : Axis) (q c : Nat) (pts : List QUADTREE_POINT) (b : ScanBuf)
    (h : ∀ pt ∈ pts, a.key pt ≠ q) : scan_leaf a q c pts b = b := by
  have hf : ∀ (l : List QUADTREE_POINT), (∀ pt ∈ l, a.key pt ≠ q) →
      l.foldl (scan_point a q c) b = b := by
    intro l
    induction l with
    | nil => intro _; rfl
    | cons pt l ih =>
      intro hl
      have : scan_point a q c b pt = b := by
        simp only [scan_point, hl pt (List.mem_cons_self _ _), ne_eq, not_false_eq_true, if_true]
      rw [List.foldl_cons, this]
      exact ih (fun p hp => hl p (List.mem_cons_of_mem _ hp))
  unfold scan_leaf
  simp only [hf pts h]
  split
  · have : ((b.p : Int) - 1 - (b.p : Int)).toNat = 0 := by omega
    simp only [_quadtree_sort_result_array, this, sort_loop]
  · rfl

/-- A subtree in which the scan meets no value leaves the buffer as it
is. -/
theorem scan_tree_nil (a : Axis) (q c : Nat) : ∀ (n : QUADTREE_NODE) (b : ScanBuf),
    scan_vals a q n = [] → scan_tree a q c n b = b := by
  intro n
  induction n with
  | leaf r p0 p1 p2 p3 =>
    intro b h
    by_cases hr : q < a.lo r ∨ q > a.hi r
    · simp only [scan_tree, hr, if_true]
    · simp only [scan_vals, hr, if_false, List.map_eq_nil_iff, List.filter_eq_nil_iff,
        decide_eq_true_eq] at h
      simp only [scan_tree, hr, if_false]
      exact scan_leaf_no_match a q c _ b h
  | internal r m nw ne sw se i1 i2 i3 i4 =>
    intro b h
    by_cases hr : q < a.lo r ∨ q > a.hi r
    · simp only [scan_tree, hr, if_true]
    · cases a with
      | x =>
        simp only [scan_vals, hr, if_false, List.append_eq_nil] at h
        obtain ⟨⟨⟨h3, h1⟩, h4⟩, h2⟩ := h
        simp only [scan_tree, hr, if_false, i3 b h3, i1 b h1, i4 b h4, i2 b h2]
      | y =>
        simp only [scan_vals, hr, if_false, List.append_eq_nil] at h
        obtain ⟨⟨⟨h4, h2⟩, h3⟩, h1⟩ := h
        simp only [scan_tree, hr, if_false, i3 b h3, i1 b h1, i4 b h4, i2 b h2]

/-- A subtree on a region without points leaves the buffer as it is. -/
theorem scan_tree_void (T : Nat → Nat → Prop) (a : Axis) (q c : Nat) (hq : q ≠ U32 - 1)
    (n : QUADTREE_NODE) (b : ScanBuf) (hI : Inv T n) (hV : Void n.region) :
    scan_tree a q c n b = b := by
  apply scan_tree_nil
  have hs : stored n = [] := by
    rw [List.eq_nil_iff_forall_not_mem]
    intro pt hpt
    have := stored_inside T n hI pt hpt
    rw [hV pt.x pt.y] at this
    cases this
  have := scan_vals_perm T a q hq n hI
  rw [hs] at this
  simpa using this

/-- The scan below a node keeps counter and flag together. -/
theorem scan_tree_saturated (a : Axis) (q c : Nat) : ∀ (n : QUADTREE_NODE) (b : ScanBuf),
    Saturated c b → Saturated c (scan_tree a q c n b) := by
  intro n
  induction n with
  | leaf r p0 p1 p2 p3 =>
    intro b h
    simp only [scan_tree]
    split
    · exact h
    · exact scan_leaf_saturated a q c _ b h
  | internal r m nw ne sw se i1 i2 i3 i4 =>
    intro b h
    simp only [scan_tree]
    split
    · exact h
    · cases a with
      | x => exact i2 _ (i4 _ (i1 _ (i3 _ h)))
      | y => exact i1 _ (i3 _ (i2 _ (i4 _ h)))

/-- Two sibling subtrees of which at most one has the query in its range,
scanned one after the other, keep the buffer in order when each of them
does. -/
theorem descending_pair (q c lo : Nat) (A C : QUADTREE_NODE)
    (hA : ∀ b B, Saturated c b → Descending c B b → A.region.se.x < B →
      Descending c (min B A.region.nw.x) (scan_tree .y q c A b))
    (hC : ∀ b B, Saturated c b → Descending c B b → C.region.se.x < B →
      Descending c (min B C.region.nw.x) (scan_tree .y q c C b))
    (hAl : A.region.nw.x = lo) (hCl : C.region.nw.x = lo)
    (hd : (q < A.region.nw.y ∨ q > A.region.se.y) ∨ (q < C.region.nw.y ∨ q > C.region.se.y))
    (b : ScanBuf) (B : Nat) (hs : Saturated c b) (h : Descending c B b)
    (h1 : A.region.se.x < B) (h2 : C.region.se.x < B) :
    Descending c (min B lo) (scan_tree .y q c C (scan_tree .y q c A b)) := by
  rcases hd with hd | hd
  · rw [scan_tree_out .y q c A b hd]
    have := hC b B hs h h2
    rw [hCl] at this
    exact this
  · rw [scan_tree_out .y q c C _ hd]
    have := hA b B hs h h1
    rw [hAl] at this
    exact this

/-- The scan along `y` below a node keeps the buffer in order: when the
values in the buffer are in order and all above the `x`-range of the node,
they are in order after the node has been scanned, and at least the lower
end of that range. -/
theorem scan_tree_descending (T : Nat → Nat → Prop) (q c : Nat) (hq : q ≠ U32 - 1) :
    ∀ n, Inv T n → ∀ (b : ScanBuf) (B : Nat), Saturated c b → Descending c B b →
      n.region.se.x < B → Descending c (min B n.region.nw.x) (scan_tree .y q c n b) := by
  intro n
  induction n with
  | leaf r p0 p1 p2 p3 =>
    intro hI b B hs h hB
    by_cases hr : q < Axis.y.lo r ∨ q > Axis.y.hi r
    · simp only [scan_tree, hr, if_true]
      exact descending_weaken c B _ b (Nat.min_le_left _ _) h
    · simp only [scan_tree, hr, if_false]
      refine scan_leaf_descending .y q c B _ _ b (by simp) (Nat.min_le_left _ _)
        (fun pt hpt hk => ?_) hs h
      have hne : pt ≠ EMPTY := by
        intro he
        rw [he, key_empty] at hk
        exact hq hk.symm
      have hc := (hI.2 pt hpt hne).1
      simp only [QUADTREE_REGION.contains, Bool.and_eq_true, decide_eq_true_eq] at hc
      have hB1 : r.se.x < B := hB
      simp only [Axis.val, QUADTREE_NODE.region]
      omega
  | internal r m nw ne sw se i1 i2 i3 i4 =>
    intro hI b B hs h hB
    by_cases hr : q < Axis.y.lo r ∨ q > Axis.y.hi r
    · simp only [scan_tree, hr, if_true]
      exact descending_weaken c B _ b (Nat.min_le_left _ _) h
    · obtain ⟨_, hN, _, _, hK, h6, h7, h8, h9⟩ := hI
      simp only [scan_tree, hr, if_false]
      have hB1 : r.se.x < B := hB
      obtain ⟨n1, n2, n3, n4, n5⟩ := hN
      by_cases hw : r.nw.x < r.se.x
      · obtain ⟨e1, e2, e3, e4, e5, e6, e7, e8⟩ := hK.1 hw
        have hh : 1 ≤ half r ∧ 2 * half r ≤ r.se.x - r.nw.x + 1 := by
          simp only [half]
          omega
        have hb2 := descending_pair q c (r.nw.x + half r) se ne (i4 h9) (i2 h7)
          (by rw [e7]) (by rw [e3])
          (by rw [e7, e8, e3, e4]; simp only; omega) b B hs h
          (by rw [e8]; simp only; omega) (by rw [e4]; simp only; omega)
        have hs2 := scan_tree_saturated .y q c ne _ (scan_tree_saturated .y q c se b hs)
        have hb4 := descending_pair q c r.nw.x sw nw (i3 h8) (i1 h6)
          (by rw [e5]) (by rw [e1])
          (by rw [e5, e6, e1, e2]; simp only; omega) _ _ hs2 hb2
          (by rw [e6]; simp only; omega) (by rw [e2]; simp only; omega)
        have e : min (min B (r.nw.x + half r)) r.nw.x = min B r.nw.x := by omega
        rw [e] at hb4
        exact hb4
      · obtain ⟨v1, v2, v3, v4⟩ := hK.2 (by omega)
        rw [scan_tree_void T .y q c hq se b h9 v4, scan_tree_void T .y q c hq ne b h7 v2,
          scan_tree_void T .y q c hq sw b h8 v3, scan_tree_void T .y q c hq nw b h6 v1]
        exact descending_weaken c B _ b (Nat.min_le_left _ _) h

/-- The scan along `y` of a tree of a run whose root is subdivided, for a
`y` inside the root's range and started with `*p = 0`: it returns, given
enough fuel, with the buffer `scan_tree` describes; when it reports no
overflow the cells below `*p` are in non-increasing order, and when it
reports overflow the first `c - 2` cells are. -/
theorem scan_y_descending (xmax : Nat) (log : List (Nat × Nat × Bool)) (t : QUADTREE)
    (y c : Nat) (out : Nat → Nat) (hrun : Run xmax log t) (hs : subdivided t.root = true)
    (hy : y ≤ xmax) :
    ∃ k, ∀ fuel, quadtree_scan_y (k + (fuel + 1)) t y out 0 c =
        .ok ⟨t.root, scan_tree .y y c t.root ⟨out, 0, false⟩⟩ ∧
      Descending c 0 (scan_tree .y y c t.root ⟨out, 0, false⟩) := by
  obtain ⟨rg, nw, ne, sw, se, ht, h1, h2, hmax, hI⟩ := run_root xmax log t hrun hs
  have hr : ¬ (y < Axis.y.lo rg ∨ y > Axis.y.hi rg) := in_root_range .y rg xmax y h1 h2 hy
  obtain ⟨k, hk⟩ := scan_loop_root .y y c rg nw ne sw se ⟨out, 0, false⟩
    (inv_at_rest _ _ hI) hr
  refine ⟨k, fun fuel => ⟨?_, ?_⟩⟩
  · simp only [quadtree_scan_y, _quadtree_scan_y, ht]
    exact hk fuel
  · rw [ht]
    have hd := scan_tree_descending (offered log) y c (by omega) _ hI ⟨out, 0, false⟩ (xmax + 1)
      ⟨fun _ => Nat.zero_le _, fun h => by cases h⟩
      ⟨fun _ => ⟨Nat.zero_le _, fun i j _ hj => absurd hj (Nat.not_lt_zero _),
        fun i hi => absurd hi (Nat.not_lt_zero _)⟩, fun h => by cases h⟩
      (by
        show rg.se.x < xmax + 1
        rw [h2]
        exact Nat.lt_succ_self _)
    exact descending_weaken c _ 0 _ (Nat.zero_le _) hd

/-- What an overflowing scan along `y` keeps in order.  Let `t` be a
tree obtained by `quadtree_init(xmax, xmax)` and calls of `quadtree_insert`
(in particular one built by inserting pairwise distinct points that share
one `y`), with its root subdivided, and let the capacity `c` be smaller
than the number of stored points whose `y` is the query.  Then
`quadtree_scan_y`, started with `*p = 0` and given enough fuel, returns 1,
and the first `c - 2` entries of the output buffer are in non-increasing
order: the leaf in which the overflow occurs is not sorted, it has written
at most three entries, and the first of them is below all earlier
entries. -/
theorem scan_y_sorted_prefix (xmax : Nat) (log : List (Nat × Nat × Bool)) (t : QUADTREE)
    (y c : Nat) (out : Nat → Nat) (hrun : Run xmax log t) (hs : subdivided t.root = true)
    (hc : c < ((stored t.root).filter (fun pt => decide (pt.y = y))).length) :
    ∃ k, ∀ fuel, ∃ r, quadtree_scan_y (k + fuel) t y out 0 c = .ok r ∧ r.buf.ret = true ∧
      ∀ i j, i ≤ j → j < c - 2 → r.buf.out j ≤ r.buf.out i := by
  obtain ⟨hI, h1, h2, h3⟩ := run_inv xmax log t hrun
  have hmax := run_subdivided_xmax xmax log t hrun hs
  have hq : ¬ (y < Axis.y.lo t.root.region ∨ y > Axis.y.hi t.root.region) := by
    intro h
    have := stored_out_of_range (offered log) .y y t.root hI h
    simp only [Axis.key] at this
    rw [this] at hc
    simp only [List.length_nil, Nat.not_lt_zero] at hc
  have hym : y ≤ xmax := by
    simp only [Axis.lo, Axis.hi, h2] at hq
    omega
  obtain ⟨k, hk⟩ := scan_y_descending xmax log t y c out hrun hs hym
  refine ⟨k + 1, fun fuel => ?_⟩
  obtain ⟨e, hd⟩ := hk fuel
  refine ⟨_, by rw [show k + 1 + fuel = k + (fuel + 1) by omega]; exact e, ?_⟩
  have hspec := scan_tree_spec .y y c t.root ⟨out, 0, false⟩
  have hperm := scan_vals_perm (offered log) .y y (by omega) t.root hI
  have hlen : (scan_vals .y y t.root).length =
      ((stored t.root).filter (fun pt => decide (pt.y = y))).length := by
    rw [hperm.length_eq, List.length_map]
    rfl
  have hret : (scan_tree .y y c t.root ⟨out, 0, false⟩).ret = true :=
    ((hspec.2 rfl (Nat.zero_le _)).2 (by
      show c < 0 + (scan_vals .y y t.root).length
      omega)).1
  exact ⟨hret, (hd.2 hret).2⟩

unseal U32 in
/-- Witness of `scan_y_sorted_prefix`: the points `(0,13)` to `(4,13)` in
`[0, 63] x [0, 63]`, scanned along `y = 13` with capacity 4. -/
theorem scan_y_sorted_prefix_witness :
    ∃ t log, build 8 63 [(4, 13), (3, 13), (2, 13), (1, 13), (0, 13)] = .ok (t, log) ∧
      Run 63 log t ∧ subdivided t.root = true ∧
      4 < ((stored t.root).filter (fun pt => decide (pt.y = 13))).length ∧
      ∃ k, ∀ fuel, ∃ r, quadtree_scan_y (k + fuel) t 13 (fun _ => 0) 0 4 = .ok r ∧
        r.buf.ret = true ∧ ∀ i j, i ≤ j → j < 4 - 2 → r.buf.out j ≤ r.buf.out i := by
  refine ⟨_, _, rfl, ?_⟩
  have hr : Run 63 _ _ := (run_of_build 8 63 (by decide)
    [(4, 13), (3, 13), (2, 13), (1, 13), (0, 13)] _ _ (by decide) rfl).1
  exact ⟨hr, rfl, by decide,
    scan_y_sorted_prefix 63 _ _ 13 4 (fun _ => 0) hr rfl (by decide)⟩

unseal U32 in
/-- The bound `c - 2` of `scan_y_sorted_prefix` cannot be raised to
`c - c % 4`.  After `quadtree_init(63, 63)` and the successful
inserts of the pairwise distinct points `(0,13)`, `(1,13)`, `(2,13)`,
`(3,13)`, `(4,13)` the root is subdivided and five stored points have
`y = 13`.  `quadtree_scan_y` with `y = 13`, `*p = 0` and capacity 4 writes
4, 0, 1, 2: the leaf that holds 0 to 3 overflows and is left unsorted.  The
first `4 - 4 mod 4 = 4` entries are not in non-increasing order. -/
theorem scan_y_sorted_prefix_counterexample :
    ∃ t log, build 8 63 [(4, 13), (3, 13), (2, 13), (1, 13), (0, 13)] = .ok (t, log) ∧
      (∀ e ∈ log, e.2.2 = true) ∧ (log.map (fun e => (e.1, e.2.1))).Nodup ∧
      subdivided t.root = true ∧
      ((stored t.root).filter (fun pt => decide (pt.y = 13))).length = 5 ∧
      ∃ r, quadtree_scan_y 60 t 13 (fun _ => 0) 0 4 = .ok r ∧ r.buf.ret = true ∧
        (List.range (4 - 4 % 4)).map r.buf.out = [4, 0, 1, 2] ∧
        ¬ (r.buf.out 2 ≤ r.buf.out 1) := by
  refine ⟨_, _, rfl, by decide, by decide, rfl, rfl, _, rfl, rfl, by decide, by decide⟩

/-! ### The check of the test program -/

/-- A computation that a check on its result accepts has returned, with a
result that satisfies the check. -/
theorem ok_of_check {ε α : Type} (e : Except ε α) (Q : α → Prop) [DecidablePred Q]
    (h : e.toOption.any (fun a => decide (Q a)) = true) : ∃ a, e = .ok a ∧ Q a := by
  cases e with
  | error err => cases h
  | ok a => exact ⟨a, rfl, of_decide_eq_true h⟩

set_option maxRecDepth 100000 in
unseal U32 in
/-- C12 (sorted prefix with an undersized buffer): the code breaks the check
of its own test.  Take for the 64 pairwise distinct numbers of the test
2, 3, ..., 65, in this order.  Then `s = nextpow2(65) = 128`, the tree is
built on `[0, 128] x [0, 128]`, and the 64 inserts of `(2, 13)`, ...,
`(65, 13)` all return 1 and leave the root subdivided, with 64 stored points
on `y = 13`.  On a zeroed buffer `quadtree_scan_y` with `y = 13` and
`*p = 0` returns 0 for capacity 64 and 1 for the capacities 63, 62 and 61,
and `sort_issorted` accepts the buffers of the first three scans.  With
capacity 61 the leaf that holds 4, 5, 6, 7
is reached with 58 entries written; it writes 4, 5, 6 in slot order,
overflows at its fourth slot and is left unsorted, so entries 56 to 60 are
9, 8, 4, 5, 6 and `sort_issorted(scan3, 61)`, which looks at the first
`61 - 61 % 4 = 60` entries, returns 0: the last `assert` of the test
fails. -/
theorem scan_y_prefix_unsorted :
    nextpow2 9 65 = .ok 128 ∧
    ∃ t log, build 9 128 ((List.range 64).map (fun i => (65 - i, 13))) = .ok (t, log) ∧
      (∀ e ∈ log, e.1 ≤ 65 ∧ e.2.1 = 13 ∧ e.2.2 = true) ∧
      (log.map (fun e => e.1)).Nodup ∧ log.length = 64 ∧
      subdivided t.root = true ∧
      ((stored t.root).filter (fun pt => decide (pt.y = 13))).length = 64 ∧
      (∃ r0, quadtree_scan_y 600 t 13 (fun _ => 0) 0 64 = .ok r0 ∧ r0.buf.ret = false ∧
        sort_issorted r0.buf.out 64 = true) ∧
      (∃ r1, quadtree_scan_y 600 t 13 (fun _ => 0) 0 63 = .ok r1 ∧ r1.buf.ret = true ∧
        sort_issorted r1.buf.out 63 = true) ∧
      (∃ r2, quadtree_scan_y 600 t 13 (fun _ => 0) 0 62 = .ok r2 ∧ r2.buf.ret = true ∧
        sort_issorted r2.buf.out 62 = true) ∧
      ∃ r3, quadtree_scan_y 600 t 13 (fun _ => 0) 0 61 = .ok r3 ∧ r3.buf.ret = true ∧
        (List.range 5).map (fun i => r3.buf.out (56 + i)) = [9, 8, 4, 5, 6] ∧
        61 - 61 % 4 = 60 ∧ ¬ (r3.buf.out 59 ≤ r3.buf.out 58) ∧
        sort_issorted r3.buf.out 61 = false := by
  refine ⟨rfl, ?_⟩
  obtain ⟨⟨t, log⟩, hb, h1, h2, h3, h4, hm, h5, h6, h7, h8⟩ := ok_of_check
    (build 9 128 ((List.range 64).map (fun i => (65 - i, 13))))
    (fun v => (∀ e ∈ v.2, e.1 ≤ 65 ∧ e.2.1 = 13 ∧ e.2.2 = true) ∧
      (v.2.map (fun e => e.1)).Nodup ∧ v.2.length = 64 ∧ subdivided v.1.root = true ∧
      ((stored v.1.root).filter (fun pt => decide (pt.y = 13))).length = 64 ∧
      (quadtree_scan_y 600 v.1 13 (fun _ => 0) 0 64).toOption.any (fun r0 =>
        decide (r0.buf.ret = false ∧ sort_issorted r0.buf.out 64 = true)) = true ∧
      (quadtree_scan_y 600 v.1 13 (fun _ => 0) 0 63).toOption.any (fun r1 =>
        decide (r1.buf.ret = true ∧ sort_issorted r1.buf.out 63 = true)) = true ∧
      (quadtree_scan_y 600 v.1 13 (fun _ => 0) 0 62).toOption.any (fun r2 =>
        decide (r2.buf.ret = true ∧ sort_issorted r2.buf.out 62 = true)) = true ∧
      (quadtree_scan_y 600 v.1 13 (fun _ => 0) 0 61).toOption.any (fun r3 =>
        decide (r3.buf.ret = true ∧
          (List.range 5).map (fun i => r3.buf.out (56 + i)) = [9, 8, 4, 5, 6] ∧
          61 - 61 % 4 = 60 ∧ ¬ (r3.buf.out 59 ≤ r3.buf.out 58) ∧
          sort_issorted r3.buf.out 61 = false)) = true)
    (by decide!)
  exact ⟨t, log, hb, h1, h2, h3, h4, hm, ok_of_check _ _ h5, ok_of_check _ _ h6,
    ok_of_check _ _ h7, ok_of_check _ _ h8⟩

/-! ### Insertion does not depend on the fuel -/

/-- The reinsertion loop returns the same with a recursive call that returns
the same wherever the first one returns. -/
theorem subdivide_reinsert_mono
    (ins ins1 : QUADTREE_NODE → Nat → Nat → Bool → Except Fault (QUADTREE_NODE × Bool))
    (h : ∀ n x y sd r, ins n x y sd = .ok r → ins1 n x y sd = .ok r) :
    ∀ (pts : List QUADTREE_POINT) (n : QUADTREE_NODE) (r : QUADTREE_NODE × Bool),
      subdivide_reinsert ins n pts = .ok r → subdivide_reinsert ins1 n pts = .ok r := by
  intro pts
  induction pts with
  | nil =>
    intro n r hr
    simp only [subdivide_reinsert] at hr ⊢
    exact hr
  | cons pt pts ih =>
    intro n r hr
    simp only [subdivide_reinsert] at hr ⊢
    cases e : ins n pt.x pt.y false with
    | error f => rw [e] at hr; cases hr
    | ok v =>
      obtain ⟨n1, b⟩ := v
      rw [e] at hr
      rw [h _ _ _ _ _ e]
      cases b with
      | false => exact hr
      | true => exact ih n1 r hr

/-- `_quadtree_node_subdivide` returns the same with a recursive call that
returns the same wherever the first one returns. -/
theorem subdivide_mono
    (ins ins1 : QUADTREE_NODE → Nat → Nat → Bool → Except Fault (QUADTREE_NODE × Bool))
    (h : ∀ n x y sd r, ins n x y sd = .ok r → ins1 n x y sd = .ok r)
    (n : QUADTREE_NODE) (r : QUADTREE_NODE × Bool)
    (hr : _quadtree_node_subdivide ins n = .ok r) : _quadtree_node_subdivide ins1 n = .ok r := by
  cases n with
  | internal rg m nw ne sw se =>
    simp only [_quadtree_node_subdivide] at hr
    split at hr <;> cases hr
  | leaf rg p0 p1 p2 p3 =>
    simp only [_quadtree_node_subdivide] at hr ⊢
    cases e : subdivide_children rg with
    | error f => rw [e] at hr; cases hr
    | ok v =>
      obtain ⟨nw, ne, sw, se⟩ := v
      rw [e] at hr
      exact subdivide_reinsert_mono ins ins1 h _ _ _ hr

/-- The tail of `_quadtree_insert` returns the same with a recursive call
that returns the same wherever the first one returns. -/
theorem insert_children_mono (ins ins1 : QUADTREE_NODE → Except Fault (QUADTREE_NODE × Bool))
    (h : ∀ c r, ins c = .ok r → ins1 c = .ok r) (n : QUADTREE_NODE)
    (r : QUADTREE_NODE × Bool) (hr : insert_children ins n = .ok r) :
    insert_children ins1 n = .ok r := by
  cases n with
  | leaf rg p0 p1 p2 p3 => simp only [insert_children] at hr; cases hr
  | internal rg m nw ne sw se =>
    simp only [insert_children] at hr ⊢
    cases e1 : ins nw with
    | error f => rw [e1] at hr; cases hr
    | ok v1 =>
      obtain ⟨c1, b1⟩ := v1
      rw [e1] at hr
      rw [h _ _ e1]
      cases b1 with
      | true => exact hr
      | false =>
        simp only at hr ⊢
        cases e2 : ins ne with
        | error f => rw [e2] at hr; cases hr
        | ok v2 =>
          obtain ⟨c2, b2⟩ := v2
          rw [e2] at hr
          rw [h _ _ e2]
          cases b2 with
          | true => exact hr
          | false =>
            simp only at hr ⊢
            cases e3 : ins sw with
            | error f => rw [e3] at hr; cases hr
            | ok v3 =>
              obtain ⟨c3, b3⟩ := v3
              rw [e3] at hr
              rw [h _ _ e3]
              cases b3 with
              | true => exact hr
              | false =>
                simp only at hr ⊢
                cases e4 : ins se with
                | error f => rw [e4] at hr; cases hr
                | ok v4 =>
                  obtain ⟨c4, b4⟩ := v4
                  rw [e4] at hr
                  rw [h _ _ e4]
                  exact hr

/-- A call of `_quadtree_insert` that returns returns the same with one more
unit of fuel. -/
theorem insert_fuel_succ : ∀ (f : Nat) (n : QUADTREE_NODE) (x y : Nat) (sd : Bool)
    (r : QUADTREE_NODE × Bool), _quadtree_insert f n x y sd = .ok r →
    _quadtree_insert (f + 1) n x y sd = .ok r := by
  intro f
  induction f with
  | zero =>
    intro n x y sd r h
    simp only [_quadtree_insert] at h
    cases h
  | succ f ih =>
    intro n x y sd r h
    rw [_quadtree_insert] at h ⊢
    split at h
    · rename_i hc
      simp only [hc, if_true]
      exact h
    · rename_i hc
      simp only [hc, if_false]
      split at h
      · rename_i hl
        simp only [hl, if_true]
        cases e : _quadtree_insert_into_internal n x y with
        | error g => rw [e] at h; cases h
        | ok v =>
          obtain ⟨n1, b⟩ := v
          rw [e] at h
          cases b with
          | true => exact h
          | false =>
            simp only at h ⊢
            cases sd with
            | false =>
              simp only [Bool.false_eq_true, if_false] at h ⊢
              exact insert_children_mono _ _ (fun c r1 hr1 => ih c x y false r1 hr1) _ _ h
            | true =>
              simp only [if_true] at h ⊢
              cases e2 : _quadtree_node_subdivide (_quadtree_insert f) n1 with
              | error g => rw [e2] at h; cases h
              | ok v2 =>
                obtain ⟨n2, b2⟩ := v2
                rw [e2] at h
                rw [subdivide_mono _ _ ih _ _ e2]
                cases b2 with
                | true => exact h
                | false =>
                  simp only at h ⊢
                  exact insert_children_mono _ _ (fun c r1 hr1 => ih c x y true r1 hr1) _ _ h
      · rename_i hl
        simp only [hl, if_false]
        exact insert_children_mono _ _ (fun c r1 hr1 => ih c x y sd r1 hr1) _ _ h

/-- A call of `_quadtree_insert` that returns returns the same with more
fuel. -/
theorem insert_fuel_mono (f d : Nat) (n : QUADTREE_NODE) (x y : Nat) (sd : Bool)
    (r : QUADTREE_NODE × Bool) (h : _quadtree_insert f n x y sd = .ok r) :
    _quadtree_insert (f + d) n x y sd = .ok r := by
  induction d with
  | zero => exact h
  | succ d ih => exact insert_fuel_succ _ n x y sd r ih

/-- Two calls of `_quadtree_insert` on the same arguments that return,
whatever their fuel, return the same. -/
theorem insert_fuel_det (f1 f2 : Nat) (n : QUADTREE_NODE) (x y : Nat) (sd : Bool)
    (r1 r2 : QUADTREE_NODE × Bool) (h1 : _quadtree_insert f1 n x y sd = .ok r1)
    (h2 : _quadtree_insert f2 n x y sd = .ok r2) : r1 = r2 := by
  have e1 := insert_fuel_mono f1 f2 n x y sd r1 h1
  have e2 := insert_fuel_mono f2 f1 n x y sd r2 h2
  rw [Nat.add_comm] at e2
  rw [e1] at e2
  cases e2
  rfl

/-! ### Insertion returns -/

/-- `_quadtree_insert` on a node whose region does not contain the point
returns 0 and leaves the node as it is. -/
theorem insert_not_contains (f : Nat) (n : QUADTREE_NODE) (x y : Nat) (sd : Bool)
    (h : n.region.contains x y = false) : _quadtree_insert (f + 1) n x y sd = .ok (n, false) := by
  rw [_quadtree_insert]
  simp only [_quadtree_node_contains, h, Bool.not_false, if_true]

/-- The tail of `_quadtree_insert` on a node whose children are the
quadrants of its region, of even width: it is decided by the one child that
contains the point.  When the recursive call leaves a child that does not
contain the point as it is, and turns the one that does into a node related
to it by `R` with return value `b`, the tail returns `b` and exactly that
child is replaced. -/
theorem insert_children_route (R : QUADTREE_NODE → QUADTREE_NODE → Bool → Prop)
    (ins : QUADTREE_NODE → Except Fault (QUADTREE_NODE × Bool)) (r : QUADTREE_REGION) (m : Nat)
    (nw ne sw se : QUADTREE_NODE) (x y : Nat) (hN : Normal r)
    (hK : Kids r nw.region ne.region sw.region se.region) (hw : r.nw.x < r.se.x)
    (hev : (r.se.x - r.nw.x + 1) % 2 = 0) (hc : r.contains x y = true)
    (hout : ∀ c, c.region.contains x y = false → ins c = .ok (c, false))
    (hin : ∀ c, c ∈ [nw, ne, sw, se] → c.region.contains x y = true →
      ∃ c1 b, ins c = .ok (c1, b) ∧ R c c1 b) :
    ∃ nw1 ne1 sw1 se1 b,
      insert_children ins (.internal r m nw ne sw se) = .ok (.internal r m nw1 ne1 sw1 se1, b) ∧
      ((R nw nw1 b ∧ ne1 = ne ∧ sw1 = sw ∧ se1 = se ∧ nw.region.contains x y = true) ∨
        (nw1 = nw ∧ R ne ne1 b ∧ sw1 = sw ∧ se1 = se ∧ ne.region.contains x y = true) ∨
        (nw1 = nw ∧ ne1 = ne ∧ R sw sw1 b ∧ se1 = se ∧ sw.region.contains x y = true) ∨
        (nw1 = nw ∧ ne1 = ne ∧ sw1 = sw ∧ R se se1 b ∧ se.region.contains x y = true)) := by
  have hd := kids_disjoint r _ _ _ _ hN hK x y
  rcases kids_cover r _ _ _ _ hN hK hw hev x y hc with h1 | h2 | h3 | h4
  · obtain ⟨c1, b, e, hR⟩ := hin nw (by simp) h1
    obtain ⟨d2, d3, d4⟩ := hd.1 h1
    refine ⟨c1, ne, sw, se, b, ?_, Or.inl ⟨hR, rfl, rfl, rfl, h1⟩⟩
    cases b
    · simp only [insert_children, e, hout ne d2, hout sw d3, hout se d4]
    · simp only [insert_children, e]
  · obtain ⟨c1, b, e, hR⟩ := hin ne (by simp) h2
    obtain ⟨d1, d3, d4⟩ := hd.2.1 h2
    refine ⟨nw, c1, sw, se, b, ?_, Or.inr (Or.inl ⟨rfl, hR, rfl, rfl, h2⟩)⟩
    cases b
    · simp only [insert_children, e, hout nw d1, hout sw d3, hout se d4]
    · simp only [insert_children, e, hout nw d1]
  · obtain ⟨c1, b, e, hR⟩ := hin sw (by simp) h3
    obtain ⟨d1, d2, d4⟩ := hd.2.2.1 h3
    refine ⟨nw, ne, c1, se, b, ?_, Or.inr (Or.inr (Or.inl ⟨rfl, rfl, hR, rfl, h3⟩))⟩
    cases b
    · simp only [insert_children, e, hout nw d1, hout ne d2, hout se d4]
    · simp only [insert_children, e, hout nw d1, hout ne d2]
  · obtain ⟨c1, b, e, hR⟩ := hin se (by simp) h4
    obtain ⟨d1, d2, d3⟩ := hd.2.2.2 h4
    refine ⟨nw, ne, sw, c1, b, ?_, Or.inr (Or.inr (Or.inr ⟨rfl, rfl, rfl, hR, h4⟩))⟩
    cases b
    · simp only [insert_children, e, hout nw d1, hout ne d2, hout sw d3]
    · simp only [insert_children, e, hout nw d1, hout ne d2, hout sw d3]

/-- A leaf with fewer than four slots in use takes a point: the point goes
to the first free slot and the slots in use are the old ones and the
point. -/
theorem into_internal_free (r : QUADTREE_REGION) (p0 p1 p2 p3 : QUADTREE_POINT) (x y : Nat)
    (hlen : (stored (.leaf r p0 p1 p2 p3)).length < 4) (hne : (⟨x, y⟩ : QUADTREE_POINT) ≠ EMPTY) :
    ∃ q0 q1 q2 q3, _quadtree_insert_into_internal (.leaf r p0 p1 p2 p3) x y =
        .ok (.leaf r q0 q1 q2 q3, true) ∧
      (stored (.leaf r q0 q1 q2 q3)).Perm (⟨x, y⟩ :: stored (.leaf r p0 p1 p2 p3)) := by
  by_cases h0 : p0 = EMPTY
  · refine ⟨⟨x, y⟩, p1, p2, p3, by simp [_quadtree_insert_into_internal, h0], ?_⟩
    simp [stored, List.filter_cons, hne, h0]
  · by_cases h1 : p1 = EMPTY
    · refine ⟨p0, ⟨x, y⟩, p2, p3, by simp [_quadtree_insert_into_internal, h0, h1], ?_⟩
      simp only [stored, List.filter_cons, hne, h0, h1, ne_eq, not_false_eq_true, decide_True,
        not_true_eq_false, decide_False, if_true, if_false, Bool.false_eq_true]
      exact List.Perm.swap _ _ _
    · by_cases h2 : p2 = EMPTY
      · refine ⟨p0, p1, ⟨x, y⟩, p3, by simp [_quadtree_insert_into_internal, h0, h1, h2], ?_⟩
        simp only [stored, List.filter_cons, hne, h0, h1, h2, ne_eq, not_false_eq_true,
          decide_True, not_true_eq_false, decide_False, if_true, if_false, Bool.false_eq_true]
        exact (@List.perm_middle _ _ [p0, p1] _).trans (List.Perm.refl _)
      · by_cases h3 : p3 = EMPTY
        · refine ⟨p0, p1, p2, ⟨x, y⟩, by simp [_quadtree_insert_into_internal, h0, h1, h2, h3],
            ?_⟩
          simp only [stored, List.filter_cons, hne, h0, h1, h2, h3, ne_eq, not_false_eq_true,
            decide_True, not_true_eq_false, decide_False, if_true, if_false, Bool.false_eq_true]
          exact (@List.perm_middle _ _ [p0, p1, p2] _).trans (List.Perm.refl _)
        · exfalso
          simp [stored, List.filter_cons, h0, h1, h2, h3] at hlen

/-- A leaf with all four slots in use takes no point. -/
theorem into_internal_full (r : QUADTREE_REGION) (p0 p1 p2 p3 : QUADTREE_POINT) (x y : Nat)
    (h0 : p0 ≠ EMPTY) (h1 : p1 ≠ EMPTY) (h2 : p2 ≠ EMPTY) (h3 : p3 ≠ EMPTY) :
    _quadtree_insert_into_internal (.leaf r p0 p1 p2 p3) x y =
      .ok (.leaf r p0 p1 p2 p3, false) := by
  simp only [_quadtree_insert_into_internal, h0, h1, h2, h3, if_false]

/-- The slots in use of a leaf are all four exactly when none is empty. -/
theorem stored_leaf_full (r : QUADTREE_REGION) (p0 p1 p2 p3 : QUADTREE_POINT)
    (h : ¬ (stored (.leaf r p0 p1 p2 p3)).length < 4) :
    p0 ≠ EMPTY ∧ p1 ≠ EMPTY ∧ p2 ≠ EMPTY ∧ p3 ≠ EMPTY ∧
      stored (.leaf r p0 p1 p2 p3) = [p0, p1, p2, p3] := by
  by_cases a0 : p0 = EMPTY <;> by_cases a1 : p1 = EMPTY <;> by_cases a2 : p2 = EMPTY <;>
    by_cases a3 : p3 = EMPTY <;>
    simp [stored, List.filter_cons, a0, a1, a2, a3] at h ⊢

/-- A region of width `2 ^ (j + 1)` is wider than one cell and of even
width. -/
theorem pow_wide (r : QUADTREE_REGION) (j : Nat) (h : r.se.x - r.nw.x + 1 = 2 ^ (j + 1)) :
    r.nw.x < r.se.x ∧ (r.se.x - r.nw.x + 1) % 2 = 0 ∧ r.se.x - r.nw.x + 1 = 2 * 2 ^ j ∧
      1 ≤ 2 ^ j := by
  have h1 : 2 ^ (j + 1) = 2 * 2 ^ j := by rw [Nat.pow_succ, Nat.mul_comm]
  have h2 : 1 ≤ 2 ^ j := Nat.one_le_two_pow
  omega

/-- The quadrants of a region of width `2 ^ (j + 1)` that does not wrap and
ends below the all-bits-set coordinate do not wrap, end below that
coordinate and have width `2 ^ j`. -/
theorem kids_levelled (r R1 R2 R3 R4 : QUADTREE_REGION) (j : Nat) (hN : Normal r)
    (hK : Kids r R1 R2 R3 R4) (hw : r.se.x - r.nw.x + 1 = 2 ^ (j + 1)) (hU : r.se.x + 1 < U32) :
    (Normal R1 ∧ R1.se.x + 1 < U32 ∧ R1.se.x - R1.nw.x + 1 = 2 ^ j) ∧
      (Normal R2 ∧ R2.se.x + 1 < U32 ∧ R2.se.x - R2.nw.x + 1 = 2 ^ j) ∧
      (Normal R3 ∧ R3.se.x + 1 < U32 ∧ R3.se.x - R3.nw.x + 1 = 2 ^ j) ∧
      (Normal R4 ∧ R4.se.x + 1 < U32 ∧ R4.se.x - R4.nw.x + 1 = 2 ^ j) := by
  obtain ⟨w1, w2, w3, w4⟩ := pow_wide r j hw
  obtain ⟨n1, n2, n3, n4, n5⟩ := hN
  obtain ⟨e1, e2, e3, e4, e5, e6, e7, e8⟩ := hK.1 w1
  have hh : half r = (r.se.x - r.nw.x + 1) / 2 := rfl
  generalize 2 ^ j = P at *
  simp only [Normal, e1, e2, e3, e4, e5, e6, e7, e8]
  omega

/-- The level of a leaf only depends on its region. -/
theorem levelled_leaf (r : QUADTREE_REGION) (p0 p1 p2 p3 q0 q1 q2 q3 : QUADTREE_POINT) (j : Nat)
    (h : Levelled (.leaf r p0 p1 p2 p3) j) : Levelled (.leaf r q0 q1 q2 q3) j := h

/-- A list that grows by one element at the first of four places. -/
theorem perm_grow1 (p : QUADTREE_POINT) (S A B C D : List QUADTREE_POINT)
    (h : S.Perm (p :: A)) : (S ++ B ++ C ++ D).Perm (p :: (A ++ B ++ C ++ D)) := by
  have := ((h.append_right B).append_right C).append_right D
  simpa using this

/-- A list that grows by one element at the second of four places. -/
theorem perm_grow2 (p : QUADTREE_POINT) (S A B C D : List QUADTREE_POINT)
    (h : S.Perm (p :: B)) : (A ++ S ++ C ++ D).Perm (p :: (A ++ B ++ C ++ D)) := by
  have := (((h.append_left A).trans List.perm_middle).append_right C).append_right D
  simpa using this

/-- A list that grows by one element at the third of four places. -/
theorem perm_grow3 (p : QUADTREE_POINT) (S A B C D : List QUADTREE_POINT)
    (h : S.Perm (p :: C)) : (A ++ B ++ S ++ D).Perm (p :: (A ++ B ++ C ++ D)) := by
  have := ((h.append_left (A ++ B)).trans List.perm_middle).append_right D
  simpa using this

/-- A list that grows by one element at the fourth of four places. -/
theorem perm_grow4 (p : QUADTREE_POINT) (S A B C D : List QUADTREE_POINT)
    (h : S.Perm (p :: D)) : (A ++ B ++ C ++ S).Perm (p :: (A ++ B ++ C ++ D)) := by
  have := (h.append_left (A ++ B ++ C)).trans List.perm_middle
  simpa using this

/-- One reinsertion of a subdivision: offered with subdivision disabled to
an internal node whose children are leaves, the quadrants of its region of
even width, with fewer than four points stored below it, a point inside the
region is placed in the child that contains it, and the children stay
leaves. -/
theorem reinsert_one (T : Nat → Nat → Prop) (f j : Nat) (r : QUADTREE_REGION)
    (nw ne sw se : QUADTREE_NODE) (x y : Nat)
    (hI : Inv T (.internal r 0 nw ne sw se)) (hL : Levelled (.internal r 0 nw ne sw se) (j + 1))
    (hk : leaf_children (.internal r 0 nw ne sw se) = true)
    (hlen : (stored (.internal r 0 nw ne sw se)).length < 4)
    (hne : (⟨x, y⟩ : QUADTREE_POINT) ≠ EMPTY) (hc : r.contains x y = true) :
    ∃ nw1 ne1 sw1 se1, _quadtree_insert (f + 2) (.internal r 0 nw ne sw se) x y false =
        .ok (.internal r 0 nw1 ne1 sw1 se1, true) ∧
      leaf_children (.internal r 0 nw1 ne1 sw1 se1) = true ∧
      Levelled (.internal r 0 nw1 ne1 sw1 se1) (j + 1) ∧
      (stored (.internal r 0 nw1 ne1 sw1 se1)).Perm
        (⟨x, y⟩ :: stored (.internal r 0 nw ne sw se)) := by
  obtain ⟨_, hN, _, _, hK, _, _, _, _⟩ := hI
  obtain ⟨_, hw, l1, l2, l3, l4⟩ := hL
  obtain ⟨w1, w2, _, _⟩ := pow_wide r j hw
  simp only [leaf_children, Bool.and_eq_true, Bool.not_eq_true'] at hk
  obtain ⟨⟨⟨k1, k2⟩, k3⟩, k4⟩ := hk
  simp only [stored, List.length_append] at hlen
  have hin : ∀ c, c ∈ [nw, ne, sw, se] → c.region.contains x y = true →
      ∃ c1 b, (fun c => _quadtree_insert (f + 1) c x y false) c = .ok (c1, b) ∧
        (fun c c1 b => b = true ∧ subdivided c1 = false ∧ Levelled c1 j ∧
          (stored c1).Perm (⟨x, y⟩ :: stored c)) c c1 b := by
    intro c hcm hcc
    have hc3 : subdivided c = false ∧ (stored c).length < 4 ∧ Levelled c j := by
      simp only [List.mem_cons, List.mem_singleton, List.not_mem_nil, or_false] at hcm
      rcases hcm with e | e | e | e <;> subst e
      · exact ⟨k1, by omega, l1⟩
      · exact ⟨k2, by omega, l2⟩
      · exact ⟨k3, by omega, l3⟩
      · exact ⟨k4, by omega, l4⟩
    obtain ⟨s1, s2, s3⟩ := hc3
    cases c with
    | internal rc mc a1 a2 a3 a4 => cases s1
    | leaf rc q0 q1 q2 q3 =>
      obtain ⟨t0, t1, t2, t3, e, hp⟩ := into_internal_free rc q0 q1 q2 q3 x y s2 hne
      exact ⟨_, true, insert_leaf_free f rc q0 q1 q2 q3 x y false _ hcc e, rfl, rfl, s3, hp⟩
  obtain ⟨nw1, ne1, sw1, se1, b, e, hd⟩ := insert_children_route
    (fun c c1 b => b = true ∧ subdivided c1 = false ∧ Levelled c1 j ∧
      (stored c1).Perm (⟨x, y⟩ :: stored c))
    (fun c => _quadtree_insert (f + 1) c x y false) r 0 nw ne sw se x y hN hK w1 w2 hc
    (fun c hcc => insert_not_contains f c x y false hcc) hin
  have e2 : _quadtree_insert (f + 2) (.internal r 0 nw ne sw se) x y false =
      .ok (.internal r 0 nw1 ne1 sw1 se1, b) := by
    rw [_quadtree_insert]
    simp only [_quadtree_node_contains, QUADTREE_NODE.region, hc, Bool.not_true,
      Bool.false_eq_true, if_false, _quadtree_node_isleaf, ne_eq, not_true_eq_false,
      decide_False]
    exact e
  refine ⟨nw1, ne1, sw1, se1, ?_⟩
  rcases hd with ⟨⟨hb, g1, g2, g3⟩, rfl, rfl, rfl, _⟩ | ⟨rfl, ⟨hb, g1, g2, g3⟩, rfl, rfl, _⟩ |
    ⟨rfl, rfl, ⟨hb, g1, g2, g3⟩, rfl, _⟩ | ⟨rfl, rfl, rfl, ⟨hb, g1, g2, g3⟩, _⟩
  · subst hb
    exact ⟨e2, by simp [leaf_children, g1, k2, k3, k4], ⟨by omega, hw, g2, l2, l3, l4⟩,
      perm_grow1 _ _ _ _ _ _ g3⟩
  · subst hb
    exact ⟨e2, by simp [leaf_children, g1, k1, k3, k4], ⟨by omega, hw, l1, g2, l3, l4⟩,
      perm_grow2 _ _ _ _ _ _ g3⟩
  · subst hb
    exact ⟨e2, by simp [leaf_children, g1, k1, k2, k4], ⟨by omega, hw, l1, l2, g2, l4⟩,
      perm_grow3 _ _ _ _ _ _ g3⟩
  · subst hb
    exact ⟨e2, by simp [leaf_children, g1, k1, k2, k3], ⟨by omega, hw, l1, l2, l3, g2⟩,
      perm_grow4 _ _ _ _ _ _ g3⟩

/-- A region of width `2 ^ (j + 1)` that ends below the all-bits-set
coordinate is none of the two on which subdivision wraps. -/
theorem pow_not_wraps (r : QUADTREE_REGION) (j : Nat) (hw : r.se.x - r.nw.x + 1 = 2 ^ (j + 1))
    (hU : r.se.x + 1 < U32) : ¬ Wraps r := by
  obtain ⟨w1, _, _, _⟩ := pow_wide r j hw
  intro h
  obtain ⟨a, _, b⟩ := h
  omega

/-- The redistribution of a subdivision.  Let a leaf whose four slots are
all in use have a region of width `2 ^ (j + 1)`.  With fuel for two levels
`_quadtree_node_subdivide` returns 0: the four reinsertions, made with
subdivision disabled, each find a free slot in the child that contains the
point, so that the node ends as an internal node with four leaf children
that store exactly the four points. -/
theorem redistribute (T : Nat → Nat → Prop) (f j : Nat) (r : QUADTREE_REGION)
    (p0 p1 p2 p3 : QUADTREE_POINT) (hI : Inv T (.leaf r p0 p1 p2 p3))
    (hL : Levelled (.leaf r p0 p1 p2 p3) (j + 1))
    (h0 : p0 ≠ EMPTY) (h1 : p1 ≠ EMPTY) (h2 : p2 ≠ EMPTY) (h3 : p3 ≠ EMPTY) :
    ∃ nw ne sw se, _quadtree_node_subdivide (_quadtree_insert (f + 2)) (.leaf r p0 p1 p2 p3) =
        .ok (.internal r 0 nw ne sw se, false) ∧
      leaf_children (.internal r 0 nw ne sw se) = true ∧
      Levelled (.internal r 0 nw ne sw se) (j + 1) ∧
      (stored (.internal r 0 nw ne sw se)).Perm [p0, p1, p2, p3] ∧
      Inv T (.internal r 0 nw ne sw se) := by
  obtain ⟨hN, hU, hw⟩ := hL
  obtain ⟨w1, w2, _, _⟩ := pow_wide r j hw
  have hW : ¬ Wraps r := pow_not_wraps r j hw hU
  obtain ⟨R1, R2, R3, R4, e, hK⟩ := subdivide_children_ok r hN hW
  obtain ⟨c1, c2, c3, c4⟩ := kids_levelled r R1 R2 R3 R4 j hN hK hw hU
  obtain ⟨v1, v2, v3, v4⟩ := kids_normal r R1 R2 R3 R4 hN hK
  have hs0 := hI.2 p0 (by simp) h0
  have hs1 := hI.2 p1 (by simp) h1
  have hs2 := hI.2 p2 (by simp) h2
  have hs3 := hI.2 p3 (by simp) h3
  have i0 : Inv T (.internal r 0 (.leaf R1 EMPTY EMPTY EMPTY EMPTY)
      (.leaf R2 EMPTY EMPTY EMPTY EMPTY) (.leaf R3 EMPTY EMPTY EMPTY EMPTY)
      (.leaf R4 EMPTY EMPTY EMPTY EMPTY)) :=
    ⟨rfl, hN, hW, fun h => by omega, hK, inv_fresh T R1 v1, inv_fresh T R2 v2,
      inv_fresh T R3 v3, inv_fresh T R4 v4⟩
  have l0 : Levelled (.internal r 0 (.leaf R1 EMPTY EMPTY EMPTY EMPTY)
      (.leaf R2 EMPTY EMPTY EMPTY EMPTY) (.leaf R3 EMPTY EMPTY EMPTY EMPTY)
      (.leaf R4 EMPTY EMPTY EMPTY EMPTY)) (j + 1) := ⟨by omega, hw, c1, c2, c3, c4⟩
  have s0 : stored (.internal r 0 (.leaf R1 EMPTY EMPTY EMPTY EMPTY)
      (.leaf R2 EMPTY EMPTY EMPTY EMPTY) (.leaf R3 EMPTY EMPTY EMPTY EMPTY)
      (.leaf R4 EMPTY EMPTY EMPTY EMPTY)) = [] := by
    simp [stored]
  obtain ⟨a1, a2, a3, a4, ea, ka, la, pa⟩ := reinsert_one T f j r _ _ _ _ p0.x p0.y i0 l0
    (by simp [leaf_children, subdivided]) (by rw [s0]; decide) h0 hs0.1
  have ia := (insert_keeps T (f + 2) _ _ _ _ _ _ i0 hs0.2 ea).1
  rw [s0] at pa
  obtain ⟨b1, b2, b3, b4, eb, kb, lb, pb⟩ := reinsert_one T f j r _ _ _ _ p1.x p1.y ia la ka
    (by rw [pa.length_eq]; simp) h1 hs1.1
  have ib := (insert_keeps T (f + 2) _ _ _ _ _ _ ia hs1.2 eb).1
  have pb2 := pb.trans (pa.cons _)
  obtain ⟨d1, d2, d3, d4, ed, kd, ld, pd⟩ := reinsert_one T f j r _ _ _ _ p2.x p2.y ib lb kb
    (by rw [pb2.length_eq]; simp) h2 hs2.1
  have id := (insert_keeps T (f + 2) _ _ _ _ _ _ ib hs2.2 ed).1
  have pd2 := pd.trans (pb2.cons _)
  obtain ⟨g1, g2, g3, g4, eg, kg, lg, pg⟩ := reinsert_one T f j r _ _ _ _ p3.x p3.y id ld kd
    (by rw [pd2.length_eq]; simp) h3 hs3.1
  have ig := (insert_keeps T (f + 2) _ _ _ _ _ _ id hs3.2 eg).1
  have pg2 := pg.trans (pd2.cons _)
  refine ⟨g1, g2, g3, g4, ?_, kg, lg, ?_, ig⟩
  · simp only [_quadtree_node_subdivide, e, subdivide_reinsert, ea, eb, ed, eg]
  · refine pg2.trans ?_
    exact (List.reverse_perm [p0, p1, p2, p3])

/-- The tail of `_quadtree_insert` at an internal node of width
`2 ^ (j + 1)`: when the recursive call places the point in the child that
contains it, the tail returns 1, the node keeps its level and the points
stored below it are the old ones and the point. -/
theorem insert_descend (ins : QUADTREE_NODE → Except Fault (QUADTREE_NODE × Bool)) (j : Nat)
    (r : QUADTREE_REGION) (m : Nat) (nw ne sw se : QUADTREE_NODE) (x y : Nat) (hN : Normal r)
    (hK : Kids r nw.region ne.region sw.region se.region)
    (hL : Levelled (.internal r m nw ne sw se) (j + 1)) (hc : r.contains x y = true)
    (hout : ∀ c, c.region.contains x y = false → ins c = .ok (c, false))
    (hin : ∀ c, c ∈ [nw, ne, sw, se] → c.region.contains x y = true →
      ∃ c1, ins c = .ok (c1, true) ∧ Levelled c1 j ∧ (stored c1).Perm (⟨x, y⟩ :: stored c)) :
    ∃ n1, insert_children ins (.internal r m nw ne sw se) = .ok (n1, true) ∧
      Levelled n1 (j + 1) ∧ (stored n1).Perm (⟨x, y⟩ :: stored (.internal r m nw ne sw se)) := by
  obtain ⟨_, hw, l1, l2, l3, l4⟩ := hL
  obtain ⟨w1, w2, _, _⟩ := pow_wide r j hw
  obtain ⟨nw1, ne1, sw1, se1, b, e, hd⟩ := insert_children_route
    (fun c c1 b => b = true ∧ Levelled c1 j ∧ (stored c1).Perm (⟨x, y⟩ :: stored c))
    ins r m nw ne sw se x y hN hK w1 w2 hc hout
    (fun c hcm hcc => by
      obtain ⟨c1, e1, e2, e3⟩ := hin c hcm hcc
      exact ⟨c1, true, e1, rfl, e2, e3⟩)
  refine ⟨.internal r m nw1 ne1 sw1 se1, ?_⟩
  rcases hd with ⟨⟨hb, g2, g3⟩, rfl, rfl, rfl, _⟩ | ⟨rfl, ⟨hb, g2, g3⟩, rfl, rfl, _⟩ |
    ⟨rfl, rfl, ⟨hb, g2, g3⟩, rfl, _⟩ | ⟨rfl, rfl, rfl, ⟨hb, g2, g3⟩, _⟩
  · subst hb
    exact ⟨e, ⟨by omega, hw, g2, l2, l3, l4⟩, perm_grow1 _ _ _ _ _ _ g3⟩
  · subst hb
    exact ⟨e, ⟨by omega, hw, l1, g2, l3, l4⟩, perm_grow2 _ _ _ _ _ _ g3⟩
  · subst hb
    exact ⟨e, ⟨by omega, hw, l1, l2, g2, l4⟩, perm_grow3 _ _ _ _ _ _ g3⟩
  · subst hb
    exact ⟨e, ⟨by omega, hw, l1, l2, l3, g2⟩, perm_grow4 _ _ _ _ _ _ g3⟩

/-- The copies of a point stored below a child are among those stored below
the parent. -/
theorem count_child (r : QUADTREE_REGION) (m : Nat) (nw ne sw se c : QUADTREE_NODE)
    (p : QUADTREE_POINT) (h : c ∈ [nw, ne, sw, se]) :
    (stored c).count p ≤ (stored (.internal r m nw ne sw se)).count p := by
  simp only [stored, List.count_append]
  simp only [List.mem_cons, List.mem_singleton, List.not_mem_nil, or_false] at h
  rcases h with e | e | e | e <;> subst e <;> omega

/-- A leaf on a single cell whose four slots are in use holds four copies of
the point of that cell. -/
theorem unit_leaf_full (T : Nat → Nat → Prop) (r : QUADTREE_REGION)
    (p0 p1 p2 p3 : QUADTREE_POINT) (x y : Nat) (hI : Inv T (.leaf r p0 p1 p2 p3))
    (hL : Levelled (.leaf r p0 p1 p2 p3) 0) (hc : r.contains x y = true)
    (hf : ¬ (stored (.leaf r p0 p1 p2 p3)).length < 4) :
    stored (.leaf r p0 p1 p2 p3) = [⟨x, y⟩, ⟨x, y⟩, ⟨x, y⟩, ⟨x, y⟩] := by
  obtain ⟨a0, a1, a2, a3, e⟩ := stored_leaf_full r p0 p1 p2 p3 hf
  obtain ⟨⟨n1, n2, n3, n4, n5⟩, _, hw⟩ := hL
  have hcell : ∀ pt : QUADTREE_POINT, r.contains pt.x pt.y = true → pt = ⟨x, y⟩ := by
    intro pt hpt
    simp only [QUADTREE_REGION.contains, Bool.and_eq_true, decide_eq_true_eq] at hpt hc
    have hx : pt.x = x := by omega
    have hy : pt.y = y := by omega
    cases pt
    simp only at hx hy
    rw [hx, hy]
  rw [e, hcell p0 (hI.2 p0 (by simp) a0).1, hcell p1 (hI.2 p1 (by simp) a1).1,
    hcell p2 (hI.2 p2 (by simp) a2).1, hcell p3 (hI.2 p3 (by simp) a3).1]

/-- Insertion returns.  Let a node satisfy the invariant and have a region
of width `2 ^ j`, with no internal node on a single cell below it, and let
`(x, y)` be a point inside that region of which fewer than four copies are
stored below the node.  With fuel `j + 3` or more `_quadtree_insert`, called
with subdivision enabled, returns 1; the node keeps its level, and the
points stored below it are the old ones and `(x, y)`. -/
theorem insert_total (T : Nat → Nat → Prop) : ∀ (j : Nat) (n : QUADTREE_NODE) (x y f : Nat),
    Inv T n → Levelled n j → T x y → n.region.contains x y = true →
    (⟨x, y⟩ : QUADTREE_POINT) ≠ EMPTY → (stored n).count ⟨x, y⟩ < 4 → j + 3 ≤ f →
    ∃ n1, _quadtree_insert f n x y true = .ok (n1, true) ∧ Levelled n1 j ∧
      (stored n1).Perm (⟨x, y⟩ :: stored n) := by
  have hfree : ∀ (j : Nat) (r : QUADTREE_REGION) (p0 p1 p2 p3 : QUADTREE_POINT) (x y f : Nat),
      Levelled (.leaf r p0 p1 p2 p3) j → r.contains x y = true →
      (⟨x, y⟩ : QUADTREE_POINT) ≠ EMPTY → (stored (.leaf r p0 p1 p2 p3)).length < 4 →
      ∃ n1, _quadtree_insert (f + 1) (.leaf r p0 p1 p2 p3) x y true = .ok (n1, true) ∧
        Levelled n1 j ∧ (stored n1).Perm (⟨x, y⟩ :: stored (.leaf r p0 p1 p2 p3)) := by
    intro j r p0 p1 p2 p3 x y f hL hc hne hlen
    obtain ⟨q0, q1, q2, q3, e, hp⟩ := into_internal_free r p0 p1 p2 p3 x y hlen hne
    exact ⟨_, insert_leaf_free f r p0 p1 p2 p3 x y true _ hc e, hL, hp⟩
  intro j
  induction j with
  | zero =>
    intro n x y f hI hL hT hc hne hcnt hf
    cases n with
    | internal r m nw ne sw se => exact absurd rfl hL.1
    | leaf r p0 p1 p2 p3 =>
      obtain ⟨g, rfl⟩ : ∃ g, f = g + 1 := ⟨f - 1, by omega⟩
      by_cases hlen : (stored (.leaf r p0 p1 p2 p3)).length < 4
      · exact hfree 0 r p0 p1 p2 p3 x y g hL hc hne hlen
      · exfalso
        rw [unit_leaf_full T r p0 p1 p2 p3 x y hI hL hc hlen] at hcnt
        simp at hcnt
  | succ j ih =>
    intro n x y f hI hL hT hc hne hcnt hf
    obtain ⟨g, rfl⟩ : ∃ g, f = g + 3 := ⟨f - 3, by omega⟩
    have hkids : ∀ (r : QUADTREE_REGION) (m : Nat) (nw ne sw se : QUADTREE_NODE),
        Inv T (.internal r m nw ne sw se) → Levelled (.internal r m nw ne sw se) (j + 1) →
        r.contains x y = true → (stored (.internal r m nw ne sw se)).count ⟨x, y⟩ < 4 →
        ∃ n1, insert_children (fun c => _quadtree_insert (g + 2) c x y true)
            (.internal r m nw ne sw se) = .ok (n1, true) ∧
          Levelled n1 (j + 1) ∧
          (stored n1).Perm (⟨x, y⟩ :: stored (.internal r m nw ne sw se)) := by
      intro r m nw ne sw se hI2 hL2 hc2 hcnt2
      obtain ⟨_, hN, _, _, hK, i1, i2, i3, i4⟩ := hI2
      refine insert_descend _ j r m nw ne sw se x y hN hK hL2 hc2
        (fun c hcc => insert_not_contains (g + 1) c x y true hcc) (fun c hcm hcc => ?_)
      have hcc2 := count_child r m nw ne sw se c ⟨x, y⟩ hcm
      have hIL : Inv T c ∧ Levelled c j := by
        obtain ⟨_, _, l1, l2, l3, l4⟩ := hL2
        simp only [List.mem_cons, List.mem_singleton, List.not_mem_nil, or_false] at hcm
        rcases hcm with e | e | e | e <;> subst e
        · exact ⟨i1, l1⟩
        · exact ⟨i2, l2⟩
        · exact ⟨i3, l3⟩
        · exact ⟨i4, l4⟩
      exact ih c x y (g + 2) hIL.1 hIL.2 hT hcc hne (by omega) (by omega)
    cases n with
    | internal r m nw ne sw se =>
      have hm : m = 0 := hI.1
      subst hm
      have hc : r.contains x y = true := hc
      obtain ⟨n1, e, hl, hp⟩ := hkids r 0 nw ne sw se hI hL hc hcnt
      refine ⟨n1, ?_, hl, hp⟩
      rw [_quadtree_insert]
      simp only [_quadtree_node_contains, QUADTREE_NODE.region, hc, Bool.not_true,
        Bool.false_eq_true, if_false, _quadtree_node_isleaf, ne_eq, not_true_eq_false,
        decide_False]
      exact e
    | leaf r p0 p1 p2 p3 =>
      have hc : r.contains x y = true := hc
      by_cases hlen : (stored (.leaf r p0 p1 p2 p3)).length < 4
      · exact hfree (j + 1) r p0 p1 p2 p3 x y (g + 2) hL hc hne hlen
      · obtain ⟨a0, a1, a2, a3, es⟩ := stored_leaf_full r p0 p1 p2 p3 hlen
        obtain ⟨nw, ne, sw, se, e, _, hl2, hp2, hi2⟩ :=
          redistribute T g j r p0 p1 p2 p3 hI hL a0 a1 a2 a3
        rw [es] at hcnt
        obtain ⟨n1, e1, hl1, hp1⟩ := hkids r 0 nw ne sw se hi2 hl2 hc (by
          rw [hp2.count_eq]
          exact hcnt)
        refine ⟨n1, ?_, hl1, ?_⟩
        · rw [_quadtree_insert]
          simp only [_quadtree_node_contains, QUADTREE_NODE.region, hc, Bool.not_true,
            Bool.false_eq_true, if_false, _quadtree_node_isleaf, if_true,
            into_internal_full r p0 p1 p2 p3 x y a0 a1 a2 a3, e]
          exact e1
        · rw [es]
          exact hp1.trans (hp2.cons _)

/-! ### Runs in which no point is offered more than four times -/

/-- A power of two up to `2 ^ 31` is below the all-bits-set coordinate. -/
theorem pow_lt_U32 (k : Nat) (hk : k ≤ 31) : 1 ≤ 2 ^ k ∧ 2 ^ k + 1 < U32 := by
  have h1 : 2 ^ k ≤ 2 ^ 31 := Nat.pow_le_pow_right (by decide) hk
  have h2 : (2 : Nat) ^ 31 = 2147483648 := by norm_num
  have h3 : 1 ≤ 2 ^ k := Nat.one_le_two_pow
  rw [U32_eq]
  omega

/-- `quadtree_insert` in terms of `_quadtree_insert` on the root. -/
theorem quadtree_insert_ok (f : Nat) (t t1 : QUADTREE) (x y : Nat) (b : Bool)
    (h : quadtree_insert f t x y = .ok (t1, b)) :
    _quadtree_insert f t.root x y true = .ok (t1.root, b) := by
  unfold quadtree_insert at h
  cases e : _quadtree_insert f t.root x y true with
  | error err => rw [e] at h; cases h
  | ok v =>
    obtain ⟨n1, b1⟩ := v
    rw [e] at h
    cases h
    rfl

/-- The trees of a run on `[0, 2^k - 1] x [0, 2^k - 1]`, `k <= 31`, in which
no point is offered more than four times: the root has level `k`, the
points stored are the offered points that lie inside the root region, and a
call returned 1 exactly when its point lies inside the root region. -/
theorem run_levelled (k : Nat) (hk : k ≤ 31) (log : List (Nat × Nat × Bool)) (t : QUADTREE)
    (hrun : Run (2 ^ k - 1) log t) (hcnt : ∀ p, (log_points log).count p ≤ 4) :
    Levelled t.root k ∧
    (stored t.root).Perm ((log_points log).filter
      (fun p => decide (p.x ≤ 2 ^ k - 1) && decide (p.y ≤ 2 ^ k - 1))) ∧
    ∀ e ∈ log, e.2.2 = (decide (e.1 ≤ 2 ^ k - 1) && decide (e.2.1 ≤ 2 ^ k - 1)) := by
  obtain ⟨hp1, hp2⟩ := pow_lt_U32 k hk
  revert hcnt
  induction hrun with
  | init hmax h0 =>
    intro _
    rw [init_root] at h0
    cases h0
    refine ⟨⟨⟨Nat.zero_le _, Nat.zero_le _, hmax, hmax, rfl⟩, by
      show 2 ^ k - 1 + 1 < U32
      omega, by
      show 2 ^ k - 1 - 0 + 1 = 2 ^ k
      omega⟩, ?_, fun e he => by cases he⟩
    simp [stored, log_points]
  | @insert log t t1 fuel x y b hrun hx hy h ih =>
    intro hcnt
    obtain ⟨n1⟩ := t1
    have hcnt0 : ∀ p, (log_points log).count p ≤ 4 := by
      intro p
      have := hcnt p
      simp only [log_points, List.map_cons, List.count_cons] at this ⊢
      omega
    obtain ⟨hL, hP, hB⟩ := ih hcnt0
    obtain ⟨hI, r1, r2, _⟩ := run_inv _ log t hrun
    have hI1 : Inv (fun _ _ => True) t.root := inv_mono _ _ (fun _ _ _ => trivial) _ hI
    have e := quadtree_insert_ok fuel t _ x y b h
    by_cases hin : x ≤ 2 ^ k - 1 ∧ y ≤ 2 ^ k - 1
    · have hc : t.root.region.contains x y = true := by
        simp only [QUADTREE_REGION.contains, r1, r2, Bool.and_eq_true, decide_eq_true_eq]
        omega
      have hne : (⟨x, y⟩ : QUADTREE_POINT) ≠ EMPTY := ne_empty_of_lt x y (by omega)
      have hc4 : (stored t.root).count ⟨x, y⟩ < 4 := by
        rw [hP.count_eq]
        have h1 := hcnt ⟨x, y⟩
        have h2 := (@List.filter_sublist _
          (fun p : QUADTREE_POINT => decide (p.x ≤ 2 ^ k - 1) && decide (p.y ≤ 2 ^ k - 1))
          (log_points log)).count_le ⟨x, y⟩
        simp only [log_points, List.map_cons, List.count_cons_self] at h1 h2 ⊢
        omega
      obtain ⟨n2, e1, l1, p1⟩ := insert_total (fun _ _ => True) k t.root x y (fuel + (k + 3))
        hI1 hL trivial hc hne hc4 (by omega)
      have e2 := insert_fuel_mono fuel (k + 3) _ _ _ _ _ e
      rw [e1] at e2
      cases e2
      refine ⟨l1, ?_, fun e he => ?_⟩
      · refine p1.trans ?_
        simp only [log_points, List.map_cons, List.filter_cons, hin, decide_True, Bool.and_self,
          if_true]
        exact hP.cons _
      · simp only [List.mem_cons] at he
        rcases he with he | he
        · subst he
          simp only [hin, decide_True, Bool.and_self]
        · exact hB e he
    · have hc : t.root.region.contains x y = false := by
        simp only [QUADTREE_REGION.contains, r1, r2, Bool.and_eq_false_iff,
          decide_eq_false_iff_not]
        omega
      cases fuel with
      | zero => simp only [_quadtree_insert] at e; cases e
      | succ g =>
        rw [insert_not_contains g t.root x y true hc] at e
        cases e
        refine ⟨hL, ?_, fun e he => ?_⟩
        · have hd : (decide (x ≤ 2 ^ k - 1) && decide (y ≤ 2 ^ k - 1)) = false := by
            simp only [Bool.and_eq_false_iff, decide_eq_false_iff_not]
            omega
          simp only [log_points, List.map_cons, List.filter_cons, hd, Bool.false_eq_true, if_false]
          exact hP
        · simp only [List.mem_cons] at he
          rcases he with he | he
          · subst he
            simp only [Bool.false_eq, Bool.and_eq_false_iff, decide_eq_false_iff_not]
            omega
          · exact hB e he

/-- In a tree that satisfies the invariant every slot in use holds a point
inside the region of its leaf. -/
theorem inv_points_inside (T : Nat → Nat → Prop) : ∀ n, Inv T n → points_inside n := by
  intro n
  induction n with
  | leaf r p0 p1 p2 p3 =>
    intro h pt hpt hne
    exact (h.2 pt hpt hne).1
  | internal r m nw ne sw se i1 i2 i3 i4 =>
    intro h
    obtain ⟨_, _, _, _, _, h6, h7, h8, h9⟩ := h
    exact ⟨i1 h6, i2 h7, i3 h8, i4 h9⟩

/-- A tree of level `j` has height at most `j`. -/
theorem levelled_height : ∀ (n : QUADTREE_NODE) (j : Nat), Levelled n j → height n ≤ j := by
  intro n
  induction n with
  | leaf r p0 p1 p2 p3 =>
    intro j _
    exact Nat.zero_le _
  | internal r m nw ne sw se i1 i2 i3 i4 =>
    intro j h
    obtain ⟨h0, _, l1, l2, l3, l4⟩ := h
    have a1 := i1 _ l1
    have a2 := i2 _ l2
    have a3 := i3 _ l3
    have a4 := i4 _ l4
    simp only [height]
    omega

/-- In a tree of some level no internal node is on a single cell. -/
theorem levelled_wide : ∀ (n : QUADTREE_NODE) (j : Nat), Levelled n j → wide_internals n := by
  intro n
  induction n with
  | leaf r p0 p1 p2 p3 =>
    intro j _
    trivial
  | internal r m nw ne sw se i1 i2 i3 i4 =>
    intro j h
    obtain ⟨h0, hw, l1, l2, l3, l4⟩ := h
    obtain ⟨g, rfl⟩ : ∃ g, j = g + 1 := ⟨j - 1, by omega⟩
    exact ⟨(pow_wide r g hw).1, i1 _ l1, i2 _ l2, i3 _ l3, i4 _ l4⟩

/-- C18 (an insert adds exactly one point).  Let `k <= 31`, let `t` be the
tree after `quadtree_init(2^k - 1, 2^k - 1)` and a sequence of
`quadtree_insert` calls, and let `(x, y)` be one more point, such that all
these points lie inside `[0, 2^k - 1] x [0, 2^k - 1]` and none occurs more
than four times among them.  Then (1) every earlier call returned 1 and the
points stored in the leaves of `t` are, as a multiset, the points of those
calls; (2) `quadtree_insert(t, x, y)`, with fuel `k + 3` or more, returns 1
without a fault, the points stored in the leaves afterwards are those stored
before and `(x, y)`, and every stored point lies inside the region of its
leaf; (3) whenever a full leaf of such a tree is subdivided (a leaf of width
at least 2 whose four points lie inside its region), the redistribution
places all four points: `_quadtree_node_subdivide` returns 0, the node has
four leaf children, and they store exactly the four points, so that the
reinsertions, which run with subdivision disabled, never meet a full
leaf. -/
theorem insert_adds_one (k : Nat) (log : List (Nat × Nat × Bool)) (t : QUADTREE)
    (x y fuel : Nat) (hk : k ≤ 31) (hrun : Run (2 ^ k - 1) log t)
    (hin : ∀ e ∈ log, e.1 ≤ 2 ^ k - 1 ∧ e.2.1 ≤ 2 ^ k - 1)
    (hx : x ≤ 2 ^ k - 1) (hy : y ≤ 2 ^ k - 1)
    (hcnt : ∀ p, ((⟨x, y⟩ : QUADTREE_POINT) :: log_points log).count p ≤ 4)
    (hf : k + 3 ≤ fuel) :
    ((∀ e ∈ log, e.2.2 = true) ∧ (stored t.root).Perm (log_points log)) ∧
    (∃ t1, quadtree_insert fuel t x y = .ok (t1, true) ∧
      (stored t1.root).Perm (⟨x, y⟩ :: stored t.root) ∧ points_inside t1.root) ∧
    (∀ (j f : Nat) (r : QUADTREE_REGION) (p0 p1 p2 p3 : QUADTREE_POINT),
      points_inside (.leaf r p0 p1 p2 p3) → Levelled (.leaf r p0 p1 p2 p3) (j + 1) →
      p0 ≠ EMPTY → p1 ≠ EMPTY → p2 ≠ EMPTY → p3 ≠ EMPTY →
      ∃ nw ne sw se,
        _quadtree_node_subdivide (_quadtree_insert (f + 2)) (.leaf r p0 p1 p2 p3) =
          .ok (.internal r 0 nw ne sw se, false) ∧
        leaf_children (.internal r 0 nw ne sw se) = true ∧
        (stored (.internal r 0 nw ne sw se)).Perm [p0, p1, p2, p3]) := by
  obtain ⟨hp1, hp2⟩ := pow_lt_U32 k hk
  have hcnt0 : ∀ p, (log_points log).count p ≤ 4 := by
    intro p
    have := hcnt p
    simp only [List.count_cons] at this
    omega
  obtain ⟨hL, hP, hB⟩ := run_levelled k hk log t hrun hcnt0
  obtain ⟨hI, r1, r2, _⟩ := run_inv _ log t hrun
  have hI1 : Inv (fun _ _ => True) t.root := inv_mono _ _ (fun _ _ _ => trivial) _ hI
  have hall : (log_points log).filter
      (fun p => decide (p.x ≤ 2 ^ k - 1) && decide (p.y ≤ 2 ^ k - 1)) = log_points log := by
    rw [List.filter_eq_self]
    intro p hp
    simp only [log_points, List.mem_map] at hp
    obtain ⟨e, he, rfl⟩ := hp
    simp only [hin e he, decide_True, Bool.and_self]
  rw [hall] at hP
  refine ⟨⟨fun e he => ?_, hP⟩, ?_, fun j f r p0 p1 p2 p3 hpi hl h0 h1 h2 h3 => ?_⟩
  · rw [hB e he]
    simp only [hin e he, decide_True, Bool.and_self]
  · have hc : t.root.region.contains x y = true := by
      simp only [QUADTREE_REGION.contains, r1, r2, Bool.and_eq_true, decide_eq_true_eq]
      omega
    have hne : (⟨x, y⟩ : QUADTREE_POINT) ≠ EMPTY := ne_empty_of_lt x y (by omega)
    have hc4 : (stored t.root).count ⟨x, y⟩ < 4 := by
      rw [hP.count_eq]
      have h1 := hcnt ⟨x, y⟩
      simp only [List.count_cons_self] at h1
      omega
    obtain ⟨n1, e1, l1, p1⟩ := insert_total (fun _ _ => True) k t.root x y fuel
      hI1 hL trivial hc hne hc4 hf
    have hI2 := (insert_keeps (fun _ _ => True) fuel _ _ _ _ _ _ hI1 trivial e1).1
    refine ⟨⟨n1⟩, ?_, p1, inv_points_inside _ _ hI2⟩
    simp only [quadtree_insert, e1]
  · have hi : Inv (fun _ _ => True) (.leaf r p0 p1 p2 p3) :=
      ⟨Or.inl hl.1, fun pt hpt hne => ⟨hpi pt hpt hne, trivial⟩⟩
    obtain ⟨nw, ne, sw, se, e, hk2, _, hp, _⟩ :=
      redistribute (fun _ _ => True) f j r p0 p1 p2 p3 hi hl h0 h1 h2 h3
    exact ⟨nw, ne, sw, se, e, hk2, hp⟩

/-- C14, amended (bounded depth).  Let `k <= 31`, let `t` be the tree after
`quadtree_init(2^k - 1, 2^k - 1)` and a sequence of `quadtree_insert` calls,
and let `(x, y)` be the point of one more call, such that no point occurs
more than four times among the points of all these calls.  Then `t` has
height at most `k` and none of its internal nodes is on a single cell; the
call `quadtree_insert(t, x, y)` returns with fuel `k + 3`, that is, with no
more than `k + 3` nested calls of `_quadtree_insert`; and the tree it leaves
has height at most `k` and no internal node on a single cell. -/
theorem bounded_depth (k : Nat) (log : List (Nat × Nat × Bool)) (t : QUADTREE)
    (x y fuel : Nat) (hk : k ≤ 31) (hrun : Run (2 ^ k - 1) log t)
    (hx : x < U32) (hy : y < U32)
    (hcnt : ∀ p, ((⟨x, y⟩ : QUADTREE_POINT) :: log_points log).count p ≤ 4)
    (hf : k + 3 ≤ fuel) :
    height t.root ≤ k ∧ wide_internals t.root ∧
    ∃ t1 b, quadtree_insert fuel t x y = .ok (t1, b) ∧ height t1.root ≤ k ∧
      wide_internals t1.root := by
  obtain ⟨hp1, hp2⟩ := pow_lt_U32 k hk
  have hcnt0 : ∀ p, (log_points log).count p ≤ 4 := by
    intro p
    have := hcnt p
    simp only [List.count_cons] at this
    omega
  obtain ⟨hL, hP, hB⟩ := run_levelled k hk log t hrun hcnt0
  obtain ⟨hI, r1, r2, _⟩ := run_inv _ log t hrun
  have hI1 : Inv (fun _ _ => True) t.root := inv_mono _ _ (fun _ _ _ => trivial) _ hI
  refine ⟨levelled_height _ _ hL, levelled_wide _ _ hL, ?_⟩
  have hex : ∃ t1 b, quadtree_insert fuel t x y = .ok (t1, b) := by
    by_cases hin : x ≤ 2 ^ k - 1 ∧ y ≤ 2 ^ k - 1
    · have hc : t.root.region.contains x y = true := by
        simp only [QUADTREE_REGION.contains, r1, r2, Bool.and_eq_true, decide_eq_true_eq]
        omega
      have hne : (⟨x, y⟩ : QUADTREE_POINT) ≠ EMPTY := ne_empty_of_lt x y (by omega)
      have hc4 : (stored t.root).count ⟨x, y⟩ < 4 := by
        rw [hP.count_eq]
        have h1 := hcnt ⟨x, y⟩
        have h2 := (@List.filter_sublist _
          (fun p : QUADTREE_POINT => decide (p.x ≤ 2 ^ k - 1) && decide (p.y ≤ 2 ^ k - 1))
          (log_points log)).count_le ⟨x, y⟩
        simp only [List.count_cons_self] at h1
        omega
      obtain ⟨n1, e1, _, _⟩ := insert_total (fun _ _ => True) k t.root x y fuel
        hI1 hL trivial hc hne hc4 hf
      exact ⟨⟨n1⟩, true, by simp only [quadtree_insert, e1]⟩
    · have hc : t.root.region.contains x y = false := by
        simp only [QUADTREE_REGION.contains, r1, r2, Bool.and_eq_false_iff,
          decide_eq_false_iff_not]
        omega
      obtain ⟨g, rfl⟩ : ∃ g, fuel = g + 1 := ⟨fuel - 1, by omega⟩
      exact ⟨t, false, by simp only [quadtree_insert, insert_not_contains g t.root x y true hc]⟩
  obtain ⟨t1, b, e⟩ := hex
  have hrun1 : Run (2 ^ k - 1) ((x, y, b) :: log) t1 := Run.insert hrun hx hy e
  obtain ⟨hL1, _, _⟩ := run_levelled k hk _ t1 hrun1 hcnt
  exact ⟨t1, b, e, levelled_height _ _ hL1, levelled_wide _ _ hL1⟩

/-- Up to four copies of a point in a fresh tree: each call of
`quadtree_insert` returns 1 and fills the next slot of the root leaf. -/
theorem build_copies (xmax x y fuel : Nat) (hx : x ≤ xmax) (hy : y ≤ xmax)
    (hne : (⟨x, y⟩ : QUADTREE_POINT) ≠ EMPTY) :
    build (fuel + 1) xmax [] = .ok (⟨.leaf (root_region xmax) EMPTY EMPTY EMPTY EMPTY⟩, []) ∧
    build (fuel + 1) xmax (List.replicate 1 (x, y)) =
      .ok (⟨.leaf (root_region xmax) ⟨x, y⟩ EMPTY EMPTY EMPTY⟩, List.replicate 1 (x, y, true)) ∧
    build (fuel + 1) xmax (List.replicate 2 (x, y)) =
      .ok (⟨.leaf (root_region xmax) ⟨x, y⟩ ⟨x, y⟩ EMPTY EMPTY⟩, List.replicate 2 (x, y, true)) ∧
    build (fuel + 1) xmax (List.replicate 3 (x, y)) =
      .ok (⟨.leaf (root_region xmax) ⟨x, y⟩ ⟨x, y⟩ ⟨x, y⟩ EMPTY⟩, List.replicate 3 (x, y, true)) ∧
    build (fuel + 1) xmax (List.replicate 4 (x, y)) =
      .ok (⟨.leaf (root_region xmax) ⟨x, y⟩ ⟨x, y⟩ ⟨x, y⟩ ⟨x, y⟩⟩,
        List.replicate 4 (x, y, true)) := by
  have hc : (root_region xmax).contains x y = true := by
    simp [QUADTREE_REGION.contains, root_region, hx, hy]
  have b0 : build (fuel + 1) xmax [] =
      .ok (⟨.leaf (root_region xmax) EMPTY EMPTY EMPTY EMPTY⟩, []) := by
    simp only [build, List.foldr_nil, build_init, init_root, root_region]
  have b1 := build_cons (fuel + 1) xmax [] (x, y) _ _ _ true b0
    (insert_root_free fuel _ _ _ _ _ x y (.leaf (root_region xmax) ⟨x, y⟩ EMPTY EMPTY EMPTY) hc
      (by simp [_quadtree_insert_into_internal]))
  have b2 := build_cons (fuel + 1) xmax _ (x, y) _ _ _ true b1
    (insert_root_free fuel _ _ _ _ _ x y (.leaf (root_region xmax) ⟨x, y⟩ ⟨x, y⟩ EMPTY EMPTY) hc
      (by simp [_quadtree_insert_into_internal, hne]))
  have b3 := build_cons (fuel + 1) xmax _ (x, y) _ _ _ true b2
    (insert_root_free fuel _ _ _ _ _ x y (.leaf (root_region xmax) ⟨x, y⟩ ⟨x, y⟩ ⟨x, y⟩ EMPTY) hc
      (by simp [_quadtree_insert_into_internal, hne]))
  have b4 := build_cons (fuel + 1) xmax _ (x, y) _ _ _ true b3
    (insert_root_free fuel _ _ _ _ _ x y (.leaf (root_region xmax) ⟨x, y⟩ ⟨x, y⟩ ⟨x, y⟩ ⟨x, y⟩)
      hc (by simp [_quadtree_insert_into_internal, hne]))
  exact ⟨b0, b1, b2, b3, b4⟩

/-- A call of `quadtree_insert` that runs out of fuel ends an executable
run. -/
theorem build_cons_error (fuel xmax : Nat) (ps : List (Nat × Nat)) (p : Nat × Nat)
    (t : QUADTREE) (log : List (Nat × Nat × Bool)) (err : Fault)
    (h : build fuel xmax ps = .ok (t, log))
    (hi : _quadtree_insert fuel t.root p.1 p.2 true = .error err) :
    build fuel xmax (p :: ps) = .error err := by
  unfold build at h ⊢
  rw [List.foldr_cons, h]
  simp only [build_step, quadtree_insert, hi]

unseal U32 in
/-- C14 as stated fails.  (1) On `quadtree_init(1, 1)`, that is `k = 1`,
five inserts of `(1, 1)` leave a tree of height 2: the fifth call subdivides
the root and then the full `se` child, a node of width 1.  (2) On
`quadtree_init(0, 0)`, `k = 0`, the fifth insert of `(0, 0)` does not
return: the children of the subdivided single cell at the origin wrap
around to the whole coordinate space, and the recursion goes on whatever
the fuel. -/
theorem bounded_depth_counterexample :
    (∃ t log, build 8 (2 ^ 1 - 1) [(1, 1), (1, 1), (1, 1), (1, 1), (1, 1)] = .ok (t, log) ∧
      height t.root = 2 ∧ ¬ (height t.root ≤ 1) ∧ unit_split 1 1 t.root = true) ∧
    (∀ fuel, build fuel (2 ^ 0 - 1) [(0, 0), (0, 0), (0, 0), (0, 0), (0, 0)] = .error .fuel) := by
  refine ⟨⟨_, _, rfl, rfl, by decide, rfl⟩, fun fuel => ?_⟩
  cases fuel with
  | zero => rfl
  | succ g =>
    have hne : (⟨0, 0⟩ : QUADTREE_POINT) ≠ EMPTY := by decide
    obtain ⟨_, _, _, _, b4⟩ := build_copies 0 0 0 g (Nat.le_refl _) (Nat.le_refl _) hne
    refine build_cons_error (g + 1) 0 _ (0, 0) _ _ .fuel b4 ?_
    exact insert_wrap_diverges (g + 1) (root_region 0) _ _ _ _ 0 0 (by unfold Normal; decide)
      (by unfold Wraps; decide)
      (by
        intro pt hpt
        simp only [List.mem_cons, List.mem_singleton, List.not_mem_nil, or_false, or_self] at hpt
        subst hpt
        exact ⟨hne, by decide⟩)
      (by decide)

/-- No point occurs more than four times in a list of pairwise distinct
points. -/
theorem count_le_four_of_nodup (l : List QUADTREE_POINT) (h : l.Nodup) (p : QUADTREE_POINT) :
    l.count p ≤ 4 :=
  Nat.le_trans (List.nodup_iff_count_le_one.1 h p) (by decide)

unseal U32 in
/-- Witness of `insert_adds_one`: the point `(2, 2)` offered to the tree on
`[0, 3] x [0, 3]` that holds `(0,0)`, `(1,0)`, `(0,1)`, `(1,1)`, `(3,0)`. -/
theorem insert_adds_one_witness :
    ∃ t log, build 5 3 [(3, 0), (1, 1), (0, 1), (1, 0), (0, 0)] = .ok (t, log) ∧
      2 ≤ 31 ∧ Run (2 ^ 2 - 1) log t ∧ (∀ e ∈ log, e.1 ≤ 2 ^ 2 - 1 ∧ e.2.1 ≤ 2 ^ 2 - 1) ∧
      2 ≤ 2 ^ 2 - 1 ∧ 2 ≤ 2 ^ 2 - 1 ∧
      (∀ p, ((⟨2, 2⟩ : QUADTREE_POINT) :: log_points log).count p ≤ 4) ∧ 2 + 3 ≤ 5 ∧
      ((∀ e ∈ log, e.2.2 = true) ∧ (stored t.root).Perm (log_points log)) ∧
      (∃ t1, quadtree_insert 5 t 2 2 = .ok (t1, true) ∧
        (stored t1.root).Perm (⟨2, 2⟩ :: stored t.root) ∧ points_inside t1.root) ∧
      (∀ (j f : Nat) (r : QUADTREE_REGION) (p0 p1 p2 p3 : QUADTREE_POINT),
        points_inside (.leaf r p0 p1 p2 p3) → Levelled (.leaf r p0 p1 p2 p3) (j + 1) →
        p0 ≠ EMPTY → p1 ≠ EMPTY → p2 ≠ EMPTY → p3 ≠ EMPTY →
        ∃ nw ne sw se,
          _quadtree_node_subdivide (_quadtree_insert (f + 2)) (.leaf r p0 p1 p2 p3) =
            .ok (.internal r 0 nw ne sw se, false) ∧
          leaf_children (.internal r 0 nw ne sw se) = true ∧
          (stored (.internal r 0 nw ne sw se)).Perm [p0, p1, p2, p3]) := by
  refine ⟨_, _, rfl, ?_⟩
  have hr : Run 3 _ _ := (run_of_build 5 3 (by decide)
    [(3, 0), (1, 1), (0, 1), (1, 0), (0, 0)] _ _ (by decide) rfl).1
  have hc := count_le_four_of_nodup
    [⟨2, 2⟩, ⟨3, 0⟩, ⟨1, 1⟩, ⟨0, 1⟩, ⟨1, 0⟩, ⟨0, 0⟩] (by decide)
  exact ⟨by decide, hr, by decide, by decide, by decide, hc, by decide,
    insert_adds_one 2 _ _ 2 2 5 (by decide) hr (by decide) (by decide) (by decide) hc
      (by decide)⟩

unseal U32 in
/-- Witness of `bounded_depth`: the point `(2, 2)` offered to the tree on
`[0, 3] x [0, 3]` that holds `(0,0)`, `(1,0)`, `(0,1)`, `(1,1)`, `(3,0)`. -/
theorem bounded_depth_witness :
    ∃ t log, build 5 3 [(3, 0), (1, 1), (0, 1), (1, 0), (0, 0)] = .ok (t, log) ∧
      2 ≤ 31 ∧ Run (2 ^ 2 - 1) log t ∧ 2 < U32 ∧ 2 < U32 ∧
      (∀ p, ((⟨2, 2⟩ : QUADTREE_POINT) :: log_points log).count p ≤ 4) ∧ 2 + 3 ≤ 5 ∧
      height t.root ≤ 2 ∧ wide_internals t.root ∧
      ∃ t1 b, quadtree_insert 5 t 2 2 = .ok (t1, b) ∧ height t1.root ≤ 2 ∧
        wide_internals t1.root := by
  refine ⟨_, _, rfl, ?_⟩
  have hr : Run 3 _ _ := (run_of_build 5 3 (by decide)
    [(3, 0), (1, 1), (0, 1), (1, 0), (0, 0)] _ _ (by decide) rfl).1
  have hc := count_le_four_of_nodup
    [⟨2, 2⟩, ⟨3, 0⟩, ⟨1, 1⟩, ⟨0, 1⟩, ⟨1, 0⟩, ⟨0, 0⟩] (by decide)
  exact ⟨by decide, hr, by decide, by decide, hc, by decide,
    bounded_depth 2 _ _ 2 2 5 (by decide) hr (by decide) (by decide) hc (by decide)⟩

/-! ### Subdivision of the children of a fresh subdivision -/

/-- `_quadtree_node_init` makes a leaf. -/
theorem node_init_leaf (a b c d : Nat) (n : QUADTREE_NODE)
    (h : _quadtree_node_init a b c d = .ok n) : subdivided n = false := by
  unfold _quadtree_node_init at h
  simp only at h
  split at h
  · cases h
  · cases h
    rfl

/-- The children `_quadtree_node_subdivide` creates are leaves. -/
theorem subdivide_children_leaves (r : QUADTREE_REGION) (nw ne sw se : QUADTREE_NODE)
    (h : subdivide_children r = .ok (nw, ne, sw, se)) :
    subdivided nw = false ∧ subdivided ne = false ∧ subdivided sw = false ∧
      subdivided se = false := by
  unfold subdivide_children at h
  simp only at h
  split at h
  · cases h
  · rename_i c1 e1
    split at h
    · cases h
    · rename_i c2 e2
      split at h
      · cases h
      · rename_i c3 e3
        split at h
        · cases h
        · rename_i c4 e4
          cases h
          exact ⟨node_init_leaf _ _ _ _ _ e1, node_init_leaf _ _ _ _ _ e2,
            node_init_leaf _ _ _ _ _ e3, node_init_leaf _ _ _ _ _ e4⟩

/-- With subdivision disabled `_quadtree_insert` leaves a leaf a leaf. -/
theorem insert_disabled_leaf (f : Nat) (c c1 : QUADTREE_NODE) (x y : Nat) (b : Bool)
    (hc : subdivided c = false) (h : _quadtree_insert f c x y false = .ok (c1, b)) :
    subdivided c1 = false := by
  cases c with
  | internal r m nw ne sw se => cases hc
  | leaf r p0 p1 p2 p3 =>
    cases f with
    | zero => simp only [_quadtree_insert] at h; cases h
    | succ f =>
      rw [_quadtree_insert] at h
      split at h
      · cases h
        rfl
      · simp only [_quadtree_node_isleaf, if_true] at h
        cases e : _quadtree_insert_into_internal (.leaf r p0 p1 p2 p3) x y with
        | error err => rw [e] at h; cases h
        | ok v =>
          obtain ⟨n1, b1⟩ := v
          rw [e] at h
          have hn1 : subdivided n1 = false := by
            unfold _quadtree_insert_into_internal at e
            simp only at e
            repeat' split at e
            all_goals (cases e; rfl)
          cases b1 with
          | true =>
            cases h
            exact hn1
          | false =>
            simp only [Bool.false_eq_true, if_false] at h
            cases n1 with
            | internal r1 m1 a1 a2 a3 a4 => cases hn1
            | leaf r1 q0 q1 q2 q3 => simp only [insert_children] at h; cases h

/-- With subdivision disabled `_quadtree_insert` on an internal node at rest
whose children are leaves leaves them leaves. -/
theorem insert_disabled_leaf_children (f : Nat) (n n1 : QUADTREE_NODE) (x y : Nat) (b : Bool)
    (hn : leaf_children n = true) (h : _quadtree_insert f n x y false = .ok (n1, b)) :
    leaf_children n1 = true := by
  cases n with
  | leaf r p0 p1 p2 p3 => cases hn
  | internal r m nw ne sw se =>
    simp only [leaf_children, Bool.and_eq_true, Bool.not_eq_true'] at hn
    obtain ⟨⟨⟨k1, k2⟩, k3⟩, k4⟩ := hn
    cases f with
    | zero => simp only [_quadtree_insert] at h; cases h
    | succ f =>
      rw [_quadtree_insert] at h
      split at h
      · cases h
        simp [leaf_children, k1, k2, k3, k4]
      · have hk : ∀ (n2 : QUADTREE_NODE) (b2 : Bool),
            insert_children (fun c => _quadtree_insert f c x y false)
              (.internal r m nw ne sw se) = .ok (n2, b2) → leaf_children n2 = true := by
          intro n2 b2 h2
          simp only [insert_children] at h2
          cases e1 : _quadtree_insert f nw x y false with
          | error err => rw [e1] at h2; cases h2
          | ok v1 =>
            obtain ⟨c1, b1⟩ := v1
            have g1 := insert_disabled_leaf f nw c1 x y b1 k1 e1
            rw [e1] at h2
            cases b1 with
            | true =>
              cases h2
              simp [leaf_children, g1, k2, k3, k4]
            | false =>
              simp only at h2
              cases e2 : _quadtree_insert f ne x y false with
              | error err => rw [e2] at h2; cases h2
              | ok v2 =>
                obtain ⟨c2, b2⟩ := v2
                have g2 := insert_disabled_leaf f ne c2 x y b2 k2 e2
                rw [e2] at h2
                cases b2 with
                | true =>
                  cases h2
                  simp [leaf_children, g1, g2, k3, k4]
                | false =>
                  simp only at h2
                  cases e3 : _quadtree_insert f sw x y false with
                  | error err => rw [e3] at h2; cases h2
                  | ok v3 =>
                    obtain ⟨c3, b3⟩ := v3
                    have g3 := insert_disabled_leaf f sw c3 x y b3 k3 e3
                    rw [e3] at h2
                    cases b3 with
                    | true =>
                      cases h2
                      simp [leaf_children, g1, g2, g3, k4]
                    | false =>
                      simp only at h2
                      cases e4 : _quadtree_insert f se x y false with
                      | error err => rw [e4] at h2; cases h2
                      | ok v4 =>
                        obtain ⟨c4, b4⟩ := v4
                        have g4 := insert_disabled_leaf f se c4 x y b4 k4 e4
                        rw [e4] at h2
                        cases b4 <;> cases h2 <;> simp [leaf_children, g1, g2, g3, g4]
        split at h
        · rename_i hl
          cases e : _quadtree_insert_into_internal (.internal r m nw ne sw se) x y with
          | error err => rw [e] at h; cases h
          | ok v =>
            exfalso
            simp only [_quadtree_insert_into_internal] at e
            split at e <;> cases e
        · exact hk n1 b h

/-- The reinsertion loop of a subdivision leaves the children leaves. -/
theorem reinsert_leaf_children (f : Nat) : ∀ (pts : List QUADTREE_POINT)
    (n n1 : QUADTREE_NODE) (b : Bool), leaf_children n = true →
    subdivide_reinsert (_quadtree_insert f) n pts = .ok (n1, b) → leaf_children n1 = true := by
  intro pts
  induction pts with
  | nil =>
    intro n n1 b hn h
    simp only [subdivide_reinsert] at h
    cases h
    exact hn
  | cons pt pts ih =>
    intro n n1 b hn h
    simp only [subdivide_reinsert] at h
    cases e : _quadtree_insert f n pt.x pt.y false with
    | error err => rw [e] at h; cases h
    | ok v =>
      obtain ⟨n2, b2⟩ := v
      have g := insert_disabled_leaf_children f n n2 pt.x pt.y b2 hn e
      rw [e] at h
      cases b2 with
      | false =>
        cases h
        exact g
      | true => exact ih n2 n1 b g h

/-- C15, amended (no re-split during the redistribution).  (1) Let a full
leaf have a region of width `2 ^ (j + 1)` that contains its four points.
With fuel for two levels `_quadtree_node_subdivide` returns 0 and the node
has four leaf children, which store exactly the four points: the
reinsertions, made with subdivision disabled, subdivide nothing, even when
all four points fall into the same child.  (2) Whenever
`_quadtree_node_subdivide` returns, on any node and with any fuel, the node
it leaves has four leaf children.  The placement of the new point that
follows in `_quadtree_insert` keeps subdivision enabled and is not covered:
it may subdivide one of these children within the same insert. -/
theorem redistribution_keeps_leaves (j f : Nat) (r : QUADTREE_REGION)
    (p0 p1 p2 p3 : QUADTREE_POINT) (hpi : points_inside (.leaf r p0 p1 p2 p3))
    (hl : Levelled (.leaf r p0 p1 p2 p3) (j + 1))
    (h0 : p0 ≠ EMPTY) (h1 : p1 ≠ EMPTY) (h2 : p2 ≠ EMPTY) (h3 : p3 ≠ EMPTY) :
    (∃ nw ne sw se,
      _quadtree_node_subdivide (_quadtree_insert (f + 2)) (.leaf r p0 p1 p2 p3) =
        .ok (.internal r 0 nw ne sw se, false) ∧
      leaf_children (.internal r 0 nw ne sw se) = true ∧
      (stored (.internal r 0 nw ne sw se)).Perm [p0, p1, p2, p3]) ∧
    (∀ (g : Nat) (n n1 : QUADTREE_NODE) (b : Bool),
      _quadtree_node_subdivide (_quadtree_insert g) n = .ok (n1, b) →
        leaf_children n1 = true) := by
  constructor
  · have hi : Inv (fun _ _ => True) (.leaf r p0 p1 p2 p3) :=
      ⟨Or.inl hl.1, fun pt hpt hne => ⟨hpi pt hpt hne, trivial⟩⟩
    obtain ⟨nw, ne, sw, se, e, hk2, _, hp, _⟩ :=
      redistribute (fun _ _ => True) f j r p0 p1 p2 p3 hi hl h0 h1 h2 h3
    exact ⟨nw, ne, sw, se, e, hk2, hp⟩
  · intro g n n1 b h
    cases n with
    | internal rg m nw ne sw se =>
      simp only [_quadtree_node_subdivide] at h
      split at h <;> cases h
    | leaf rg q0 q1 q2 q3 =>
      simp only [_quadtree_node_subdivide] at h
      cases e : subdivide_children rg with
      | error err => rw [e] at h; cases h
      | ok v =>
        obtain ⟨nw, ne, sw, se⟩ := v
        rw [e] at h
        obtain ⟨k1, k2, k3, k4⟩ := subdivide_children_leaves rg nw ne sw se e
        exact reinsert_leaf_children g _ _ _ _ (by simp [leaf_children, k1, k2, k3, k4]) h

unseal U32 in
/-- Witness of `redistribution_keeps_leaves`: the leaf on
`[0, 63] x [0, 63]` that holds `(0,0)`, `(1,0)`, `(0,1)`, `(1,1)`, which all
fall into the `nw` child. -/
theorem redistribution_keeps_leaves_witness :
    (points_inside (.leaf (root_region 63) ⟨0, 0⟩ ⟨1, 0⟩ ⟨0, 1⟩ ⟨1, 1⟩) ∧
      Levelled (.leaf (root_region 63) ⟨0, 0⟩ ⟨1, 0⟩ ⟨0, 1⟩ ⟨1, 1⟩) (5 + 1) ∧
      (⟨0, 0⟩ : QUADTREE_POINT) ≠ EMPTY ∧ (⟨1, 0⟩ : QUADTREE_POINT) ≠ EMPTY ∧
      (⟨0, 1⟩ : QUADTREE_POINT) ≠ EMPTY ∧ (⟨1, 1⟩ : QUADTREE_POINT) ≠ EMPTY) ∧
    (∃ nw ne sw se,
      _quadtree_node_subdivide (_quadtree_insert (0 + 2))
          (.leaf (root_region 63) ⟨0, 0⟩ ⟨1, 0⟩ ⟨0, 1⟩ ⟨1, 1⟩) =
        .ok (.internal (root_region 63) 0 nw ne sw se, false) ∧
      leaf_children (.internal (root_region 63) 0 nw ne sw se) = true ∧
      (stored (.internal (root_region 63) 0 nw ne sw se)).Perm
        [⟨0, 0⟩, ⟨1, 0⟩, ⟨0, 1⟩, ⟨1, 1⟩]) ∧
    (∀ (g : Nat) (n n1 : QUADTREE_NODE) (b : Bool),
      _quadtree_node_subdivide (_quadtree_insert g) n = .ok (n1, b) →
        leaf_children n1 = true) := by
  have hp : points_inside (.leaf (root_region 63) ⟨0, 0⟩ ⟨1, 0⟩ ⟨0, 1⟩ ⟨1, 1⟩) := by
    intro pt hpt _
    simp only [List.mem_cons, List.mem_singleton, List.not_mem_nil, or_false] at hpt
    rcases hpt with e | e | e | e <;> subst e <;> decide
  have hl : Levelled (.leaf (root_region 63) ⟨0, 0⟩ ⟨1, 0⟩ ⟨0, 1⟩ ⟨1, 1⟩) (5 + 1) := by
    unfold Levelled Normal
    decide
  exact ⟨⟨hp, hl, by decide, by decide, by decide, by decide⟩,
    redistribution_keeps_leaves 5 0 (root_region 63) _ _ _ _ hp hl (by decide) (by decide)
      (by decide) (by decide)⟩

unseal U32 in
/-- C15 as stated fails.  After `quadtree_init(63, 63)` and the inserts of
`(0,0)`, `(1,0)`, `(0,1)`, `(1,1)` the root is a full leaf.  The insert of
`(2, 2)` returns 1; it subdivides the root, whose four points all fall into
the `nw` child, and then, still within the same call, offers `(2, 2)` to
that full child with subdivision enabled: when the call returns the `nw`
child of the freshly subdivided root is itself subdivided, and so are its
descendants down to width 4. -/
theorem resplit_counterexample :
    ∃ t log, build 8 63 [(1, 1), (0, 1), (1, 0), (0, 0)] = .ok (t, log) ∧
      subdivided t.root = false ∧
      ∃ t1 r m nw ne sw se, quadtree_insert 8 t 2 2 = .ok (t1, true) ∧
        t1.root = .internal r m nw ne sw se ∧ subdivided nw = true ∧
        leaf_children t1.root = false ∧ height t1.root = 5 := by
  refine ⟨_, _, rfl, rfl, _, _, _, _, _, _, _, rfl, rfl, rfl, rfl, rfl⟩

/-! ### A fifth copy of a point -/

/-- A region that contains no point has its corners out of order. -/
theorem void_empty (r : QUADTREE_REGION) (h : Void r) : r.empty = true := by
  by_contra hne
  simp only [QUADTREE_REGION.empty, Bool.or_eq_true, decide_eq_true_eq, not_or, Nat.not_lt] at hne
  have := h r.nw.x r.nw.y
  simp only [QUADTREE_REGION.contains, Bool.and_eq_false_iff, decide_eq_false_iff_not] at this
  omega

/-- The tail of `_quadtree_insert` when no child takes the point. -/
theorem insert_children_none (ins : QUADTREE_NODE → Except Fault (QUADTREE_NODE × Bool))
    (r : QUADTREE_REGION) (m : Nat) (nw ne sw se : QUADTREE_NODE)
    (h1 : ins nw = .ok (nw, false)) (h2 : ins ne = .ok (ne, false))
    (h3 : ins sw = .ok (sw, false)) (h4 : ins se = .ok (se, false)) :
    insert_children ins (.internal r m nw ne sw se) = .ok (.internal r m nw ne sw se, false) := by
  simp only [insert_children, h1, h2, h3, h4]

/-- A fifth copy offered to a single cell, not at the origin, that holds
four: the cell is subdivided into four children on regions without points,
the first reinsertion finds no child for its point, and the call returns 0
with nothing stored below the node. -/
theorem fifth_copy_unit (f : Nat) (r : QUADTREE_REGION) (x y : Nat)
    (hL : Levelled (.leaf r ⟨x, y⟩ ⟨x, y⟩ ⟨x, y⟩ ⟨x, y⟩) 0) (hc : r.contains x y = true)
    (hne : (⟨x, y⟩ : QUADTREE_POINT) ≠ EMPTY) (h0 : ¬ (x = 0 ∧ y = 0)) :
    ∃ n1, _quadtree_insert (f + 3) (.leaf r ⟨x, y⟩ ⟨x, y⟩ ⟨x, y⟩ ⟨x, y⟩) x y true =
        .ok (n1, false) ∧
      stored n1 = [] ∧ unit_split x y n1 = true ∧ subdivided n1 = true := by
  obtain ⟨hN, hU, hw⟩ := hL
  obtain ⟨n1, n2, n3, n4, n5⟩ := hN
  simp only [QUADTREE_REGION.contains, Bool.and_eq_true, decide_eq_true_eq] at hc
  have ex1 : r.nw.x = x := by omega
  have ey1 : r.nw.y = y := by omega
  have ex2 : r.se.x = x := by omega
  have ey2 : r.se.y = y := by omega
  have hc2 : r.contains x y = true := by
    simp only [QUADTREE_REGION.contains, Bool.and_eq_true, decide_eq_true_eq]
    omega
  have hW : ¬ Wraps r := by
    intro h
    obtain ⟨a, b, _⟩ := h
    omega
  obtain ⟨R1, R2, R3, R4, e, hK⟩ := subdivide_children_ok r ⟨n1, n2, n3, n4, n5⟩ hW
  obtain ⟨v1, v2, v3, v4⟩ := hK.2 (by omega)
  have hre : _quadtree_insert (f + 2) (.internal r 0 (.leaf R1 EMPTY EMPTY EMPTY EMPTY)
      (.leaf R2 EMPTY EMPTY EMPTY EMPTY) (.leaf R3 EMPTY EMPTY EMPTY EMPTY)
      (.leaf R4 EMPTY EMPTY EMPTY EMPTY)) x y false =
      .ok (.internal r 0 (.leaf R1 EMPTY EMPTY EMPTY EMPTY)
        (.leaf R2 EMPTY EMPTY EMPTY EMPTY) (.leaf R3 EMPTY EMPTY EMPTY EMPTY)
        (.leaf R4 EMPTY EMPTY EMPTY EMPTY), false) := by
    rw [_quadtree_insert]
    simp only [_quadtree_node_contains, QUADTREE_NODE.region, hc2, Bool.not_true,
      Bool.false_eq_true, if_false, _quadtree_node_isleaf, ne_eq, not_true_eq_false,
      decide_False]
    exact insert_children_none _ r 0 _ _ _ _
      (insert_not_contains f _ x y false (v1 x y)) (insert_not_contains f _ x y false (v2 x y))
      (insert_not_contains f _ x y false (v3 x y)) (insert_not_contains f _ x y false (v4 x y))
  refine ⟨.internal r 0 (.leaf R1 EMPTY EMPTY EMPTY EMPTY)
    (.leaf R2 EMPTY EMPTY EMPTY EMPTY) (.leaf R3 EMPTY EMPTY EMPTY EMPTY)
    (.leaf R4 EMPTY EMPTY EMPTY EMPTY), ?_, by simp [stored], ?_, rfl⟩
  · rw [_quadtree_insert]
    simp only [_quadtree_node_contains, QUADTREE_NODE.region, hc2, Bool.not_true,
      Bool.false_eq_true, if_false, _quadtree_node_isleaf, if_true,
      into_internal_full r _ _ _ _ x y hne hne hne hne, _quadtree_node_subdivide, e,
      subdivide_reinsert, hre]
  · have er1 : r.nw = ⟨x, y⟩ := by
      cases hr : r.nw
      simp only [hr] at ex1 ey1
      rw [ex1, ey1]
    have er2 : r.se = ⟨x, y⟩ := by
      cases hr : r.se
      simp only [hr] at ex2 ey2
      rw [ex2, ey2]
    simp [unit_split, er1, er2, subdivided, QUADTREE_NODE.region, void_empty R1 v1,
      void_empty R2 v2, void_empty R3 v3, void_empty R4 v4]

/-- A leaf that stores four copies of a point holds it in all four slots. -/
theorem leaf_of_four_copies (c : QUADTREE_NODE) (p : QUADTREE_POINT)
    (hc : subdivided c = false) (h : (stored c).Perm [p, p, p, p]) :
    ∃ rc, c = .leaf rc p p p p := by
  cases c with
  | internal r m nw ne sw se => cases hc
  | leaf rc q0 q1 q2 q3 =>
    have hlen : ¬ (stored (.leaf rc q0 q1 q2 q3)).length < 4 := by
      rw [h.length_eq]
      simp
    obtain ⟨_, _, _, _, e⟩ := stored_leaf_full rc q0 q1 q2 q3 hlen
    rw [e] at h
    have hm : ∀ q ∈ [q0, q1, q2, q3], q = p := by
      intro q hq
      have := h.subset hq
      simpa using this
    rw [hm q0 (by simp), hm q1 (by simp), hm q2 (by simp), hm q3 (by simp)]
    exact ⟨rc, rfl⟩

/-- A subtree whose region does not contain a point stores no copy of it. -/
theorem stored_outside_nil (T : Nat → Nat → Prop) (d : QUADTREE_NODE) (p : QUADTREE_POINT)
    (hI : Inv T d) (hall : ∀ pt ∈ stored d, pt = p) (hc : d.region.contains p.x p.y = false) :
    stored d = [] := by
  rw [List.eq_nil_iff_forall_not_mem]
  intro pt hpt
  have h1 := stored_inside T d hI pt hpt
  rw [hall pt hpt, hc] at h1
  cases h1

/-- A fifth copy of a point offered to a leaf that holds four, on a region
of width `2 ^ j` away from the origin cell: the leaf is subdivided, the four
copies and the new one fall into the same child again and again down to the
single cell of the point, which is subdivided into children without points;
the call returns 0 and nothing is stored below the node any more. -/
theorem fifth_copy : ∀ (j : Nat) (r : QUADTREE_REGION) (x y f : Nat),
    Levelled (.leaf r ⟨x, y⟩ ⟨x, y⟩ ⟨x, y⟩ ⟨x, y⟩) j → r.contains x y = true →
    (⟨x, y⟩ : QUADTREE_POINT) ≠ EMPTY → ¬ (x = 0 ∧ y = 0) → j + 3 ≤ f →
    ∃ n1, _quadtree_insert f (.leaf r ⟨x, y⟩ ⟨x, y⟩ ⟨x, y⟩ ⟨x, y⟩) x y true = .ok (n1, false) ∧
      stored n1 = [] ∧ unit_split x y n1 = true ∧ subdivided n1 = true := by
  intro j
  induction j with
  | zero =>
    intro r x y f hL hc hne h0 hf
    obtain ⟨g, rfl⟩ : ∃ g, f = g + 3 := ⟨f - 3, by omega⟩
    exact fifth_copy_unit g r x y hL hc hne h0
  | succ j ih =>
    intro r x y f hL hc hne h0 hf
    obtain ⟨g, rfl⟩ : ∃ g, f = g + 3 := ⟨f - 3, by omega⟩
    have hi : Inv (fun _ _ => True) (.leaf r ⟨x, y⟩ ⟨x, y⟩ ⟨x, y⟩ ⟨x, y⟩) := by
      refine ⟨Or.inl hL.1, fun pt hpt _ => ?_⟩
      simp only [List.mem_cons, List.mem_singleton, List.not_mem_nil, or_false, or_self] at hpt
      subst hpt
      exact ⟨hc, trivial⟩
    obtain ⟨nw, ne, sw, se, e, hk, hl2, hp, hi2⟩ :=
      redistribute (fun _ _ => True) g j r _ _ _ _ hi hL hne hne hne hne
    have hall : ∀ pt ∈ stored (.internal r 0 nw ne sw se), pt = (⟨x, y⟩ : QUADTREE_POINT) := by
      intro pt hpt
      have := hp.subset hpt
      simpa using this
    obtain ⟨_, hN, _, _, hK, i1, i2, i3, i4⟩ := hi2
    obtain ⟨_, hw, l1, l2, l3, l4⟩ := hl2
    obtain ⟨w1, w2, _, _⟩ := pow_wide r j hw
    simp only [leaf_children, Bool.and_eq_true, Bool.not_eq_true'] at hk
    obtain ⟨⟨⟨k1, k2⟩, k3⟩, k4⟩ := hk
    have hd := kids_disjoint r _ _ _ _ hN hK x y
    simp only [stored, List.mem_append] at hall
    have o1 : nw.region.contains x y = false → stored nw = [] := fun h =>
      stored_outside_nil _ nw ⟨x, y⟩ i1 (fun pt hpt => hall pt (Or.inl (Or.inl (Or.inl hpt)))) h
    have o2 : ne.region.contains x y = false → stored ne = [] := fun h =>
      stored_outside_nil _ ne ⟨x, y⟩ i2 (fun pt hpt => hall pt (Or.inl (Or.inl (Or.inr hpt)))) h
    have o3 : sw.region.contains x y = false → stored sw = [] := fun h =>
      stored_outside_nil _ sw ⟨x, y⟩ i3 (fun pt hpt => hall pt (Or.inl (Or.inr hpt))) h
    have o4 : se.region.contains x y = false → stored se = [] := fun h =>
      stored_outside_nil _ se ⟨x, y⟩ i4 (fun pt hpt => hall pt (Or.inr hpt)) h
    simp only [stored] at hp
    have hin : ∀ c, c ∈ [nw, ne, sw, se] → c.region.contains x y = true →
        ∃ c1 b, (fun c => _quadtree_insert (g + 2) c x y true) c = .ok (c1, b) ∧
          (fun _ c1 b => b = false ∧ stored c1 = [] ∧ unit_split x y c1 = true) c c1 b := by
      intro c hcm hcc
      have hc3 : subdivided c = false ∧ Levelled c j ∧
          (stored c).Perm [⟨x, y⟩, ⟨x, y⟩, ⟨x, y⟩, ⟨x, y⟩] := by
        simp only [List.mem_cons, List.mem_singleton, List.not_mem_nil, or_false] at hcm
        rcases hcm with e | e | e | e <;> subst e
        · obtain ⟨d2, d3, d4⟩ := hd.1 hcc
          rw [o2 d2, o3 d3, o4 d4] at hp
          exact ⟨k1, l1, by simpa using hp⟩
        · obtain ⟨d1, d3, d4⟩ := hd.2.1 hcc
          rw [o1 d1, o3 d3, o4 d4] at hp
          exact ⟨k2, l2, by simpa using hp⟩
        · obtain ⟨d1, d2, d4⟩ := hd.2.2.1 hcc
          rw [o1 d1, o2 d2, o4 d4] at hp
          exact ⟨k3, l3, by simpa using hp⟩
        · obtain ⟨d1, d2, d3⟩ := hd.2.2.2 hcc
          rw [o1 d1, o2 d2, o3 d3] at hp
          exact ⟨k4, l4, by simpa using hp⟩
      obtain ⟨s1, s2, s3⟩ := hc3
      obtain ⟨rc, rfl⟩ := leaf_of_four_copies c ⟨x, y⟩ s1 s3
      obtain ⟨n1, e1, e2, e3, _⟩ := ih rc x y (g + 2) s2 hcc hne h0 (by omega)
      exact ⟨n1, false, e1, rfl, e2, e3⟩
    obtain ⟨nw1, ne1, sw1, se1, b, e2, hr⟩ := insert_children_route
      (fun _ c1 b => b = false ∧ stored c1 = [] ∧ unit_split x y c1 = true)
      (fun c => _quadtree_insert (g + 2) c x y true) r 0 nw ne sw se x y hN hK w1 w2 hc
      (fun c hcc => insert_not_contains (g + 1) c x y true hcc) hin
    have hb : b = false ∧ stored (.internal r 0 nw1 ne1 sw1 se1) = [] ∧
        unit_split x y (.internal r 0 nw1 ne1 sw1 se1) = true := by
      rcases hr with ⟨⟨hb, g2, g3⟩, rfl, rfl, rfl, hcc⟩ | ⟨rfl, ⟨hb, g2, g3⟩, rfl, rfl, hcc⟩ |
        ⟨rfl, rfl, ⟨hb, g2, g3⟩, rfl, hcc⟩ | ⟨rfl, rfl, rfl, ⟨hb, g2, g3⟩, hcc⟩
      · obtain ⟨d2, d3, d4⟩ := hd.1 hcc
        exact ⟨hb, by simp [stored, g2, o2 d2, o3 d3, o4 d4], by simp [unit_split, g3]⟩
      · obtain ⟨d1, d3, d4⟩ := hd.2.1 hcc
        exact ⟨hb, by simp [stored, g2, o1 d1, o3 d3, o4 d4], by simp [unit_split, g3]⟩
      · obtain ⟨d1, d2, d4⟩ := hd.2.2.1 hcc
        exact ⟨hb, by simp [stored, g2, o1 d1, o2 d2, o4 d4], by simp [unit_split, g3]⟩
      · obtain ⟨d1, d2, d3⟩ := hd.2.2.2 hcc
        exact ⟨hb, by simp [stored, g2, o1 d1, o2 d2, o3 d3], by simp [unit_split, g3]⟩
    obtain ⟨hb1, hb2, hb3⟩ := hb
    subst hb1
    refine ⟨.internal r 0 nw1 ne1 sw1 se1, ?_, hb2, hb3, rfl⟩
    rw [_quadtree_insert]
    simp only [_quadtree_node_contains, QUADTREE_NODE.region, hc, Bool.not_true,
      Bool.false_eq_true, if_false, _quadtree_node_isleaf, if_true,
      into_internal_full r _ _ _ _ x y hne hne hne hne, e]
    exact e2

/-- C20 (a fifth copy of a point destroys the earlier four).  Let
`k <= 31` and `(x, y)` a point other than `(0, 0)` inside
`[0, 2^k - 1] x [0, 2^k - 1]` (so `1 <= k`).  Inserting `(x, y)` four times
into the fresh tree of `quadtree_init(2^k - 1, 2^k - 1)` makes all four
calls return 1 and leaves the four copies in the root leaf.  The fifth
call, with fuel `k + 3` or more, returns 0; the tree it leaves is
subdivided, contains an internal node on the single cell `(x, y)` whose four
children are leaves on regions without points, and stores no point at all:
no leaf holds `(x, y)` any more. -/
theorem fifth_copy_destroys (k x y fuel : Nat) (hk : k ≤ 31) (hx : x ≤ 2 ^ k - 1)
    (hy : y ≤ 2 ^ k - 1) (h0 : ¬ (x = 0 ∧ y = 0)) (hf : k + 3 ≤ fuel) :
    ∃ t4 t5, build fuel (2 ^ k - 1) (List.replicate 4 (x, y)) =
        .ok (t4, List.replicate 4 (x, y, true)) ∧
      stored t4.root = [⟨x, y⟩, ⟨x, y⟩, ⟨x, y⟩, ⟨x, y⟩] ∧ subdivided t4.root = false ∧
      quadtree_insert fuel t4 x y = .ok (t5, false) ∧
      build fuel (2 ^ k - 1) (List.replicate 5 (x, y)) =
        .ok (t5, (x, y, false) :: List.replicate 4 (x, y, true)) ∧
      subdivided t5.root = true ∧ unit_split x y t5.root = true ∧ stored t5.root = [] := by
  obtain ⟨hp1, hp2⟩ := pow_lt_U32 k hk
  obtain ⟨g, rfl⟩ : ∃ g, fuel = g + 1 := ⟨fuel - 1, by omega⟩
  have hne : (⟨x, y⟩ : QUADTREE_POINT) ≠ EMPTY := ne_empty_of_lt x y (by omega)
  obtain ⟨_, _, _, _, b4⟩ := build_copies (2 ^ k - 1) x y g hx hy hne
  have hL : Levelled (.leaf (root_region (2 ^ k - 1)) ⟨x, y⟩ ⟨x, y⟩ ⟨x, y⟩ ⟨x, y⟩) k := by
    refine ⟨⟨Nat.zero_le _, Nat.zero_le _, ?_, ?_, rfl⟩, ?_, ?_⟩
    · show 2 ^ k - 1 < U32
      omega
    · show 2 ^ k - 1 < U32
      omega
    · show 2 ^ k - 1 + 1 < U32
      omega
    · show 2 ^ k - 1 - 0 + 1 = 2 ^ k
      omega
  have hc : (root_region (2 ^ k - 1)).contains x y = true := by
    simp [QUADTREE_REGION.contains, root_region, hx, hy]
  obtain ⟨n1, e1, s1, u1, d1⟩ := fifth_copy k (root_region (2 ^ k - 1)) x y (g + 1) hL hc hne h0 hf
  have e2 : quadtree_insert (g + 1)
      ⟨.leaf (root_region (2 ^ k - 1)) ⟨x, y⟩ ⟨x, y⟩ ⟨x, y⟩ ⟨x, y⟩⟩ x y = .ok (⟨n1⟩, false) := by
    simp only [quadtree_insert, e1]
  refine ⟨_, ⟨n1⟩, b4, ?_, rfl, e2, build_cons (g + 1) _ _ (x, y) _ _ _ false b4 e2, d1, u1, s1⟩
  simp [stored, List.filter_cons, hne]

unseal U32 in
/-- Witness of `fifth_copy_destroys`: five inserts of `(2, 1)` into the
fresh tree on `[0, 3] x [0, 3]`. -/
theorem fifth_copy_destroys_witness :
    (2 ≤ 31 ∧ 2 ≤ 2 ^ 2 - 1 ∧ 1 ≤ 2 ^ 2 - 1 ∧ ¬ (2 = 0 ∧ 1 = 0) ∧ 2 + 3 ≤ 5) ∧
    ∃ t4 t5, build 5 (2 ^ 2 - 1) (List.replicate 4 (2, 1)) =
        .ok (t4, List.replicate 4 (2, 1, true)) ∧
      stored t4.root = [⟨2, 1⟩, ⟨2, 1⟩, ⟨2, 1⟩, ⟨2, 1⟩] ∧ subdivided t4.root = false ∧
      quadtree_insert 5 t4 2 1 = .ok (t5, false) ∧
      build 5 (2 ^ 2 - 1) (List.replicate 5 (2, 1)) =
        .ok (t5, (2, 1, false) :: List.replicate 4 (2, 1, true)) ∧
      subdivided t5.root = true ∧ unit_split 2 1 t5.root = true ∧ stored t5.root = [] :=
  ⟨by decide, fifth_copy_destroys 2 2 1 5 (by decide) (by decide) (by decide) (by decide)
    (by decide)⟩

/-! ### Scans leave the tree as it was -/

/-- A piece of a scan that does nothing, compared in two runs that agree on
counter and flag. -/
theorem alike_refl (c : Nat) (b b2 : ScanBuf) (hp : b.p = b2.p) (hr : b.ret = b2.ret) :
    Alike c b b b2 b2 :=
  ⟨hp, hr, Nat.le_refl _, fun h => h, fun _ h => absurd h (Nat.lt_irrefl _),
    fun _ h1 h2 _ => absurd (Nat.lt_of_le_of_lt h1 h2) (Nat.lt_irrefl _), fun _ _ => ⟨rfl, rfl⟩⟩

/-- Two pieces of a scan one after the other, compared in two runs. -/
theorem alike_trans (c : Nat) (b b1 b2 b3 b4 b5 : ScanBuf) (h1 : Alike c b b1 b2 b3)
    (h2 : Alike c b1 b4 b3 b5) : Alike c b b4 b2 b5 := by
  obtain ⟨p1, r1, m1, t1, s1, w1, u1⟩ := h1
  obtain ⟨p2, r2, m2, t2, s2, w2, u2⟩ := h2
  refine ⟨p2, r2, Nat.le_trans m1 m2, fun h => t2 (t1 h), fun hf hlt => ?_,
    fun i hi1 hi2 hi3 => ?_, fun i hi => ?_⟩
  · by_cases hlt2 : b1.p < b4.p
    · exact s2 hf hlt2
    · have e : b1.p = b4.p := by omega
      have hf1 : b1.ret = false := by
        cases hb : b1.ret with
        | false => rfl
        | true => rw [t2 hb] at hf; cases hf
      rw [← e]
      exact s1 hf1 (by omega)
  · by_cases hlt : i < b1.p
    · have e1 := u2 i (Or.inl hlt)
      rw [e1.1, e1.2]
      exact w1 i hi1 hlt hi3
    · exact w2 i (by omega) hi2 hi3
  · have e2 := u2 i (by omega)
    have e1 := u1 i (by omega)
    exact ⟨e2.1.trans e1.1, e2.2.trans e1.2⟩

/-- One slot of a leaf compared in two runs that agree on counter and flag:
the value written, if any, does not depend on what the buffer held. -/
theorem scan_point_alike (a : Axis) (q c : Nat) (b b2 : ScanBuf) (pt : QUADTREE_POINT)
    (hp : b.p = b2.p) (hr : b.ret = b2.ret) :
    Alike c b (scan_point a q c b pt) b2 (scan_point a q c b2 pt) := by
  unfold scan_point
  by_cases hk : a.key pt ≠ q
  · rw [if_pos hk, if_pos hk]
    exact alike_refl c b b2 hp hr
  · rw [if_neg hk, if_neg hk, ← hp, ← hr]
    by_cases hc : b.p < c
    · rw [if_pos hc, if_pos hc]
      refine ⟨rfl, rfl, Nat.le_succ _, fun h => h, fun _ _ => hc, fun i h1 h2 _ => ?_,
        fun i hi => ?_⟩
      · have e : i = b.p := by
          have h2 : i < b.p + 1 := h2
          omega
        simp only [e, if_true]
      · have e : i ≠ b.p := by
          rcases hi with hi | hi | hi
          · omega
          · have hi : b.p + 1 ≤ i := hi
            omega
          · omega
        simp only [e, if_false, and_self]
    · rw [if_neg hc, if_neg hc]
      cases hret : b.ret with
      | true =>
        simp only [Bool.not_true, Bool.false_eq_true, if_false]
        exact alike_refl c b b2 hp (hret ▸ hr)
      | false =>
        simp only [Bool.not_false, if_true]
        refine ⟨rfl, rfl, Nat.le_succ _, fun _ => rfl, fun h => Bool.noConfusion h, fun i h1 _ h3 => ?_,
          fun _ _ => ⟨rfl, rfl⟩⟩
        omega

/-- The loop over the slots of a leaf compared in two runs. -/
theorem scan_points_alike (a : Axis) (q c : Nat) (pts : List QUADTREE_POINT) :
    ∀ (b b2 : ScanBuf), b.p = b2.p → b.ret = b2.ret →
      Alike c b (pts.foldl (scan_point a q c) b) b2 (pts.foldl (scan_point a q c) b2) := by
  induction pts with
  | nil => intro b b2 hp hr; exact alike_refl c b b2 hp hr
  | cons pt pts ih =>
    intro b b2 hp hr
    have h1 := scan_point_alike a q c b b2 pt hp hr
    simp only [List.foldl_cons]
    exact alike_trans c _ _ _ _ _ _ h1 (ih _ _ h1.1 h1.2.1)

/-- One pass of the sort over cells inside `lo .. hi` of two buffers that hold
the same in these cells leaves them holding the same. -/
theorem sort_pass_congr (lo hi : Nat) (n : Nat) : ∀ (out out2 : Nat → Nat) (tmp : Nat),
    (∀ i, lo ≤ i → i ≤ hi → out i = out2 i) → lo ≤ tmp → tmp + n ≤ hi →
    ∀ i, lo ≤ i → i ≤ hi → sort_pass out tmp n i = sort_pass out2 tmp n i := by
  induction n with
  | zero => intro out out2 tmp h _ _ i h1 h2; exact h i h1 h2
  | succ n ih =>
    intro out out2 tmp h hl hh i h1 h2
    simp only [sort_pass]
    rw [← h tmp hl (by omega), ← h (tmp + 1) (by omega) (by omega)]
    refine ih _ _ (tmp + 1) (fun k hk1 hk2 => ?_) (by omega) (by omega) i h1 h2
    split
    · simp only [_quadtree_sort_swap]
      rw [h (tmp + 1) (by omega) (by omega), h tmp hl (by omega), h k hk1 hk2]
    · exact h k hk1 hk2

/-- The sort of a segment inside `lo .. hi` of two buffers that hold the same
in these cells leaves them holding the same. -/
theorem sort_loop_congr (lo hi : Nat) (len : Nat) : ∀ (out out2 : Nat → Nat) (start : Nat),
    (∀ i, lo ≤ i → i ≤ hi → out i = out2 i) → lo ≤ start → start + len ≤ hi →
    ∀ i, lo ≤ i → i ≤ hi → sort_loop out start len i = sort_loop out2 start len i := by
  induction len with
  | zero => intro out out2 start h _ _ i h1 h2; exact h i h1 h2
  | succ len ih =>
    intro out out2 start h hl hh i h1 h2
    simp only [sort_loop]
    exact ih _ _ start (sort_pass_congr lo hi (len + 1) out out2 start h hl hh) hl (by omega)
      i h1 h2

/-- The leaf branch compared in two runs: the segment it sorts is the one it
has just written. -/
theorem scan_leaf_alike (a : Axis) (q c : Nat) (pts : List QUADTREE_POINT) (b b2 : ScanBuf)
    (hp : b.p = b2.p) (hr : b.ret = b2.ret) :
    Alike c b (scan_leaf a q c pts b) b2 (scan_leaf a q c pts b2) := by
  have h := scan_points_alike a q c pts b b2 hp hr
  simp only [scan_leaf, _quadtree_sort_result_array]
  generalize pts.foldl (scan_point a q c) b = b1 at h ⊢
  generalize pts.foldl (scan_point a q c) b2 = b3 at h ⊢
  obtain ⟨p1, r1, m1, t1, s1, w1, u1⟩ := h
  rw [← r1, ← p1, ← hp]
  cases hret : b1.ret with
  | true =>
    simp only [Bool.not_true, Bool.false_eq_true, if_false]
    exact ⟨p1, r1, m1, t1, s1, w1, u1⟩
  | false =>
    simp only [Bool.not_false, if_true]
    refine ⟨rfl, rfl, m1, fun h => ?_, fun _ hlt => s1 hret hlt, fun i h1 h2 h3 => ?_,
      fun i hi => ?_⟩
    · have := t1 h
      rw [hret] at this
      cases this
    · have h2 : i < b1.p := h2
      have hc := s1 hret (by omega)
      have hlen : ((b1.p : Int) - 1 - (b.p : Int)).toNat = b1.p - 1 - b.p := by omega
      rw [hlen]
      exact sort_loop_congr b.p (b1.p - 1) _ b1.out b3.out b.p
        (fun k hk1 hk2 => w1 k hk1 (by omega) (by omega)) (Nat.le_refl _) (by omega) i h1
        (by omega)
    · have hi : i < b.p ∨ b1.p ≤ i ∨ c ≤ i := hi
      have e := u1 i hi
      by_cases hlt : b.p < b1.p
      · have hc := s1 hret hlt
        have hlen : ((b1.p : Int) - 1 - (b.p : Int)).toNat = b1.p - 1 - b.p := by omega
        rw [hlen]
        show sort_loop b1.out b.p (b1.p - 1 - b.p) i = b.out i ∧
          sort_loop b3.out b.p (b1.p - 1 - b.p) i = b2.out i
        rw [sort_loop_frame (b1.p - 1 - b.p) b1.out b.p i (by omega),
          sort_loop_frame (b1.p - 1 - b.p) b3.out b.p i (by omega)]
        exact e
      · have hlen : ((b1.p : Int) - 1 - (b.p : Int)).toNat = 0 := by omega
        rw [hlen]
        exact e

/-- The scan of a subtree compared in two runs that agree on counter and flag. -/
theorem scan_tree_alike (a : Axis) (q c : Nat) (n : QUADTREE_NODE) :
    ∀ (b b2 : ScanBuf), b.p = b2.p → b.ret = b2.ret →
      Alike c b (scan_tree a q c n b) b2 (scan_tree a q c n b2) := by
  induction n with
  | leaf r p0 p1 p2 p3 =>
    intro b b2 hp hr
    simp only [scan_tree]
    split
    · exact alike_refl c b b2 hp hr
    · exact scan_leaf_alike a q c _ b b2 hp hr
  | internal r m nw ne sw se ihnw ihne ihsw ihse =>
    intro b b2 hp hr
    simp only [scan_tree]
    split
    · exact alike_refl c b b2 hp hr
    · cases a with
      | x =>
        simp only []
        have h1 := ihsw b b2 hp hr
        have h2 := ihnw _ _ h1.1 h1.2.1
        have h3 := ihse _ _ h2.1 h2.2.1
        have h4 := ihne _ _ h3.1 h3.2.1
        exact alike_trans c _ _ _ _ _ _ (alike_trans c _ _ _ _ _ _
          (alike_trans c _ _ _ _ _ _ h1 h2) h3) h4
      | y =>
        simp only []
        have h1 := ihse b b2 hp hr
        have h2 := ihne _ _ h1.1 h1.2.1
        have h3 := ihsw _ _ h2.1 h2.2.1
        have h4 := ihnw _ _ h3.1 h3.2.1
        exact alike_trans c _ _ _ _ _ _ (alike_trans c _ _ _ _ _ _
          (alike_trans c _ _ _ _ _ _ h1 h2) h3) h4

/-- A scan of a subtree started again from the buffer it left, with the
counter and the flag it was started with, leaves that same buffer. -/
theorem scan_tree_again (a : Axis) (q c : Nat) (n : QUADTREE_NODE) (b : ScanBuf) :
    scan_tree a q c n ⟨(scan_tree a q c n b).out, b.p, b.ret⟩ = scan_tree a q c n b := by
  obtain ⟨p1, r1, m1, t1, s1, w1, u1⟩ :=
    scan_tree_alike a q c n b ⟨(scan_tree a q c n b).out, b.p, b.ret⟩ rfl rfl
  generalize scan_tree a q c n ⟨(scan_tree a q c n b).out, b.p, b.ret⟩ = b3 at *
  generalize hb1 : scan_tree a q c n b = b1 at *
  obtain ⟨o1, q1, f1⟩ := b1
  obtain ⟨o3, q3, f3⟩ := b3
  have p1 : q1 = q3 := p1
  have r1 : f1 = f3 := r1
  subst p1 r1
  have : o3 = o1 := by
    funext i
    by_cases hw : b.p ≤ i ∧ i < q1 ∧ i < c
    · exact (w1 i hw.1 hw.2.1 hw.2.2).symm
    · exact (u1 i (by
        have : ¬ (b.p ≤ i ∧ i < q1 ∧ i < c) := hw
        show i < b.p ∨ q1 ≤ i ∨ c ≤ i
        omega)).2
  rw [this]

/-- C16 (scans leave the tree unchanged).  Let `t` be a tree built by
`quadtree_init(xmax, xmax)` and calls of `quadtree_insert` that all returned
1, with its root subdivided, `q` a coordinate inside the root's range, and
take any capacity, buffer and starting `*p`.  On either axis the scan
returns, given enough fuel; and whenever it returns, the tree it leaves is
the tree it was given (same regions, same slots in every leaf, same
children, hence same parent links) and every internal node is back at
`points == NULL`.  So the same scan run again on the tree it left does what
it did on the tree before; and run again on the buffer it left, with `*p`
set back to its starting value, it returns the same value and leaves the
same `*p` and the same buffer. -/
theorem scan_restores_tree (xmax : Nat) (t : QUADTREE) (q c p : Nat) (out : Nat → Nat)
    (a : Axis) (hb : Built xmax t) (hs : subdivided t.root = true) (hq : q ≤ xmax) :
    (∃ k, ∀ fuel, ∃ r, scan_axis a (k + fuel) t q out p c = .ok r) ∧
    (∀ fuel r, scan_axis a fuel t q out p c = .ok r →
      r.root = t.root ∧ at_rest r.root ∧
      (∀ fuel2, scan_axis a fuel2 ⟨r.root⟩ q out p c = scan_axis a fuel2 t q out p c) ∧
      ∃ k2, ∀ fuel2, scan_axis a (k2 + fuel2) ⟨r.root⟩ q r.buf.out p c = .ok r) := by
  obtain ⟨log, hrun, _⟩ := hb
  obtain ⟨rg, nw, ne, sw, se, ht, h1, h2, hmax, hI⟩ := run_root xmax log t hrun hs
  have hr : ¬ (q < a.lo rg ∨ q > a.hi rg) := in_root_range a rg xmax q h1 h2 hq
  have hr2 : ¬ (q < a.lo t.root.region ∨ q > a.hi t.root.region) := by
    rw [ht]
    exact hr
  obtain ⟨k, hk⟩ := scan_loop_root a q c rg nw ne sw se ⟨out, p, false⟩
    (inv_at_rest _ _ hI) hr
  have hret : ∀ fuel, scan_axis a (k + (fuel + 1)) t q out p c =
      .ok ⟨t.root, scan_tree a q c t.root ⟨out, p, false⟩⟩ := by
    intro fuel
    rw [scan_axis_loop a _ t q c p out hr2, ht]
    exact hk fuel
  refine ⟨⟨k + 1, fun fuel => ⟨_, by
    rw [show k + 1 + fuel = k + (fuel + 1) by omega]
    exact hret fuel⟩⟩, fun fuel r h => ?_⟩
  have e1 := hret 0
  rw [scan_axis_loop a _ t q c p out hr2] at h e1
  have hrr := scan_loop_det a q c _ _ _ _ _ h e1
  subst hrr
  refine ⟨rfl, ?_, fun fuel2 => rfl, ?_⟩
  · show at_rest t.root
    rw [ht]
    exact inv_at_rest _ _ hI
  · obtain ⟨k2, hk2⟩ := scan_loop_root a q c rg nw ne sw se
      ⟨(scan_tree a q c t.root ⟨out, p, false⟩).out, p, false⟩ (inv_at_rest _ _ hI) hr
    refine ⟨k2 + 1, fun fuel2 => ?_⟩
    show scan_axis a (k2 + 1 + fuel2) ⟨t.root⟩ q
      (scan_tree a q c t.root ⟨out, p, false⟩).out p c = _
    rw [scan_axis_loop a _ ⟨t.root⟩ q c p _ hr2, show k2 + 1 + fuel2 = k2 + (fuel2 + 1) by omega]
    have e2 := hk2 fuel2
    rw [← ht] at e2
    rw [e2, scan_tree_again a q c t.root ⟨out, p, false⟩]

unseal U32 in
/-- Witness of `scan_restores_tree`: the scan along `x = 5` of a tree on
`[0, 63] x [0, 63]` that holds five points, with capacity 2. -/
theorem scan_restores_tree_witness :
    ∃ t log, build 8 63 [(5, 33), (5, 60), (5, 40), (5, 20), (5, 0)] = .ok (t, log) ∧
      Built 63 t ∧ subdivided t.root = true ∧ 5 ≤ 63 ∧
      (∃ k, ∀ fuel, ∃ r, scan_axis .x (k + fuel) t 5 (fun _ => 0) 0 2 = .ok r) ∧
      (∀ fuel r, scan_axis .x fuel t 5 (fun _ => 0) 0 2 = .ok r →
        r.root = t.root ∧ at_rest r.root ∧
        (∀ fuel2, scan_axis .x fuel2 ⟨r.root⟩ 5 (fun _ => 0) 0 2 =
          scan_axis .x fuel2 t 5 (fun _ => 0) 0 2) ∧
        ∃ k2, ∀ fuel2, scan_axis .x (k2 + fuel2) ⟨r.root⟩ 5 r.buf.out 0 2 = .ok r) := by
  refine ⟨_, _, rfl, ?_⟩
  have hr : Run 63 _ _ := (run_of_build 8 63 (by decide)
    [(5, 33), (5, 60), (5, 40), (5, 20), (5, 0)] _ _ (by decide) rfl).1
  have hb : Built 63 _ := ⟨_, hr, by decide⟩
  exact ⟨hb, rfl, by decide, scan_restores_tree 63 _ 5 2 0 (fun _ => 0) .x hb rfl (by decide)⟩

end Quadtree
